import Mathlib

/-!
# bankan: the greedy line wrapper of `customlabel.go`, tags, stages and boards

A shallow embedding of `wrapLine` and `wrapLines` (src/customlabel.go), of
the tag functions of src/tag.go, of `Item.SetFilterTags` (src/item.go),
`Stage.InsertItem` (src/stage.go) and `Board.ToggleFilterTag` (src/board.go),
and of the Go library functions they call, followed by theorems about them.

Modelling decisions

* A Go string is a sequence of bytes, `GoString := List Byte`.  The source
  mixes byte operations (`len(line)`, `line[:1]`) with a UTF-8 aware one
  (`strings.Split(line, "")`), so both levels are kept: `len` counts bytes,
  `explode` cuts a string into its UTF-8 sequences the way
  `utf8.DecodeRuneInString` delimits them, every invalid byte being a piece
  of its own.  On valid UTF-8 the pieces are the characters of the string.
* `fyne.MeasureText(s, textSize, textStyle).Width` is the parameter
  `measure : GoString → W`, a pure function. The definitions take the
  comparisons `<` and `<=` of the width type `W` as they come, with no law
  assumed of them. Two kinds of width types are used: a linear order, which
  is what the `float32` values that are numbers form, and `F32 W`, a number
  of a linear order `W` or NaN, every comparison with NaN being false as in
  Go.
* Go `int` values are `Int`; `/` on them truncates toward zero (`Int.tdiv`).
* Loops and the recursion take a fuel argument; running out of fuel is the
  result `timeout`, an out-of-range slice expression is the result `panic`.
  A call returns when some fuel gives `ok`; more fuel never changes a result
  (`wrapLine_mono`).
* A pointer `*Item` is an address into a heap of items (`ItemRef`, `Heap`),
  `nil` being `none`; slices are lists, and the `nil` slice is the empty list.
  Functions that can panic return an `Option`, `none` standing for the panic.
* A callback is a value of an abstract type; a function that calls it
  returns the callback together with the argument it hands over.
-/

namespace Bankan

/-! ## Go strings -/

/-- A byte of a Go string. -/
abbrev Byte := Fin 256

/-- A Go string: a sequence of bytes, not necessarily valid UTF-8. -/
abbrev GoString := List Byte

/-- The one-byte string `" "`. -/
def space : GoString := [32]

/-- Go `len(s)`: the number of bytes. -/
def len (s : GoString) : Int := s.length

/-- Go `strings.Join(elems, sep)`. -/
def Join : List GoString → GoString → GoString
  | [], _ => []
  | [a], _ => a
  | a :: b :: rest, sep => a ++ sep ++ Join (b :: rest) sep

/-- Go `strings.Split(s, sep)` for a one-byte separator `c`: the pieces
between the occurrences of `c`, always at least one piece. -/
def splitByte (c : Byte) : GoString → List GoString
  | [] => [[]]
  | b :: rest =>
    if b = c then [] :: splitByte c rest
    else
      match splitByte c rest with
      | [] => [[b]]
      | p :: ps => (b :: p) :: ps

/-- Tables `first` and `acceptRanges` of Go `unicode/utf8`: for the leading
byte of a multi-byte sequence, its size and the accepted range of the second
byte; `none` for ASCII and for bytes that cannot start a sequence. -/
def leadInfo (s0 : Nat) : Option (Nat × Nat × Nat) :=
  if s0 < 0xC2 then none
  else if s0 < 0xE0 then some (2, 0x80, 0xBF)
  else if s0 = 0xE0 then some (3, 0xA0, 0xBF)
  else if s0 < 0xED then some (3, 0x80, 0xBF)
  else if s0 = 0xED then some (3, 0x80, 0x9F)
  else if s0 < 0xF0 then some (3, 0x80, 0xBF)
  else if s0 = 0xF0 then some (4, 0x90, 0xBF)
  else if s0 < 0xF4 then some (4, 0x80, 0xBF)
  else if s0 = 0xF4 then some (4, 0x80, 0x8F)
  else none

/-- A continuation byte `0x80..0xBF`. -/
def isCont (b : Byte) : Bool := 0x80 ≤ b.val && b.val ≤ 0xBF

/-- The size returned by Go `utf8.DecodeRuneInString(s)`: the number of bytes
of the first UTF-8 sequence of `s`, `1` for an invalid or truncated one and
`0` for the empty string. -/
def decodeRuneSize (s : GoString) : Nat :=
  match s with
  | [] => 0
  | s0 :: rest =>
    match leadInfo s0.val with
    | none => 1
    | some (sz, lo, hi) =>
      if s.length < sz then 1
      else
        match rest with
        | [] => 1
        | s1 :: rest1 =>
          if s1.val < lo ∨ hi < s1.val then 1
          else if sz ≤ 2 then 2
          else
            match rest1 with
            | [] => 1
            | s2 :: rest2 =>
              if isCont s2 = false then 1
              else if sz ≤ 3 then 3
              else
                match rest2 with
                | [] => 1
                | s3 :: _ => if isCont s3 = false then 1 else 4

/-- The loop of Go `strings.explode(s, -1)`: cut off the first UTF-8 sequence
until nothing is left. -/
def explodeAux : Nat → GoString → List GoString
  | 0, _ => []
  | fuel + 1, s =>
    if s = [] then []
    else s.take (decodeRuneSize s) :: explodeAux fuel (s.drop (decodeRuneSize s))

/-- Go `strings.Split(s, "")`, that is `explode(s, -1)`: `s` cut into its UTF-8
sequences, every invalid byte being a piece of its own. -/
def explode (s : GoString) : List GoString := explodeAux s.length s

/-- Go `strings.Split(s, sep)` for the two separators `wrapLine` uses: the
empty separator explodes `s` into UTF-8 sequences, the one-byte separator cuts
at each of its occurrences. -/
def Split (s sep : GoString) : List GoString :=
  match sep with
  | [] => explode s
  | c :: _ => splitByte c s

/-! ## wrapLine -/

/-- The four local variables of the binary search in `wrapLine`. -/
structure SearchState where
  wrapIndex : Int
  wrapIndexStep : Int
  rangeUpperIndex : Int
  rangeLowerIndex : Int
deriving DecidableEq, Repr

/-- What one pass through the body of `innerLoop` does. -/
inductive Step where
  /-- go round the inner loop again -/
  | next (st : SearchState)
  /-- `return append([candidate], wrapLine(rest)...)` -/
  | emit (candidate rest : GoString)
  /-- `sep = ""; break innerLoop` -/
  | retry
  /-- slice bounds out of range -/
  | panic
deriving DecidableEq, Repr

/-- The result of running `innerLoop`. -/
inductive SearchResult where
  | emit (candidate rest : GoString)
  | retry
  | panic
  | timeout
deriving DecidableEq, Repr

/-- The result of the outer `for` loop of `wrapLine`. -/
inductive Emission where
  | emit (candidate rest : GoString)
  | panic
  | timeout
deriving DecidableEq, Repr

/-- The result of a call of `wrapLine`. -/
inductive Outcome where
  | ok (segs : List GoString)
  | panic
  | timeout
deriving DecidableEq, Repr

/-- Go `append([]string{ candidate }, restResult...)` under a result. -/
def Outcome.prepend (candidate : GoString) : Outcome → Outcome
  | .ok segs => .ok (candidate :: segs)
  | .panic => .panic
  | .timeout => .timeout

section
variable {W : Type} [LT W] [LE W] [DecidableRel (fun a b : W => a < b)]
  [DecidableRel (fun a b : W => a ≤ b)]

/-- One pass through the body of `innerLoop` (source lines 113-158): build
the candidate, measure it, and take the first `switch` case that applies.
When no case applies the loop goes round with the state unchanged. -/
def switchStep (measure : GoString → W) (maxWidth : W) (parts : List GoString)
    (sep : GoString) (st : SearchState) : Step :=
  if st.wrapIndex < 0 ∨ (parts.length : Int) < st.wrapIndex then .panic
  else
    let candidate := Join (parts.take st.wrapIndex.toNat) sep
    let width := measure candidate
    if st.wrapIndexStep > 0 ∧ width < maxWidth then
      let rangeLowerIndex := st.wrapIndex
      let wrapIndexStep := Int.tdiv (st.rangeUpperIndex - rangeLowerIndex) 2
      .next ⟨st.wrapIndex + wrapIndexStep, wrapIndexStep, st.rangeUpperIndex, rangeLowerIndex⟩
    else if st.wrapIndexStep > 0 ∧ width > maxWidth then
      let rangeUpperIndex := st.wrapIndex
      let wrapIndexStep := Int.tdiv (rangeUpperIndex - st.rangeLowerIndex + 1) 2
      .next ⟨st.wrapIndex - wrapIndexStep, wrapIndexStep, rangeUpperIndex, st.rangeLowerIndex⟩
    else if st.wrapIndex > 0 ∧ width ≤ maxWidth then
      .emit candidate (Join (parts.drop st.wrapIndex.toNat) sep)
    else if st.wrapIndex < 2 ∧ sep ≠ [] then .retry
    else if st.wrapIndex < 2 then
      .emit candidate (Join (parts.drop st.wrapIndex.toNat) sep)
    else .next st

/-- The loop labelled `innerLoop` (source lines 111-159). -/
def innerLoop (measure : GoString → W) (maxWidth : W) (parts : List GoString)
    (sep : GoString) : Nat → SearchState → SearchResult
  | 0, _ => .timeout
  | fuel + 1, st =>
    match switchStep measure maxWidth parts sep st with
    | .next st' => innerLoop measure maxWidth parts sep fuel st'
    | .emit candidate rest => .emit candidate rest
    | .retry => .retry
    | .panic => .panic

/-- The state the binary search starts in (source lines 106-109). -/
def initialState (partCount : Int) : SearchState :=
  ⟨Int.tdiv (partCount + 1) 2, 1, partCount - 1, 0⟩

/-- The outer `for` loop of `wrapLine` (source lines 94-160), entered with
separator `sep`. -/
def outerLoop (measure : GoString → W) (maxWidth : W) (line : GoString) :
    Nat → GoString → Emission
  | 0, _ => .timeout
  | fuel + 1, sep =>
    let parts := Split line sep
    let partCount : Int := parts.length
    if partCount < 2 ∧ sep ≠ [] then outerLoop measure maxWidth line fuel []
    else
      match innerLoop measure maxWidth parts sep fuel (initialState partCount) with
      | .retry => outerLoop measure maxWidth line fuel []
      | .emit candidate rest => .emit candidate rest
      | .panic => .panic
      | .timeout => .timeout

/-- The function `wrapLine` (source lines 76-161). -/
def wrapLine (measure : GoString → W) (maxWidth : W) : Nat → GoString → Outcome
  | 0, _ => .timeout
  | fuel + 1, line =>
    if len line < 2 then .ok [line]
    else if measure line ≤ maxWidth then .ok [line]
    else if measure (line.take 1) > maxWidth then .ok [line]
    else
      match outerLoop measure maxWidth line fuel space with
      | .emit candidate rest => (wrapLine measure maxWidth fuel rest).prepend candidate
      | .panic => .panic
      | .timeout => .timeout

end

section
variable {W : Type} [LT W] [LE W] [DecidableRel (fun a b : W => a < b)]
  [DecidableRel (fun a b : W => a ≤ b)]

/-- The measured width of the candidate built from the first `i` parts. -/
def widthAt (measure : GoString → W) (parts : List GoString) (sep : GoString) (i : Int) : W :=
  measure (Join (parts.take i.toNat) sep)

/-- What holds of the search variables every time the body of `innerLoop` is
entered. -/
structure SearchInv (measure : GoString → W) (maxWidth : W) (parts : List GoString)
    (sep : GoString) (st : SearchState) : Prop where
  lower_nonneg : 0 ≤ st.rangeLowerIndex
  lower_le : st.rangeLowerIndex ≤ st.wrapIndex
  index_le : st.wrapIndex ≤ parts.length
  upper_le : st.rangeUpperIndex ≤ parts.length
  index_le_upper : st.wrapIndex ≤ st.rangeUpperIndex + 1
  lower_fits : st.rangeLowerIndex ≠ 0 → widthAt measure parts sep st.rangeLowerIndex < maxWidth
  stable : st.wrapIndexStep ≤ 0 →
    st.wrapIndex = 0 ∨ widthAt measure parts sep st.wrapIndex < maxWidth
  gap : 0 < st.wrapIndexStep →
    st.rangeLowerIndex < st.wrapIndex ∨ st.rangeUpperIndex ≤ st.rangeLowerIndex + 1

/-- A bound on the number of passes `innerLoop` still makes from a state. -/
def searchMeasure (st : SearchState) : Nat :=
  if 0 < st.wrapIndexStep then
    (2 * (max st.rangeUpperIndex st.wrapIndex - st.rangeLowerIndex)
      + (if st.rangeUpperIndex ≤ st.wrapIndex then 1 else 0) + 1).toNat
  else 0

/-- The pass through the loop body in state `st` leaves the loop with `res`. -/
def Finishes (measure : GoString → W) (maxWidth : W) (parts : List GoString)
    (sep : GoString) (st : SearchState) : SearchResult → Prop
  | .emit candidate rest => switchStep measure maxWidth parts sep st = .emit candidate rest
  | .retry => switchStep measure maxWidth parts sep st = .retry
  | .panic => switchStep measure maxWidth parts sep st = .panic
  | .timeout => False

end

/-! ## Vocabulary of the specification -/

/-- The segments put back together, with the junction `juncs[i]` between
segment `i` and segment `i + 1`. -/
def weave : List GoString → List GoString → GoString
  | [], _ => []
  | [s], _ => s
  | s :: t :: rest, [] => s ++ weave (t :: rest) []
  | s :: t :: rest, j :: js => s ++ j ++ weave (t :: rest) js

/-- The first character of a line: its first UTF-8 sequence, the first part
of `strings.Split(line, "")`. -/
def firstChar (line : GoString) : GoString := line.take (decodeRuneSize line)

/-- The first word of a line: the first part of `strings.Split(line, " ")`. -/
def firstWord (line : GoString) : GoString := (Split line space).headD []

/-- The bytes of a string literal in UTF-8, to write Go string literals. -/
def str (s : String) : GoString := s.toUTF8.data.toList.map (fun b => b.val)

/-- The synthetic measure of the specification, `measure(s) = len(s)`. -/
def byteLen (s : GoString) : Int := s.length

/-- The Go string `"é"`: one character, the two bytes `C3 A9`. -/
def eAcute : GoString := [0xC3, 0xA9]

/-- The Go string `"aé"`: two characters, three bytes. -/
def aEAcute : GoString := [0x61, 0xC3, 0xA9]

section
variable {W : Type} [LT W] [LE W] [DecidableRel (fun a b : W => a < b)]
  [DecidableRel (fun a b : W => a ≤ b)]

/-- Monotonic measure: adding characters at the end never decreases the width. -/
def Monotonic (measure : GoString → W) : Prop :=
  ∀ s t : GoString, measure s ≤ measure (s ++ t)

end

/-- The Go string `"日本"`: two characters of three bytes each. -/
def nihon : GoString := [0xE6, 0x97, 0xA5, 0xE6, 0x9C, 0xAC]

/-- The Go string `"€"`: one character, the three bytes `E2 82 AC`. -/
def euro : GoString := [0xE2, 0x82, 0xAC]

/-- The Go string `"éa"`: two characters, three bytes. -/
def eAcuteA : GoString := [0xC3, 0xA9, 0x61]

/-- The Go string `"éa b"`. -/
def eAcuteAB : GoString := [0xC3, 0xA9, 0x61, 0x20, 0x62]

/-- A measure that is not monotonic: `"é"` alone is 9 wide, every other
string is as wide as it has bytes. -/
def accentMeasure (s : GoString) : Int := if s = eAcute then 9 else s.length


section
variable {W : Type} [LT W] [LE W] [DecidableRel (fun a b : W => a < b)]
  [DecidableRel (fun a b : W => a ≤ b)]

/-- Some `case` of the `switch` in `innerLoop` applies in state `st`
(source lines 117, 127, 137, 145, 151). -/
def caseApplies (measure : GoString → W) (maxWidth : W) (parts : List GoString)
    (sep : GoString) (st : SearchState) : Prop :=
  (st.wrapIndexStep > 0 ∧ widthAt measure parts sep st.wrapIndex < maxWidth) ∨
  (st.wrapIndexStep > 0 ∧ widthAt measure parts sep st.wrapIndex > maxWidth) ∨
  (st.wrapIndex > 0 ∧ widthAt measure parts sep st.wrapIndex ≤ maxWidth) ∨
  (st.wrapIndex < 2 ∧ sep ≠ []) ∨
  st.wrapIndex < 2

/-- The states in which the body of `innerLoop` is entered, in order, when
the loop is started in `st` and given `fuel` passes. -/
def searchStates (measure : GoString → W) (maxWidth : W) (parts : List GoString)
    (sep : GoString) : Nat → SearchState → List SearchState
  | 0, _ => []
  | fuel + 1, st =>
    st ::
      match switchStep measure maxWidth parts sep st with
      | .next st' => searchStates measure maxWidth parts sep fuel st'
      | _ => []

end


/-! ## CustomLabel.wrapLines -/

/-- Go `color.RGBA`. -/
structure RGBA where
  R : Byte
  G : Byte
  B : Byte
  A : Byte
deriving DecidableEq, Repr

/-- Go `fyne.Size`, over the type `F` of `float32` values. -/
structure Size (F : Type) where
  Width : F
  Height : F

/-- The struct `PaintStyle` (source lines 18-21). -/
structure PaintStyle (F : Type) where
  Foreground : RGBA
  Background : RGBA
  Stroke : RGBA
  StrokeWidth : F

/-- The struct `Paddings` (source lines 24-26). -/
structure Paddings (F : Type) where
  Top : F
  Bottom : F
  Left : F
  Right : F

/-- The struct `CustomLabel` (source lines 29-38); `size` is what `w.Size()`
of the embedded `widget.BaseWidget` returns, `F` the type of `float32` values
and `S` the type `fyne.TextStyle`. -/
structure CustomLabel (F S : Type) where
  size : Size F
  Alignment : Int
  Style : PaintStyle F
  LineWrapping : Bool
  Text : GoString
  TextSize : F
  TextStyle : S
  BackgroundPaddings : Paddings F
  TextPaddings : Paddings F

section
variable {F S : Type} [LT F] [LE F] [DecidableRel (fun a b : F => a < b)]
  [DecidableRel (fun a b : F => a ≤ b)] [Sub F]

/-- The `maxWidth` computed by `wrapLines` (source line 167). -/
def CustomLabel.maxWidth (w : CustomLabel F S) : F :=
  w.size.Width - w.TextPaddings.Left - w.TextPaddings.Right

/-- The measure `wrapLines` hands to `wrapLine`: the width `fyne.MeasureText`
gives with the text size and style of the label. -/
def CustomLabel.measure (MeasureText : GoString → F → S → Size F) (w : CustomLabel F S) :
    GoString → F :=
  fun s => (MeasureText s w.TextSize w.TextStyle).Width

/-- The `for` loop of `wrapLines` (source lines 169-172), with the slice
`linesWrapped` built so far. -/
def wrapLinesLoop (measure : GoString → F) (maxWidth : F) (fuel : Nat) :
    List GoString → List GoString → Outcome
  | [], linesWrapped => .ok linesWrapped
  | line :: rest, linesWrapped =>
    match wrapLine measure maxWidth fuel line with
    | .ok subLines => wrapLinesLoop measure maxWidth fuel rest (linesWrapped ++ subLines)
    | .panic => .panic
    | .timeout => .timeout

/-- The method `CustomLabel.wrapLines` (source lines 164-178). -/
def CustomLabel.wrapLines (MeasureText : GoString → F → S → Size F) (w : CustomLabel F S)
    (fuel : Nat) (lines : List GoString) : Outcome :=
  if w.LineWrapping then
    wrapLinesLoop (w.measure MeasureText) w.maxWidth fuel lines []
  else .ok lines

end

/-! ## Tags and items -/

/-- The struct `Tag` (tag.go, lines 14-16). -/
structure Tag where
  Expression : GoString
deriving DecidableEq, Repr

/-- The struct `ItemStyle` (item.go, lines 17-19). -/
structure ItemStyle where
  Foreground : RGBA
  Background : RGBA
deriving DecidableEq, Repr

/-- Go `fyne.Position`, over the type `F` of `float32` values. -/
structure Position (F : Type) where
  X : F
  Y : F

/-- The struct `Item` (item.go, lines 22-32); `Hidden` is the field of the
embedded `widget.BaseWidget` that `Show` and `Hide` set. -/
structure Item (F : Type) where
  Hidden : Bool
  Title : GoString
  Description : GoString
  Tags : List Tag
  Style : ItemStyle
  Expanded : Bool
  dragActive : Bool
  dragStartPosition : Position F
  dragEndPosition : Position F

section
variable {F : Type}

/-- The method `Show` of `widget.BaseWidget`: the widget becomes visible. -/
def Item.Show (w : Item F) : Item F := { w with Hidden := false }

/-- The method `Hide` of `widget.BaseWidget`: the widget is no longer visible. -/
def Item.Hide (w : Item F) : Item F := { w with Hidden := true }

/-- The method `Visible` of `widget.BaseWidget`. -/
def Item.Visible (w : Item F) : Bool := !w.Hidden

/-- The inner loop of `SetFilterTags` (item.go, lines 109-114): run through
the tags of the item, set `match` and leave at the first tag equal to
`filterTag`. -/
def matchTags (filterTag : Tag) : List Tag → Bool → Bool
  | [], m => m
  | tag :: rest, m => if tag = filterTag then true else matchTags filterTag rest m

/-- The outer loop of `SetFilterTags` (item.go, lines 108-115). -/
def matchFilterTags (tags : List Tag) : List Tag → Bool → Bool
  | [], m => m
  | filterTag :: rest, m => matchFilterTags tags rest (matchTags filterTag tags m)

/-- The method `Item.SetFilterTags` (item.go, lines 105-122). -/
def Item.SetFilterTags (w : Item F) (filterTags : List Tag) : Item F :=
  if matchFilterTags w.Tags filterTags false = true ∨ (filterTags.length : Int) < 1 then w.Show
  else w.Hide

end


/-- A label 9 wide with text paddings 2 left and right and line wrapping
enabled, over integer widths. -/
def demoLabel : CustomLabel Int Unit where
  size := ⟨9, 20⟩
  Alignment := 0
  Style := ⟨⟨0, 0, 0, 255⟩, ⟨255, 255, 255, 255⟩, ⟨0, 0, 0, 0⟩, 1⟩
  LineWrapping := true
  Text := str "hello world\nabcdefgh"
  TextSize := 14
  TextStyle := ()
  BackgroundPaddings := ⟨0, 0, 0, 0⟩
  TextPaddings := ⟨0, 0, 2, 2⟩

/-- A text measurement that gives every byte the width 1 and every text the
height 1. -/
def demoMeasureText : GoString → Int → Unit → Size Int := fun s _ _ => ⟨s.length, 1⟩

/-! ## ParseTagEditString and the library functions it calls -/

/-- Go `utf8.RuneError`, the replacement character U+FFFD. -/
def RuneError : Nat := 0xFFFD

/-- Go `utf8.DecodeRuneInString(s)`: the first character of `s` and its size
in bytes; `(RuneError, 1)` for an invalid or truncated sequence and
`(RuneError, 0)` for the empty string. -/
def decodeRune (s : GoString) : Nat × Nat :=
  match s with
  | [] => (RuneError, 0)
  | s0 :: rest =>
    match leadInfo s0.val with
    | none => if s0.val < 0x80 then (s0.val, 1) else (RuneError, 1)
    | some (sz, lo, hi) =>
      if s.length < sz then (RuneError, 1)
      else
        match rest with
        | [] => (RuneError, 1)
        | s1 :: rest1 =>
          if s1.val < lo ∨ hi < s1.val then (RuneError, 1)
          else if sz ≤ 2 then (s0.val % 32 * 64 + s1.val % 64, 2)
          else
            match rest1 with
            | [] => (RuneError, 1)
            | s2 :: rest2 =>
              if isCont s2 = false then (RuneError, 1)
              else if sz ≤ 3 then (s0.val % 16 * 4096 + s1.val % 64 * 64 + s2.val % 64, 3)
              else
                match rest2 with
                | [] => (RuneError, 1)
                | s3 :: _ =>
                  if isCont s3 = false then (RuneError, 1)
                  else
                    (s0.val % 8 * 262144 + s1.val % 64 * 4096 + s2.val % 64 * 64
                      + s3.val % 64, 4)

/-- Go `utf8.RuneStart(b)`: `b` is not a continuation byte. -/
def RuneStart (b : Byte) : Bool := !(0x80 ≤ b.val && b.val ≤ 0xBF)

/-- The loop of Go `utf8.DecodeLastRuneInString` that moves `start` back to
the first byte of the last character, not below `lim`. -/
def lastRuneStart (s : GoString) (lim : Int) : Nat → Int → Int
  | 0, start => start
  | fuel + 1, start =>
    if start ≥ lim then
      if RuneStart (s.getD start.toNat 0) = true then start
      else lastRuneStart s lim fuel (start - 1)
    else start

/-- Go `utf8.DecodeLastRuneInString(s)`: the last character of `s` and its
size in bytes. -/
def decodeLastRune (s : GoString) : Nat × Nat :=
  let end_ : Int := s.length
  if end_ = 0 then (RuneError, 0)
  else
    let r := (s.getD (end_ - 1).toNat 0).val
    if r < 0x80 then (r, 1)
    else
      let lim : Int := if end_ - 4 < 0 then 0 else end_ - 4
      let start := lastRuneStart s lim 4 (end_ - 2)
      let start := if start < 0 then 0 else start
      let (r, size) := decodeRune (s.drop start.toNat)
      if start + size ≠ end_ then (RuneError, 1) else (r, size)

/-- Go `unicode.IsSpace(r)`: the Latin-1 spaces, else the `White_Space`
property. -/
def IsSpace (r : Nat) : Bool :=
  if r ≤ 0xFF then
    r = 0x09 || r = 0x0A || r = 0x0B || r = 0x0C || r = 0x0D || r = 0x20 || r = 0x85 || r = 0xA0
  else
    r = 0x1680 || (0x2000 ≤ r && r ≤ 0x200A) || r = 0x2028 || r = 0x2029 || r = 0x202F
      || r = 0x205F || r = 0x3000

/-- The table `asciiSpace` of Go `strings`. -/
def asciiSpace (c : Byte) : Bool :=
  c.val = 0x09 || c.val = 0x0A || c.val = 0x0B || c.val = 0x0C || c.val = 0x0D || c.val = 0x20

/-- Go `strings.TrimLeftFunc(s, f)`: `s` from its first character that does
not satisfy `f`, the empty string when there is none. -/
def TrimLeftFunc (f : Nat → Bool) : Nat → GoString → GoString
  | 0, _ => []
  | fuel + 1, s =>
    if s = [] then []
    else if f (decodeRune s).1 = false then s
    else TrimLeftFunc f fuel (s.drop (decodeRune s).2)

/-- Go `strings.lastIndexFunc(s, f, false)`: the index of the last character
of `s[0:i]` that does not satisfy `f`, or -1. -/
def lastIndexFunc (f : Nat → Bool) (s : GoString) : Nat → Nat → Int
  | 0, _ => -1
  | fuel + 1, i =>
    if i = 0 then -1
    else
      let i' := i - (decodeLastRune (s.take i)).2
      if f (decodeLastRune (s.take i)).1 = false then (i' : Int)
      else lastIndexFunc f s fuel i'

/-- Go `strings.TrimRightFunc(s, f)`. -/
def TrimRightFunc (f : Nat → Bool) (s : GoString) : GoString :=
  let i := lastIndexFunc f s s.length s.length
  if i ≥ 0 ∧ (s.getD i.toNat 0).val ≥ 0x80 then
    s.take (i + (decodeRune (s.drop i.toNat)).2).toNat
  else s.take (i + 1).toNat

/-- Go `strings.TrimFunc(s, f)`. -/
def TrimFunc (f : Nat → Bool) (s : GoString) : GoString :=
  TrimRightFunc f (TrimLeftFunc f s.length s)

/-- The second loop of Go `strings.TrimSpace`, on `t = s[start:]`: look for
the last ASCII non-space byte below `stop`. -/
def trimSpaceStop (t : GoString) : Nat → GoString
  | 0 => []
  | stop + 1 =>
    if (t.getD stop 0).val ≥ 0x80 then TrimRightFunc IsSpace (t.take (stop + 1))
    else if asciiSpace (t.getD stop 0) = true then trimSpaceStop t stop
    else t.take (stop + 1)

/-- The first loop of Go `strings.TrimSpace`: look for the first ASCII
non-space byte, then run the second loop. -/
def trimSpaceStart : GoString → GoString
  | [] => []
  | c :: rest =>
    if c.val ≥ 0x80 then TrimFunc IsSpace (c :: rest)
    else if asciiSpace c = true then trimSpaceStart rest
    else trimSpaceStop (c :: rest) (c :: rest).length

/-- Go `strings.TrimSpace(s)`. -/
def TrimSpace (s : GoString) : GoString := trimSpaceStart s

/-- The first loop of `ParseTagEditString` (tag.go, lines 28-33): trim every
expression in place and count the nonempty ones. -/
def trimExpressions : List GoString → Int → List GoString × Int
  | [], validCount => ([], validCount)
  | expression :: rest, validCount =>
    let trimmed := TrimSpace expression
    let validCount := if len trimmed > 0 then validCount + 1 else validCount
    ((trimExpressions rest validCount).1.cons trimmed, (trimExpressions rest validCount).2)

/-- The second loop of `ParseTagEditString` (tag.go, lines 37-42): store the
nonempty expressions in `tags`, from index `i` on; `none` when an index is
out of range. -/
def fillTags : List GoString → List Tag → Int → Option (List Tag)
  | [], tags, _ => some tags
  | expression :: rest, tags, i =>
    if len expression > 0 then
      if 0 ≤ i ∧ i < tags.length then
        fillTags rest (tags.set i.toNat ⟨expression⟩) (i + 1)
      else none
    else fillTags rest tags i

/-- The function `ParseTagEditString` (tag.go, lines 20-45); `none` stands for
a run-time panic, the `nil` slice is the empty list. -/
def ParseTagEditString (tagString : GoString) : Option (List Tag) :=
  if len tagString < 1 then some []
  else
    let expressions := Split tagString [0x3B]
    let (expressions, validCount) := trimExpressions expressions 0
    let tags := List.replicate validCount.toNat (⟨[]⟩ : Tag)
    fillTags expressions tags 0

/-- A string starts with a whitespace character. -/
def leadingSpace (s : GoString) : Prop := s ≠ [] ∧ IsSpace (decodeRune s).1 = true

/-- A string ends with a whitespace character. -/
def trailingSpace (s : GoString) : Prop := s ≠ [] ∧ IsSpace (decodeLastRune s).1 = true

/-- Every character of the string is a whitespace character. -/
def OnlySpace (s : GoString) : Prop := ∀ u ∈ explode s, IsSpace (decodeRune u).1 = true

/-! ## The last case of the search -/

section
variable {W : Type} [LT W] [LE W] [DecidableRel (fun a b : W => a < b)]
  [DecidableRel (fun a b : W => a ≤ b)]

/-- The last `case` of the `switch` in `innerLoop` (source line 151) is the
one taken in state `st`: none of the four cases before it applies and
`wrapIndex < 2`. -/
def lastCaseTaken (measure : GoString → W) (maxWidth : W) (parts : List GoString)
    (sep : GoString) (st : SearchState) : Prop :=
  ¬ (st.wrapIndexStep > 0 ∧ widthAt measure parts sep st.wrapIndex < maxWidth) ∧
  ¬ (st.wrapIndexStep > 0 ∧ widthAt measure parts sep st.wrapIndex > maxWidth) ∧
  ¬ (st.wrapIndex > 0 ∧ widthAt measure parts sep st.wrapIndex ≤ maxWidth) ∧
  ¬ (st.wrapIndex < 2 ∧ sep ≠ []) ∧
  st.wrapIndex < 2

end

/-! ## Composing and displaying tags -/

/-- The function `ComposeTagEditString` (tag.go, lines 48-56): the buffer
after `fmt.Fprintf(buffer, "%s; ", tag.Expression)` for every tag in order. -/
def ComposeTagEditString (tags : List Tag) : GoString :=
  tags.foldl (fun buffer tag => buffer ++ (tag.Expression ++ [0x3B, 0x20])) []

/-- The loop of Go `strings.IndexByte(s, c)`, at index `i`: the index of the
first byte equal to `c`, or -1. -/
def indexByteLoop (c : Byte) : GoString → Int → Int
  | [], _ => -1
  | b :: rest, i => if b = c then i else indexByteLoop c rest (i + 1)

/-- Go `strings.IndexByte(s, c)`, which `strings.Index` calls for a
separator of one byte. -/
def IndexByte (s : GoString) (c : Byte) : Int := indexByteLoop c s 0

/-- Go `strings.Cut(s, sep)` for a one-byte separator `c`: the text before
and after the first `c` and `true`, or `s`, `""` and `false`. -/
def Cut (s : GoString) (c : Byte) : GoString × GoString × Bool :=
  let i := IndexByte s c
  if i ≥ 0 then (s.take i.toNat, s.drop (i + 1).toNat, true) else (s, [], false)

/-- The method `Tag.DisplayString` (tag.go, lines 60-68); `fmt.Sprintf` with
`"%s: %s"` puts `": "` between the two strings. -/
def Tag.DisplayString (t : Tag) : GoString :=
  match Cut t.Expression 0x3D with
  | (before, after, found) => if found then before ++ [0x3A, 0x20] ++ after else before

/-! ## Stages and boards -/

/-- A pointer `*Item`: `none` is `nil`, `some a` points to the item allocated
at address `a`. -/
abbrev ItemRef := Option Nat

/-- The items allocated so far: the item at address `a` is the `a`-th entry. -/
abbrev Heap (F : Type) := List (Item F)

/-- The struct `Stage` (stage.go, lines 17-21), without the rendering state
of the embedded `widget.BaseWidget`. -/
structure Stage where
  Title : GoString
  Items : List ItemRef
deriving DecidableEq, Repr

/-- The struct `Board` (board.go, lines 17-23), without the rendering state
of the embedded `widget.BaseWidget`; the stage pointers are dereferenced, and
`C` is the type of the callbacks `func(tagEditString string)`, with `none`
for `nil`. -/
structure Board (C : Type) where
  Name : GoString
  Stages : List Stage
  FilterTags : List Tag
  OnFilterChanged : Option C

section
variable {F : Type}

/-- The callback of `Item.ShowEditItemDialog` (item.go, lines 68-74), called
with the contents of the dialog when it is confirmed. -/
def Item.editConfirmed (w : Item F) (title tagEditString description : GoString)
    (style : ItemStyle) : Option (Item F) :=
  match ParseTagEditString tagEditString with
  | none => none
  | some tags =>
    some { w with Title := title, Tags := tags, Description := description, Style := style }

/-- The function `NewItem` (item.go, lines 48-53): allocate an item with the
given fields, every other field zero, and return the pointer to it. -/
def NewItem [Zero F] (heap : Heap F) (title : GoString) (tags : List Tag)
    (description : GoString) (style : ItemStyle) : Heap F × ItemRef :=
  (heap ++ [{ Hidden := false, Title := title, Description := description, Tags := tags,
              Style := style, Expanded := false, dragActive := false,
              dragStartPosition := ⟨0, 0⟩, dragEndPosition := ⟨0, 0⟩ }],
    some heap.length)

/-- The loop of `Stage.ItemIndex` (stage.go, lines 47-51), at index `i`. -/
def itemIndexLoop (toFind : ItemRef) : List ItemRef → Int → Int
  | [], _ => -1
  | item :: rest, i => if item = toFind then i else itemIndexLoop toFind rest (i + 1)

/-- The method `Stage.ItemIndex` (stage.go, lines 46-53): pointers are
compared. -/
def Stage.ItemIndex (w : Stage) (toFind : ItemRef) : Int := itemIndexLoop toFind w.Items 0

/-- Go `copy(dst, src)` seen from `dst`: its first `min(len(dst), len(src))`
elements become those of `src`. -/
def copySlice {α : Type} (dst src : List α) : List α :=
  src.take dst.length ++ dst.drop src.length

/-- The loop of `stageRenderer.Refresh` (stage.go, lines 220-222) that adds
every item of the stage to the item container. `Container.Add` lays the
container out, which calls methods of the item through its pointer, so a `nil`
or dangling pointer is a run-time panic, `none`. -/
def refreshItemsLoop (heap : Heap F) : List ItemRef → Option Unit
  | [] => some ()
  | none :: _ => none
  | some a :: rest => if a < heap.length then refreshItemsLoop heap rest else none

/-- The call `w.Refresh()` of a stage whose widget has been extended, as
`NewStage` does: it runs `stageRenderer.Refresh` (stage.go, lines 212-224).
Only what can make it panic is kept, the rendering state is left out. -/
def Stage.Refresh (heap : Heap F) (w : Stage) : Option Unit := refreshItemsLoop heap w.Items

/-- The method `Stage.InsertItem` (stage.go, lines 76-93); `none` stands for
a run-time panic (slice bounds or index out of range, or a `nil` item pointer
met by `w.Refresh()`). -/
def Stage.InsertItem [Zero F] (heap : Heap F) (w : Stage) (after : Bool) (reference : ItemRef)
    (title : GoString) (tags : List Tag) (description : GoString) (style : ItemStyle) :
    Option (Heap F × Stage × Bool) :=
  let i := w.ItemIndex reference
  if i < 0 then some (heap, w, false)
  else
    let i := if after = true then i + 1 else i
    let items := w.Items ++ [none]
    if i + 1 < 0 ∨ (items.length : Int) < i + 1 ∨ i < 0 then none
    else
      let items := items.take (i + 1).toNat
        ++ copySlice (items.drop (i + 1).toNat) (items.drop i.toNat)
      match NewItem heap title tags description style with
      | (heap, item) =>
        if (items.length : Int) ≤ i then none
        else
          let w : Stage := { w with Items := items.set i.toNat item }
          match w.Refresh heap with
          | none => none
          | some _ => some (heap, w, true)

/-- The loop of `Stage.SetFilterTags` (stage.go, lines 149-151): call
`SetFilterTags` on every item of the stage; `none` stands for the panic of a
`nil` or dangling pointer. -/
def setFilterTagsLoop (filterTags : List Tag) : List ItemRef → Heap F → Option (Heap F)
  | [], heap => some heap
  | none :: _, _ => none
  | some a :: rest, heap =>
    match heap.get? a with
    | none => none
    | some item => setFilterTagsLoop filterTags rest (heap.set a (item.SetFilterTags filterTags))

/-- The method `Stage.SetFilterTags` (stage.go, lines 148-152). -/
def Stage.SetFilterTags (w : Stage) (filterTags : List Tag) (heap : Heap F) : Option (Heap F) :=
  setFilterTagsLoop filterTags w.Items heap

/-- The loop of `Board.ApplyTagFilter` (board.go, lines 147-149). -/
def applyTagFilterLoop (filterTags : List Tag) : List Stage → Heap F → Option (Heap F)
  | [], heap => some heap
  | stage :: rest, heap =>
    match stage.SetFilterTags filterTags heap with
    | none => none
    | some heap => applyTagFilterLoop filterTags rest heap

variable {C : Type}

/-- The method `Board.ApplyTagFilter` (board.go, lines 146-150). -/
def Board.ApplyTagFilter (w : Board C) (heap : Heap F) : Option (Heap F) :=
  applyTagFilterLoop w.FilterTags w.Stages heap

/-- The loop of `Board.FilterTagIndex` (board.go, lines 160-164), at index
`i`: expressions are compared. -/
def filterTagIndexLoop (toFind : Tag) : List Tag → Int → Int
  | [], _ => -1
  | filterTag :: rest, i =>
    if filterTag.Expression = toFind.Expression then i
    else filterTagIndexLoop toFind rest (i + 1)

/-- The method `Board.FilterTagIndex` (board.go, lines 159-166). -/
def Board.FilterTagIndex (w : Board C) (toFind : Tag) : Int :=
  filterTagIndexLoop toFind w.FilterTags 0

/-- The method `Board.ToggleFilterTag` (board.go, lines 169-182): the heap
and the board after the call, and the call of `OnFilterChanged` it makes, as
the callback and its argument; `none` stands for a run-time panic. -/
def Board.ToggleFilterTag (w : Board C) (tag : Tag) (heap : Heap F) :
    Option (Heap F × Board C × Option (C × GoString)) :=
  let i := w.FilterTagIndex tag
  let w : Board C :=
    if i < 0 then { w with FilterTags := w.FilterTags ++ [tag] }
    else { w with FilterTags := w.FilterTags.take i.toNat ++ w.FilterTags.drop (i + 1).toNat }
  match w.ApplyTagFilter heap with
  | none => none
  | some heap =>
    some (heap, w, w.OnFilterChanged.map (fun f => (f, ComposeTagEditString w.FilterTags)))

end

/-! ## Vocabulary for stages and boards -/

/-- Every pointer in the list points to an allocated item. -/
def ValidRefs {F : Type} (heap : Heap F) (items : List ItemRef) : Prop :=
  ∀ r ∈ items, ∃ a : Nat, r = some a ∧ a < heap.length

/-! ## float32 widths -/

/-- A Go `float32` as the comparisons of `wrapLine` see it: not-a-number, or
a number of `W`, the finite values and the infinities in their order. -/
inductive F32 (W : Type) where
  | NaN : F32 W
  | num : W → F32 W
deriving DecidableEq, Repr

section
variable {W : Type}

/-- Go `a < b` on `float32`: false when an operand is NaN. -/
def F32.lt [LT W] : F32 W → F32 W → Prop
  | .num a, .num b => a < b
  | .num _, .NaN => False
  | .NaN, _ => False

/-- Go `a <= b` on `float32`: false when an operand is NaN. -/
def F32.le [LE W] : F32 W → F32 W → Prop
  | .num a, .num b => a ≤ b
  | .num _, .NaN => False
  | .NaN, _ => False

instance F32.instLT [LT W] : LT (F32 W) := ⟨F32.lt⟩

instance F32.instLE [LE W] : LE (F32 W) := ⟨F32.le⟩

instance F32.decLT [LT W] [DecidableRel (fun a b : W => a < b)] :
    DecidableRel (fun a b : F32 W => a < b)
  | .num a, .num b => inferInstanceAs (Decidable (a < b))
  | .num _, .NaN => isFalse (fun h => h)
  | .NaN, _ => isFalse (fun h => h)

instance F32.decLE [LE W] [DecidableRel (fun a b : W => a ≤ b)] :
    DecidableRel (fun a b : F32 W => a ≤ b)
  | .num a, .num b => inferInstanceAs (Decidable (a ≤ b))
  | .num _, .NaN => isFalse (fun h => h)
  | .NaN, _ => isFalse (fun h => h)

/-- The number a `float32` holds, `d` for NaN. -/
def F32.toNum (d : W) : F32 W → W
  | .num w => w
  | .NaN => d

/-- Monotonic in added characters: the first `i` characters of a string never
measure more than its first `j >= i` characters. -/
def CharMonotonic [LE W] (measure : GoString → W) : Prop :=
  ∀ (t : GoString) (i j : Nat), i ≤ j →
    measure (Join ((explode t).take i) []) ≤ measure (Join ((explode t).take j) [])

end

/-- The measure `measure(s) = len(s)` of the specification, as `float32`. -/
def numLen (s : GoString) : F32 Int := .num (byteLen s)

/-- A measure that is not a number on the string `"a"` and `len(s)` elsewhere. -/
def nanOnA (s : GoString) : F32 Int := if s = str "a" then .NaN else .num (byteLen s)

/-- A measure that gives the character `"é"` the width 1 and every other
string four times its number of bytes, so that the first byte of `"é"` alone
is wider than `"é"`. -/
def leadByteMeasure (s : GoString) : F32 Int := if s = eAcute then .num 1 else .num (4 * byteLen s)

/-- A measure in glyphs: every character is 4 wide, and a byte of `0x80` or
above that stands alone, not a character, is drawn 12 wide. Adding a character
never makes a string narrower, but the first byte of `"í"` alone is wider
than `"í"`. -/
def glyphMeasure (s : GoString) : Int :=
  ((explode s).map (fun c => if c.length = 1 ∧ 0x80 ≤ (c.headD 0).val then 12 else 4)).sum

/-- The Go string `"í bb bb"`: seven characters, eight bytes. -/
def iAcuteWords : GoString := [0xC3, 0xAD, 0x20, 0x62, 0x62, 0x20, 0x62, 0x62]

/-- The Go string `"éab"`: three characters, four bytes. -/
def eAcuteAb : GoString := [0xC3, 0xA9, 0x61, 0x62]

/-! ## Facts about Join, Split and explode -/

theorem Join_cons_cons (a b : GoString) (rest : List GoString) (sep : GoString) :
    Join (a :: b :: rest) sep = a ++ sep ++ Join (b :: rest) sep := rfl

theorem Join_cons_of_ne_nil (a : GoString) (ps : List GoString) (sep : GoString)
    (h : ps ≠ []) : Join (a :: ps) sep = a ++ sep ++ Join ps sep := by
  cases ps with
  | nil => exact absurd rfl h
  | cons b rest => rfl

theorem Join_empty_sep (ps : List GoString) : Join ps [] = ps.flatten := by
  induction ps with
  | nil => rfl
  | cons a rest ih =>
    cases rest with
    | nil => simp [Join]
    | cons b rest => rw [Join_cons_cons, ih]; simp

/-- Cutting a part list at `k` and joining both halves loses at most one
separator. -/
theorem Join_take_drop (ps : List GoString) (sep : GoString) (k : Nat) :
    ∃ j, (j = sep ∨ j = []) ∧
      Join (ps.take k) sep ++ j ++ Join (ps.drop k) sep = Join ps sep := by
  induction ps generalizing k with
  | nil => exact ⟨[], Or.inr rfl, by simp [Join]⟩
  | cons a rest ih =>
    cases k with
    | zero => exact ⟨[], Or.inr rfl, by simp [Join]⟩
    | succ k =>
      cases rest with
      | nil => exact ⟨[], Or.inr rfl, by simp [Join]⟩
      | cons b rest =>
        cases k with
        | zero => exact ⟨sep, Or.inl rfl, by simp [Join]⟩
        | succ k =>
          obtain ⟨j, hj, h⟩ := ih (k + 1)
          refine ⟨j, hj, ?_⟩
          have h1 : List.take (k + 1 + 1) (a :: b :: rest) = a :: List.take (k + 1) (b :: rest) := rfl
          have h2 : List.drop (k + 1 + 1) (a :: b :: rest) = List.drop (k + 1) (b :: rest) := rfl
          have h3 : List.take (k + 1) (b :: rest) ≠ [] := by simp
          rw [h1, h2, Join_cons_of_ne_nil _ _ _ h3, Join_cons_cons, ← h]
          simp [List.append_assoc]

/-- With `0 < k < len(parts)` the junction is exactly the separator. -/
theorem Join_take_drop_sep (ps : List GoString) (sep : GoString) (k : Nat)
    (h0 : 0 < k) (hk : k < ps.length) :
    Join (ps.take k) sep ++ sep ++ Join (ps.drop k) sep = Join ps sep := by
  induction ps generalizing k with
  | nil => simp at hk
  | cons a rest ih =>
    cases k with
    | zero => omega
    | succ k =>
      cases rest with
      | nil => simp at hk
      | cons b rest =>
        cases k with
        | zero => simp [Join]
        | succ k =>
          have hk' : k + 1 < (b :: rest).length := by simpa using hk
          have h := ih (k + 1) (by omega) hk'
          have h1 : List.take (k + 1 + 1) (a :: b :: rest) = a :: List.take (k + 1) (b :: rest) := rfl
          have h2 : List.drop (k + 1 + 1) (a :: b :: rest) = List.drop (k + 1) (b :: rest) := rfl
          have h3 : List.take (k + 1) (b :: rest) ≠ [] := by simp
          rw [h1, h2, Join_cons_of_ne_nil _ _ _ h3, Join_cons_cons, ← h]
          simp [List.append_assoc]

theorem splitByte_ne_nil (c : Byte) (s : GoString) : splitByte c s ≠ [] := by
  cases s with
  | nil => simp [splitByte]
  | cons b rest =>
    unfold splitByte
    split
    · simp
    · split <;> simp

theorem Join_splitByte (c : Byte) (s : GoString) : Join (splitByte c s) [c] = s := by
  induction s with
  | nil => rfl
  | cons b rest ih =>
    unfold splitByte
    split
    · next h =>
      rw [Join_cons_of_ne_nil _ _ _ (splitByte_ne_nil c rest), ih, h]; rfl
    · split
      · next h => exact absurd h (splitByte_ne_nil c rest)
      · next p ps h =>
        rw [h] at ih
        cases ps with
        | nil => simp [Join] at ih ⊢; exact ih
        | cons q qs =>
          rw [Join_cons_cons] at ih ⊢
          rw [← ih]; simp

theorem splitByte_length_le (c : Byte) (s : GoString) :
    (splitByte c s).length ≤ s.length + 1 := by
  induction s with
  | nil => simp [splitByte]
  | cons b rest ih =>
    unfold splitByte
    split
    · simpa using ih
    · split
      · simp
      · next p ps h => rw [h] at ih; simp at ih ⊢; omega

theorem splitByte_length_of_mem (c : Byte) (s : GoString) (h : c ∈ s) :
    2 ≤ (splitByte c s).length := by
  induction s with
  | nil => simp at h
  | cons b rest ih =>
    unfold splitByte
    split
    · have := splitByte_ne_nil c rest
      have : 0 < (splitByte c rest).length := List.length_pos.mpr this
      simp; omega
    · next hb =>
      have hm : c ∈ rest := by
        rcases List.mem_cons.mp h with h | h
        · exact absurd h.symm hb
        · exact h
      have := ih hm
      split
      · next h0 => rw [h0] at this; simp at this
      · next p ps h0 => rw [h0] at this; simpa using this

theorem not_mem_of_mem_splitByte (c : Byte) (s : GoString) :
    ∀ p ∈ splitByte c s, c ∉ p := by
  induction s with
  | nil => intro p hp; simp [splitByte] at hp; simp [hp]
  | cons b rest ih =>
    intro p hp
    unfold splitByte at hp
    split at hp
    · rcases List.mem_cons.mp hp with h | h
      · simp [h]
      · exact ih p h
    · next hb =>
      split at hp
      · next h0 => exact absurd h0 (splitByte_ne_nil c rest)
      · next q qs h0 =>
        rw [h0] at ih
        rcases List.mem_cons.mp hp with h | h
        · subst h
          intro hc
          rcases List.mem_cons.mp hc with h1 | h1
          · exact hb h1.symm
          · exact ih q (List.mem_cons_self _ _) h1
        · exact ih p (List.mem_cons_of_mem _ h)

theorem decodeRuneSize_pos (s : GoString) (h : s ≠ []) : 1 ≤ decodeRuneSize s := by
  cases s with
  | nil => exact absurd rfl h
  | cons s0 rest =>
    unfold decodeRuneSize
    dsimp only
    repeat' split
    all_goals omega

theorem explodeAux_flatten (fuel : Nat) (s : GoString) (h : s.length ≤ fuel) :
    (explodeAux fuel s).flatten = s := by
  induction fuel generalizing s with
  | zero =>
    have : s = [] := List.length_eq_zero.mp (by omega)
    simp [explodeAux, this]
  | succ fuel ih =>
    unfold explodeAux
    by_cases hs : s = []
    · simp [hs]
    · rw [if_neg hs]
      have hpos := decodeRuneSize_pos s hs
      have hlen : 0 < s.length := List.length_pos.mpr hs
      have : (s.drop (decodeRuneSize s)).length ≤ fuel := by
        rw [List.length_drop]; omega
      simp [ih _ this]

theorem explodeAux_length_le (fuel : Nat) (s : GoString) :
    (explodeAux fuel s).length ≤ s.length := by
  induction fuel generalizing s with
  | zero => simp [explodeAux]
  | succ fuel ih =>
    unfold explodeAux
    by_cases hs : s = []
    · simp [hs]
    · rw [if_neg hs]
      have hpos := decodeRuneSize_pos s hs
      have hlen : 0 < s.length := List.length_pos.mpr hs
      have := ih (s.drop (decodeRuneSize s))
      rw [List.length_drop] at this
      simp only [List.length_cons]
      omega

theorem explodeAux_ne_nil (fuel : Nat) (s : GoString) :
    ∀ p ∈ explodeAux fuel s, p ≠ [] := by
  induction fuel generalizing s with
  | zero => simp [explodeAux]
  | succ fuel ih =>
    intro p hp
    unfold explodeAux at hp
    by_cases hs : s = []
    · simp [hs] at hp
    · rw [if_neg hs] at hp
      rcases List.mem_cons.mp hp with h | h
      · have hpos := decodeRuneSize_pos s hs
        have hlen : 0 < s.length := List.length_pos.mpr hs
        intro e
        have : p.length = 0 := by rw [e]; rfl
        rw [h, List.length_take] at this
        omega
      · exact ih _ p h

theorem Join_explode (s : GoString) : Join (explode s) [] = s := by
  rw [Join_empty_sep]; exact explodeAux_flatten _ _ (le_refl _)

theorem explode_length_le (s : GoString) : (explode s).length ≤ s.length :=
  explodeAux_length_le _ _

theorem explode_cons (s : GoString) (h : s ≠ []) :
    ∃ rest, explode s = s.take (decodeRuneSize s) :: rest := by
  have hlen : 0 < s.length := List.length_pos.mpr h
  obtain ⟨n, hn⟩ : ∃ n, s.length = n + 1 := ⟨s.length - 1, by omega⟩
  unfold explode
  rw [hn]
  unfold explodeAux
  rw [if_neg h]
  exact ⟨_, rfl⟩

theorem Join_singleton (a sep : GoString) : Join [a] sep = a := rfl

/-- A join of a shorter selection of the parts is a prefix of a longer one. -/
theorem Join_take_mono (ps : List GoString) (sep : GoString) (i j : Nat) (h : i ≤ j) :
    Join (ps.take i) sep <+: Join (ps.take j) sep := by
  induction ps generalizing i j with
  | nil => simp
  | cons a rest ih =>
    cases i with
    | zero => simp [Join]
    | succ i =>
      cases j with
      | zero => omega
      | succ j =>
        have hij : i ≤ j := by omega
        have := ih i j hij
        simp only [List.take_succ_cons]
        cases hi : List.take i rest with
        | nil =>
          cases hj : List.take j rest with
          | nil => simp
          | cons y ys =>
            rw [Join_cons_cons, Join_singleton, List.append_assoc]
            exact List.prefix_append _ _
        | cons x xs =>
          cases hj : List.take j rest with
          | nil =>
            rw [hi, hj] at this
            have hlen := this.length_le
            exfalso
            have h1 : (List.take i rest).length ≤ (List.take j rest).length := by
              rw [List.length_take, List.length_take]; omega
            rw [hi, hj] at h1; simp at h1
          | cons y ys =>
            rw [hi, hj] at this
            rw [Join_cons_cons, Join_cons_cons]
            rw [List.append_assoc, List.append_assoc]
            exact (List.prefix_append_right_inj _).mpr ((List.prefix_append_right_inj _).mpr this)

theorem Join_take_le_all (ps : List GoString) (sep : GoString) (i : Nat) :
    Join (ps.take i) sep <+: Join ps sep := by
  have := Join_take_mono ps sep i (max i ps.length) (le_max_left _ _)
  rwa [List.take_of_length_le (le_max_right _ _)] at this

section
variable {W : Type} [LinearOrder W]

/-! ## The binary search -/

theorem tdiv_two_of_nonneg (a : Int) (h : 0 ≤ a) : Int.tdiv a 2 = a / 2 :=
  Int.tdiv_eq_ediv h (by decide)

theorem tdiv_two_neg_one : Int.tdiv (-1) 2 = 0 := by decide

/-- Every result of `innerLoop` other than `timeout` is produced by a pass
through the loop body in a state that satisfies every property `I` the loop
body preserves. -/
theorem innerLoop_rule (measure : GoString → W) (maxWidth : W) (parts : List GoString)
    (sep : GoString) (I : SearchState → Prop)
    (hstep : ∀ st st', I st → switchStep measure maxWidth parts sep st = .next st' → I st')
    (fuel : Nat) (st : SearchState) (hI : I st) (res : SearchResult)
    (h : innerLoop measure maxWidth parts sep fuel st = res) (hres : res ≠ .timeout) :
    ∃ st', I st' ∧ Finishes measure maxWidth parts sep st' res := by
  induction fuel generalizing st with
  | zero => simp [innerLoop] at h; exact absurd h.symm hres
  | succ fuel ih =>
    unfold innerLoop at h
    split at h
    · next st' hs => exact ih st' (hstep st st' hI hs) h
    · next c r hs => subst h; exact ⟨st, hI, hs⟩
    · next hs => subst h; exact ⟨st, hI, hs⟩
    · next hs => subst h; exact ⟨st, hI, hs⟩

theorem SearchInv.initial (measure : GoString → W) (maxWidth : W) (parts : List GoString)
    (sep : GoString) (hn : 1 ≤ parts.length) :
    SearchInv measure maxWidth parts sep (initialState parts.length) := by
  have h1 : Int.tdiv ((parts.length : Int) + 1) 2 = ((parts.length : Int) + 1) / 2 :=
    tdiv_two_of_nonneg _ (by omega)
  constructor <;> simp only [initialState, h1] <;> omega

theorem SearchInv.next {measure : GoString → W} {maxWidth : W} {parts : List GoString}
    {sep : GoString} {st st' : SearchState}
    (inv : SearchInv measure maxWidth parts sep st)
    (h : switchStep measure maxWidth parts sep st = .next st') :
    SearchInv measure maxWidth parts sep st' := by
  obtain ⟨h1, h2, h3, h4, h5, h6, h7, h8⟩ := inv
  unfold switchStep at h
  split at h
  · exact absurd h (by simp)
  · dsimp only at h
    split at h
    · -- the candidate fits strictly
      next hc =>
      obtain ⟨hstep, hfit⟩ := hc
      injection h with h; subst h
      have hd : (0 ≤ st.rangeUpperIndex - st.wrapIndex →
          Int.tdiv (st.rangeUpperIndex - st.wrapIndex) 2 = (st.rangeUpperIndex - st.wrapIndex) / 2) :=
        tdiv_two_of_nonneg _
      have hd' : st.rangeUpperIndex - st.wrapIndex = -1 →
          Int.tdiv (st.rangeUpperIndex - st.wrapIndex) 2 = 0 := by
        intro e; rw [e]; exact tdiv_two_neg_one
      generalize Int.tdiv (st.rangeUpperIndex - st.wrapIndex) 2 = d at hd hd'
      constructor <;> dsimp only
      · omega
      · omega
      · omega
      · omega
      · omega
      · intro _; exact hfit
      · intro hd0
        have : d = 0 := by omega
        right; rw [this, add_zero]; exact hfit
      · intro _; left; omega
    · split at h
      · -- the candidate does not fit
        next hc =>
        obtain ⟨hstep, hfit⟩ := hc
        injection h with h; subst h
        have hd : Int.tdiv (st.wrapIndex - st.rangeLowerIndex + 1) 2
            = (st.wrapIndex - st.rangeLowerIndex + 1) / 2 := tdiv_two_of_nonneg _ (by omega)
        rw [hd]
        constructor <;> dsimp only
        · omega
        · omega
        · omega
        · omega
        · omega
        · exact h6
        · intro hd0
          have hwl : st.wrapIndex = st.rangeLowerIndex := by omega
          by_cases hl : st.rangeLowerIndex = 0
          · left; omega
          · exfalso
            have := h6 hl
            rw [← hwl] at this
            exact absurd hfit (not_lt.mpr this.le)
        · intro _; omega
      · split at h
        · exact absurd h (by simp)
        · split at h
          · exact absurd h (by simp)
          · split at h
            · exact absurd h (by simp)
            · -- no case applies: excluded by the invariant
              next hn1 hn2 hn3 hn4 hn5 =>
              exfalso
              have hw2 : 2 ≤ st.wrapIndex := by omega
              have hnf : ¬ widthAt measure parts sep st.wrapIndex ≤ maxWidth := by
                intro hle; exact hn3 ⟨by omega, hle⟩
              have hnf' : maxWidth < widthAt measure parts sep st.wrapIndex := not_le.mp hnf
              have hs0 : st.wrapIndexStep ≤ 0 := by
                by_contra hpos
                exact hn2 ⟨by omega, hnf'⟩
              rcases h7 hs0 with h0 | hlt
              · omega
              · exact absurd hlt (not_lt.mpr hnf'.le)

end

section
variable {W : Type} [LinearOrder W]

/-- Each further pass through the loop body lowers `searchMeasure`. -/
theorem searchMeasure_next {measure : GoString → W} {maxWidth : W} {parts : List GoString}
    {sep : GoString} {st st' : SearchState}
    (inv : SearchInv measure maxWidth parts sep st)
    (h : switchStep measure maxWidth parts sep st = .next st') :
    searchMeasure st' < searchMeasure st := by
  have inv' := inv.next h
  obtain ⟨h1, h2, h3, h4, h5, h6, h7, h8⟩ := inv
  unfold switchStep at h
  split at h
  · exact absurd h (by simp)
  · dsimp only at h
    split at h
    · next hc =>
      obtain ⟨hstep, hfit⟩ := hc
      injection h with h; subst h
      have hd : (0 ≤ st.rangeUpperIndex - st.wrapIndex →
          Int.tdiv (st.rangeUpperIndex - st.wrapIndex) 2 = (st.rangeUpperIndex - st.wrapIndex) / 2) :=
        tdiv_two_of_nonneg _
      have hd' : st.rangeUpperIndex - st.wrapIndex = -1 →
          Int.tdiv (st.rangeUpperIndex - st.wrapIndex) 2 = 0 := by
        intro e; rw [e]; exact tdiv_two_neg_one
      generalize Int.tdiv (st.rangeUpperIndex - st.wrapIndex) 2 = d at hd hd'
      have hg := h8 hstep
      unfold searchMeasure
      dsimp only
      rw [if_pos hstep]
      simp only [max_def]
      split_ifs <;> omega
    · split at h
      · next hc =>
        obtain ⟨hstep, hfit⟩ := hc
        injection h with h; subst h
        have hd : Int.tdiv (st.wrapIndex - st.rangeLowerIndex + 1) 2
            = (st.wrapIndex - st.rangeLowerIndex + 1) / 2 := tdiv_two_of_nonneg _ (by omega)
        unfold searchMeasure
        dsimp only
        rw [if_pos hstep, hd]
        simp only [max_def]
        split_ifs <;> omega
      · split at h
        · exact absurd h (by simp)
        · split at h
          · exact absurd h (by simp)
          · split at h
            · exact absurd h (by simp)
            · next hn1 hn2 hn3 hn4 hn5 =>
              exfalso
              have hw2 : 2 ≤ st.wrapIndex := by omega
              have hnf' : maxWidth < widthAt measure parts sep st.wrapIndex := by
                apply not_le.mp; intro hle; exact hn3 ⟨by omega, hle⟩
              have hs0 : st.wrapIndexStep ≤ 0 := by
                by_contra hpos
                exact hn2 ⟨by omega, hnf'⟩
              rcases h7 hs0 with h0 | hlt
              · omega
              · exact absurd hlt (not_lt.mpr hnf'.le)

/-- The search leaves the loop: with more fuel than `searchMeasure` the
result is not `timeout`. -/
theorem innerLoop_terminates {measure : GoString → W} {maxWidth : W} {parts : List GoString}
    {sep : GoString} (fuel : Nat) (st : SearchState)
    (inv : SearchInv measure maxWidth parts sep st) (hfuel : searchMeasure st < fuel) :
    innerLoop measure maxWidth parts sep fuel st ≠ .timeout := by
  induction fuel generalizing st with
  | zero => omega
  | succ fuel ih =>
    unfold innerLoop
    split
    · next st' hs =>
      have := searchMeasure_next inv hs
      exact ih st' (inv.next hs) (by omega)
    · simp
    · simp
    · simp

theorem searchMeasure_initial (n : Nat) (hn : 1 ≤ n) :
    searchMeasure (initialState n) ≤ 2 * n + 2 := by
  have h1 : Int.tdiv ((n : Int) + 1) 2 = ((n : Int) + 1) / 2 :=
    tdiv_two_of_nonneg _ (by omega)
  unfold searchMeasure initialState
  simp only [h1, max_def]
  split_ifs <;> omega

/-- How the search can leave the loop from a state satisfying the invariant:
it emits the first `k > 0` parts, which fit, or it is at `k = 0` and retries
(word mode) or emits the empty candidate and the whole line (character mode). -/
theorem SearchInv.finish {measure : GoString → W} {maxWidth : W} {parts : List GoString}
    {sep : GoString} {st : SearchState} {res : SearchResult}
    (inv : SearchInv measure maxWidth parts sep st)
    (hfin : Finishes measure maxWidth parts sep st res) :
    ∃ k : Nat, (k : Int) = st.wrapIndex ∧ k ≤ parts.length ∧
      ((0 < k ∧ measure (Join (parts.take k) sep) ≤ maxWidth ∧
          res = .emit (Join (parts.take k) sep) (Join (parts.drop k) sep))
        ∨ (k = 0 ∧ sep ≠ [] ∧ res = .retry)
        ∨ (k = 0 ∧ sep = [] ∧ res = .emit [] (Join parts sep))) := by
  obtain ⟨h1, h2, h3, h4, h5, h6, h7, h8⟩ := inv
  have hk : ((st.wrapIndex.toNat : Nat) : Int) = st.wrapIndex := Int.toNat_of_nonneg (by omega)
  refine ⟨st.wrapIndex.toNat, hk, by omega, ?_⟩
  have hzero : ¬ (st.wrapIndexStep > 0 ∧ widthAt measure parts sep st.wrapIndex < maxWidth) →
      ¬ (st.wrapIndexStep > 0 ∧ widthAt measure parts sep st.wrapIndex > maxWidth) →
      ¬ (st.wrapIndex > 0 ∧ widthAt measure parts sep st.wrapIndex ≤ maxWidth) →
      st.wrapIndex < 2 → st.wrapIndex.toNat = 0 := by
    intro hn1 hn2 hn3 hlt
    by_contra hne
    have hw1 : st.wrapIndex = 1 := by omega
    have hnf' : maxWidth < widthAt measure parts sep st.wrapIndex := by
      apply not_le.mp; intro hle; exact hn3 ⟨by omega, hle⟩
    have hs0 : st.wrapIndexStep ≤ 0 := by
      by_contra hpos
      exact hn2 ⟨by omega, hnf'⟩
    rcases h7 hs0 with h0 | hlt
    · omega
    · exact absurd hlt (not_lt.mpr hnf'.le)
  have hsw : ∀ s : Step, switchStep measure maxWidth parts sep st = s →
      (∃ c r, s = .emit c r ∧ ((0 < st.wrapIndex.toNat ∧
          measure (Join (parts.take st.wrapIndex.toNat) sep) ≤ maxWidth ∧
          c = Join (parts.take st.wrapIndex.toNat) sep ∧
          r = Join (parts.drop st.wrapIndex.toNat) sep)
        ∨ (st.wrapIndex.toNat = 0 ∧ sep = [] ∧ c = [] ∧ r = Join parts sep)))
      ∨ (s = .retry ∧ st.wrapIndex.toNat = 0 ∧ sep ≠ [])
      ∨ (∃ st', s = .next st') := by
    intro s hs
    unfold switchStep at hs
    rw [if_neg (by omega)] at hs
    dsimp only at hs
    split at hs
    · exact Or.inr (Or.inr ⟨_, hs.symm⟩)
    · split at hs
      · exact Or.inr (Or.inr ⟨_, hs.symm⟩)
      · split at hs
        · next hn1 hn2 hc =>
          left
          exact ⟨_, _, hs.symm, Or.inl ⟨by omega, hc.2, rfl, rfl⟩⟩
        · split at hs
          · next hn1 hn2 hn3 hc =>
            right; left
            exact ⟨hs.symm, hzero hn1 hn2 hn3 hc.1, hc.2⟩
          · split at hs
            · next hn1 hn2 hn3 hn4 hc =>
              left
              have hz := hzero hn1 hn2 hn3 hc
              have hsep : sep = [] := by
                by_contra hne; exact hn4 ⟨hc, hne⟩
              refine ⟨_, _, hs.symm, Or.inr ⟨hz, hsep, ?_, ?_⟩⟩
              · rw [hz]; rfl
              · rw [hz]; rfl
            · exact Or.inr (Or.inr ⟨_, hs.symm⟩)
  cases res with
  | emit c r =>
    rcases hsw _ hfin with ⟨c', r', he, h⟩ | ⟨he, _⟩ | ⟨st', he⟩
    · injection he with hc hr
      subst hc hr
      rcases h with ⟨hpos, hfit, hc, hr⟩ | ⟨hz, hsep, hc, hr⟩
      · left; exact ⟨hpos, hfit, by rw [hc, hr]⟩
      · right; right; exact ⟨hz, hsep, by rw [hc, hr]⟩
    · exact absurd he (by simp)
    · exact absurd he (by simp)
  | retry =>
    rcases hsw _ hfin with ⟨c', r', he, h⟩ | ⟨_, hz, hsep⟩ | ⟨st', he⟩
    · exact absurd he (by simp)
    · right; left; exact ⟨hz, hsep, rfl⟩
    · exact absurd he (by simp)
  | panic =>
    rcases hsw _ hfin with ⟨c', r', he, h⟩ | ⟨he, _⟩ | ⟨st', he⟩
    · exact absurd he (by simp)
    · exact absurd he (by simp)
    · exact absurd he (by simp)
  | timeout => exact absurd hfin (by simp [Finishes])

end

section
variable {W : Type} [LinearOrder W]

/-- When the first part alone fits, the search never moves below index 1. -/
theorem index_pos_next {measure : GoString → W} {maxWidth : W} {parts : List GoString}
    {sep : GoString} {st st' : SearchState}
    (hfit1 : widthAt measure parts sep 1 ≤ maxWidth)
    (inv : SearchInv measure maxWidth parts sep st) (hpos : 1 ≤ st.wrapIndex)
    (h : switchStep measure maxWidth parts sep st = .next st') :
    1 ≤ st'.wrapIndex := by
  obtain ⟨h1, h2, h3, h4, h5, h6, h7, h8⟩ := inv
  unfold switchStep at h
  split at h
  · exact absurd h (by simp)
  · dsimp only at h
    split at h
    · next hc =>
      injection h with h; subst h
      have hd : (0 ≤ st.rangeUpperIndex - st.wrapIndex →
          Int.tdiv (st.rangeUpperIndex - st.wrapIndex) 2 = (st.rangeUpperIndex - st.wrapIndex) / 2) :=
        tdiv_two_of_nonneg _
      have hd' : st.rangeUpperIndex - st.wrapIndex = -1 →
          Int.tdiv (st.rangeUpperIndex - st.wrapIndex) 2 = 0 := by
        intro e; rw [e]; exact tdiv_two_neg_one
      generalize Int.tdiv (st.rangeUpperIndex - st.wrapIndex) 2 = d at hd hd'
      dsimp only
      omega
    · split at h
      · next hc =>
        injection h with h; subst h
        have hd : Int.tdiv (st.wrapIndex - st.rangeLowerIndex + 1) 2
            = (st.wrapIndex - st.rangeLowerIndex + 1) / 2 := tdiv_two_of_nonneg _ (by omega)
        have hne : st.wrapIndex ≠ 1 := by
          intro e
          rw [e] at hc
          exact absurd hc.2 (not_lt.mpr hfit1)
        dsimp only
        rw [hd]
        omega
      · split at h
        · exact absurd h (by simp)
        · split at h
          · exact absurd h (by simp)
          · split at h
            · exact absurd h (by simp)
            · injection h with h; subst h; exact hpos

/-- The possible results of the search started in its initial state. -/
theorem innerLoop_initial_cases (measure : GoString → W) (maxWidth : W)
    (parts : List GoString) (sep : GoString) (fuel : Nat) (hn : 1 ≤ parts.length)
    (hres : innerLoop measure maxWidth parts sep fuel (initialState parts.length) ≠ .timeout) :
    ∃ k : Nat, k ≤ parts.length ∧
      ((0 < k ∧ measure (Join (parts.take k) sep) ≤ maxWidth ∧
          innerLoop measure maxWidth parts sep fuel (initialState parts.length)
            = .emit (Join (parts.take k) sep) (Join (parts.drop k) sep))
        ∨ (k = 0 ∧ sep ≠ [] ∧
          innerLoop measure maxWidth parts sep fuel (initialState parts.length) = .retry)
        ∨ (k = 0 ∧ sep = [] ∧
          innerLoop measure maxWidth parts sep fuel (initialState parts.length)
            = .emit [] (Join parts sep))) := by
  obtain ⟨st, inv, hfin⟩ := innerLoop_rule measure maxWidth parts sep
    (SearchInv measure maxWidth parts sep) (fun _ _ hI hs => hI.next hs)
    fuel _ (SearchInv.initial measure maxWidth parts sep hn) _ rfl hres
  obtain ⟨k, _, hk, h⟩ := inv.finish hfin
  exact ⟨k, hk, h⟩

/-- When the first part alone fits, the search emits a fitting candidate of
at least one part. -/
theorem innerLoop_initial_pos (measure : GoString → W) (maxWidth : W)
    (parts : List GoString) (sep : GoString) (fuel : Nat) (hn : 1 ≤ parts.length)
    (hfit1 : measure (Join (parts.take 1) sep) ≤ maxWidth)
    (hres : innerLoop measure maxWidth parts sep fuel (initialState parts.length) ≠ .timeout) :
    ∃ k : Nat, 0 < k ∧ k ≤ parts.length ∧ measure (Join (parts.take k) sep) ≤ maxWidth ∧
      innerLoop measure maxWidth parts sep fuel (initialState parts.length)
        = .emit (Join (parts.take k) sep) (Join (parts.drop k) sep) := by
  have hinit : 1 ≤ (initialState parts.length).wrapIndex := by
    have h1 : Int.tdiv ((parts.length : Int) + 1) 2 = ((parts.length : Int) + 1) / 2 :=
      tdiv_two_of_nonneg _ (by omega)
    simp only [initialState, h1]; omega
  obtain ⟨st, ⟨inv, hpos⟩, hfin⟩ := innerLoop_rule measure maxWidth parts sep
    (fun st => SearchInv measure maxWidth parts sep st ∧ 1 ≤ st.wrapIndex)
    (fun _ _ hI hs => ⟨hI.1.next hs, index_pos_next hfit1 hI.1 hI.2 hs⟩)
    fuel _ ⟨SearchInv.initial measure maxWidth parts sep hn, hinit⟩ _ rfl hres
  obtain ⟨k, hkw, hk, h⟩ := inv.finish hfin
  rcases h with ⟨h0, hfit, he⟩ | ⟨h0, _⟩ | ⟨h0, _⟩
  · exact ⟨k, h0, hk, hfit, he⟩
  · omega
  · omega

theorem innerLoop_initial_terminates (measure : GoString → W) (maxWidth : W)
    (parts : List GoString) (sep : GoString) (fuel : Nat) (hn : 1 ≤ parts.length)
    (hfuel : 2 * parts.length + 3 ≤ fuel) :
    innerLoop measure maxWidth parts sep fuel (initialState parts.length) ≠ .timeout := by
  apply innerLoop_terminates fuel _ (SearchInv.initial measure maxWidth parts sep hn)
  have := searchMeasure_initial parts.length hn
  omega

end

section
variable {W : Type} [LinearOrder W]

/-! ## The outer loop -/

theorem Split_space (line : GoString) : Split line space = splitByte 32 line := rfl

theorem Split_empty (line : GoString) : Split line [] = explode line := rfl

theorem space_ne_nil : space ≠ [] := by simp [space]

theorem Join_Split (line sep : GoString) (hsep : sep = space ∨ sep = []) :
    Join (Split line sep) sep = line := by
  rcases hsep with h | h
  · subst h; exact Join_splitByte 32 line
  · subst h; exact Join_explode line

theorem Split_length_pos (line sep : GoString) (hline : line ≠ [])
    (hsep : sep = space ∨ sep = []) : 1 ≤ (Split line sep).length := by
  rcases hsep with h | h
  · subst h
    exact List.length_pos.mpr (splitByte_ne_nil 32 line)
  · subst h
    obtain ⟨rest, h⟩ := explode_cons line hline
    rw [Split_empty, h]; simp

theorem Split_length_le (line sep : GoString) (hsep : sep = space ∨ sep = []) :
    (Split line sep).length ≤ line.length + 1 := by
  rcases hsep with h | h
  · subst h; exact splitByte_length_le 32 line
  · subst h; exact le_trans (explode_length_le line) (Nat.le_succ _)

theorem outerLoop_succ (measure : GoString → W) (maxWidth : W) (line sep : GoString)
    (fuel : Nat) :
    outerLoop measure maxWidth line (fuel + 1) sep =
      if ((Split line sep).length : Int) < 2 ∧ sep ≠ [] then
        outerLoop measure maxWidth line fuel []
      else
        match innerLoop measure maxWidth (Split line sep) sep fuel
            (initialState (Split line sep).length) with
        | .retry => outerLoop measure maxWidth line fuel []
        | .emit candidate rest => .emit candidate rest
        | .panic => .panic
        | .timeout => .timeout := rfl

/-- Every emission of the outer loop cuts the part list of the line, split
by the space or into characters, at some index `k`: the candidate is the join
of the first `k > 0` parts and fits, or, in character mode only, `k = 0`, the
candidate is empty and the rest is the whole line. -/
theorem outerLoop_emit (measure : GoString → W) (maxWidth : W) (line : GoString)
    (hline : line ≠ []) (fuel : Nat) (sep : GoString) (hsep : sep = space ∨ sep = [])
    (c r : GoString) (h : outerLoop measure maxWidth line fuel sep = .emit c r) :
    ∃ sep' : GoString, ∃ k : Nat, (sep' = space ∨ sep' = []) ∧ k ≤ (Split line sep').length ∧
      ((0 < k ∧ measure c ≤ maxWidth ∧ c = Join ((Split line sep').take k) sep' ∧
          r = Join ((Split line sep').drop k) sep')
        ∨ (k = 0 ∧ sep' = [] ∧ c = [] ∧ r = line)) := by
  induction fuel generalizing sep with
  | zero => simp [outerLoop] at h
  | succ fuel ih =>
    rw [outerLoop_succ] at h
    split at h
    · exact ih [] (Or.inr rfl) h
    · split at h
      · exact ih [] (Or.inr rfl) h
      · next c' r' he =>
        injection h with hc hr
        subst hc hr
        have hn := Split_length_pos line sep hline hsep
        obtain ⟨k, hk, hcases⟩ := innerLoop_initial_cases measure maxWidth (Split line sep) sep fuel
          hn (by rw [he]; simp)
        rw [he] at hcases
        refine ⟨sep, k, hsep, hk, ?_⟩
        rcases hcases with ⟨h0, hfit, hemit⟩ | ⟨_, _, hemit⟩ | ⟨h0, hs, hemit⟩
        · injection hemit with hc hr
          left; exact ⟨h0, by rw [hc]; exact hfit, hc, hr⟩
        · exact absurd hemit (by simp)
        · injection hemit with hc hr
          right; refine ⟨h0, hs, hc, ?_⟩
          rw [hr]; exact Join_Split line sep hsep
      · exact absurd h (by simp)
      · exact absurd h (by simp)

/-- An emitted candidate and rest give the line back when put together with
the separator or with nothing in between. -/
theorem outerLoop_emit_junction (measure : GoString → W) (maxWidth : W) (line : GoString)
    (hline : line ≠ []) (fuel : Nat) (sep : GoString) (hsep : sep = space ∨ sep = [])
    (c r : GoString) (h : outerLoop measure maxWidth line fuel sep = .emit c r) :
    ∃ j, (j = space ∨ j = []) ∧ c ++ j ++ r = line := by
  obtain ⟨sep', k, hsep', hk, hc⟩ := outerLoop_emit measure maxWidth line hline fuel sep hsep c r h
  rcases hc with ⟨_, _, hc, hr⟩ | ⟨_, _, hc, hr⟩
  · obtain ⟨j, hj, hjoin⟩ := Join_take_drop (Split line sep') sep' k
    refine ⟨j, ?_, ?_⟩
    · rcases hj with hj | hj
      · rcases hsep' with hs | hs
        · left; rw [hj, hs]
        · right; rw [hj, hs]
      · right; exact hj
    · rw [hc, hr, hjoin]; exact Join_Split line sep' hsep'
  · exact ⟨[], Or.inr rfl, by rw [hc, hr]; simp⟩

/-- The outer loop does not run out of fuel. -/
theorem outerLoop_ne_timeout (measure : GoString → W) (maxWidth : W) (line : GoString)
    (hline : line ≠ []) (fuel : Nat) (sep : GoString) (hsep : sep = space ∨ sep = [])
    (hfuel : 2 * line.length + 7 ≤ fuel + (if sep = [] then 1 else 0)) :
    outerLoop measure maxWidth line fuel sep ≠ .timeout := by
  have hchar : ∀ f, 2 * line.length + 6 ≤ f →
      outerLoop measure maxWidth line f [] ≠ .timeout := by
    intro f hf
    obtain ⟨f', rfl⟩ : ∃ f', f = f' + 1 := ⟨f - 1, by omega⟩
    rw [outerLoop_succ, if_neg (by simp)]
    have hn := Split_length_pos line [] hline (Or.inr rfl)
    have hle := explode_length_le line
    rw [Split_empty] at hn ⊢
    have ht := innerLoop_initial_terminates measure maxWidth (explode line) [] f' hn (by omega)
    obtain ⟨k, _, hcases⟩ := innerLoop_initial_cases measure maxWidth (explode line) [] f' hn ht
    rcases hcases with ⟨_, _, he⟩ | ⟨_, hs, _⟩ | ⟨_, _, he⟩
    · rw [he]; simp
    · exact absurd rfl hs
    · rw [he]; simp
  rcases hsep with hs | hs
  · subst hs
    rw [if_neg space_ne_nil] at hfuel
    obtain ⟨f', rfl⟩ : ∃ f', fuel = f' + 1 := ⟨fuel - 1, by omega⟩
    rw [outerLoop_succ]
    split
    · exact hchar f' (by omega)
    · have hn := Split_length_pos line space hline (Or.inl rfl)
      have hle := Split_length_le line space (Or.inl rfl)
      have ht := innerLoop_initial_terminates measure maxWidth (Split line space) space f' hn
        (by omega)
      split
      · exact hchar f' (by omega)
      · simp
      · next he =>
        obtain ⟨k, _, hcases⟩ := innerLoop_initial_cases measure maxWidth (Split line space)
          space f' hn ht
        rw [he] at hcases
        rcases hcases with ⟨_, _, he'⟩ | ⟨_, _, he'⟩ | ⟨_, _, he'⟩ <;> exact absurd he' (by simp)
      · next he => exact absurd he ht
  · subst hs
    rw [if_pos rfl] at hfuel
    exact hchar fuel (by omega)

/-- The outer loop never fails on a slice expression. -/
theorem outerLoop_ne_panic (measure : GoString → W) (maxWidth : W) (line : GoString)
    (hline : line ≠ []) (fuel : Nat) (sep : GoString) (hsep : sep = space ∨ sep = []) :
    outerLoop measure maxWidth line fuel sep ≠ .panic := by
  induction fuel generalizing sep with
  | zero => simp [outerLoop]
  | succ fuel ih =>
    rw [outerLoop_succ]
    split
    · exact ih [] (Or.inr rfl)
    · split
      · exact ih [] (Or.inr rfl)
      · simp
      · next he =>
        have hn := Split_length_pos line sep hline hsep
        obtain ⟨k, _, hcases⟩ := innerLoop_initial_cases measure maxWidth (Split line sep) sep fuel
          hn (by rw [he]; simp)
        rw [he] at hcases
        rcases hcases with ⟨_, _, he'⟩ | ⟨_, _, he'⟩ | ⟨_, _, he'⟩ <;> exact absurd he' (by simp)
      · simp

end

section
variable {W : Type} [LinearOrder W]

/-! ## wrapLine: general facts -/

theorem wrapLine_succ (measure : GoString → W) (maxWidth : W) (fuel : Nat) (line : GoString) :
    wrapLine measure maxWidth (fuel + 1) line =
      if len line < 2 then .ok [line]
      else if measure line ≤ maxWidth then .ok [line]
      else if measure (line.take 1) > maxWidth then .ok [line]
      else
        match outerLoop measure maxWidth line fuel space with
        | .emit candidate rest => (wrapLine measure maxWidth fuel rest).prepend candidate
        | .panic => .panic
        | .timeout => .timeout := rfl

theorem prepend_eq_ok (c : GoString) (o : Outcome) (segs : List GoString)
    (h : o.prepend c = .ok segs) : ∃ segs', o = .ok segs' ∧ segs = c :: segs' := by
  cases o with
  | ok segs' => simp [Outcome.prepend] at h; exact ⟨segs', rfl, h.symm⟩
  | panic => simp [Outcome.prepend] at h
  | timeout => simp [Outcome.prepend] at h

theorem ne_nil_of_two_le_len (line : GoString) (h : ¬ len line < 2) : line ≠ [] := by
  intro e; subst e; simp [len] at h

/-- The ways a call of `wrapLine` can return: unsplit through one of the three
short-circuits, or with an emitted candidate in front of the result for the
rest. -/
theorem wrapLine_ok_cases (measure : GoString → W) (maxWidth : W) (fuel : Nat)
    (line : GoString) (segs : List GoString)
    (h : wrapLine measure maxWidth fuel line = .ok segs) :
    (segs = [line] ∧
        (len line < 2 ∨ measure line ≤ maxWidth ∨ measure (line.take 1) > maxWidth))
      ∨ (∃ fuel' c r segs', fuel = fuel' + 1 ∧ ¬ len line < 2 ∧ ¬ measure line ≤ maxWidth ∧
          ¬ measure (line.take 1) > maxWidth ∧
          outerLoop measure maxWidth line fuel' space = .emit c r ∧
          wrapLine measure maxWidth fuel' r = .ok segs' ∧ segs = c :: segs') := by
  cases fuel with
  | zero => simp [wrapLine] at h
  | succ fuel =>
    rw [wrapLine_succ] at h
    split at h
    · next h1 => injection h with h; exact Or.inl ⟨h.symm, Or.inl h1⟩
    · split at h
      · next h2 => injection h with h; exact Or.inl ⟨h.symm, Or.inr (Or.inl h2)⟩
      · split at h
        · next h3 => injection h with h; exact Or.inl ⟨h.symm, Or.inr (Or.inr h3)⟩
        · next h1 h2 h3 =>
          split at h
          · next c r he =>
            obtain ⟨segs', hs, hseg⟩ := prepend_eq_ok c _ segs h
            exact Or.inr ⟨fuel, c, r, segs', rfl, h1, h2, h3, he, hs, hseg⟩
          · exact absurd h (by simp)
          · exact absurd h (by simp)

theorem wrapLine_ok_ne_nil (measure : GoString → W) (maxWidth : W) (fuel : Nat)
    (line : GoString) (segs : List GoString)
    (h : wrapLine measure maxWidth fuel line = .ok segs) : segs ≠ [] := by
  rcases wrapLine_ok_cases measure maxWidth fuel line segs h with ⟨hs, _⟩ | ⟨_, _, _, _, _, _, _, _, _, _, hs⟩
  · rw [hs]; simp
  · rw [hs]; simp

theorem Join_take_one (ps : List GoString) (sep : GoString) :
    Join (ps.take 1) sep = ps.headD [] := by
  cases ps with
  | nil => rfl
  | cons a rest => rfl

/-- In word mode, when the first word fits, the outer loop emits the join of
the first `k` words for some `0 < k`, and that join fits. -/
theorem outerLoop_word_mode (measure : GoString → W) (maxWidth : W) (line : GoString)
    (fuel : Nat) (hn : 2 ≤ (Split line space).length)
    (hfit1 : measure (firstWord line) ≤ maxWidth)
    (hfuel : 2 * line.length + 6 ≤ fuel) :
    ∃ k : Nat, 0 < k ∧ k ≤ (Split line space).length ∧
      measure (Join ((Split line space).take k) space) ≤ maxWidth ∧
      outerLoop measure maxWidth line fuel space
        = .emit (Join ((Split line space).take k) space)
            (Join ((Split line space).drop k) space) := by
  obtain ⟨f', rfl⟩ : ∃ f', fuel = f' + 1 := ⟨fuel - 1, by omega⟩
  have hle := Split_length_le line space (Or.inl rfl)
  have ht := innerLoop_initial_terminates measure maxWidth (Split line space) space f'
    (by omega) (by omega)
  obtain ⟨k, h0, hk, hfit, he⟩ := innerLoop_initial_pos measure maxWidth (Split line space)
    space f' (by omega) (by rw [Join_take_one]; exact hfit1) ht
  refine ⟨k, h0, hk, hfit, ?_⟩
  rw [outerLoop_succ, if_neg (by omega), he]

theorem Monotonic.le_of_prefix {measure : GoString → W} (hmono : Monotonic measure)
    {s t : GoString} (h : s <+: t) : measure s ≤ measure t := by
  obtain ⟨u, rfl⟩ := h
  exact hmono s u

theorem firstWord_eq (line : GoString) :
    firstWord line = Join ((Split line space).take 1) space := (Join_take_one _ _).symm

theorem firstWord_le_line (line : GoString) : firstWord line <+: line := by
  have := Join_take_le_all (Split line space) space 1
  rwa [← firstWord_eq, Join_Split line space (Or.inl rfl)] at this

theorem firstChar_eq (line : GoString) (hline : line ≠ []) :
    firstChar line = Join ((explode line).take 1) [] := by
  obtain ⟨rest, h⟩ := explode_cons line hline
  rw [h]; rfl

theorem firstChar_ne_nil (line : GoString) (hline : line ≠ []) : firstChar line ≠ [] := by
  intro e
  have hl := List.length_take (decodeRuneSize line) line
  have hpos := decodeRuneSize_pos line hline
  have hlen : 0 < line.length := List.length_pos.mpr hline
  unfold firstChar at e
  rw [e] at hl
  simp only [List.length_nil] at hl
  omega

theorem take_one_le_firstChar (line : GoString) (hline : line ≠ []) :
    line.take 1 <+: firstChar line := by
  have hpos := decodeRuneSize_pos line hline
  have : line.take 1 = (firstChar line).take 1 := by
    unfold firstChar
    rw [List.take_take, min_eq_left hpos]
  rw [this]
  exact List.take_prefix _ _

/-- When the line does not fit but its first character does, `wrapLine` gets
past its three short-circuits and runs the outer loop in word mode. -/
theorem wrapLine_enters_loop (measure : GoString → W) (maxWidth : W) (fuel : Nat)
    (line : GoString) (hmono : Monotonic measure) (hline : line ≠ [])
    (hchar : measure (firstChar line) ≤ maxWidth) (hwhole : maxWidth < measure line) :
    wrapLine measure maxWidth (fuel + 1) line =
      match outerLoop measure maxWidth line fuel space with
      | .emit candidate rest => (wrapLine measure maxWidth fuel rest).prepend candidate
      | .panic => .panic
      | .timeout => .timeout := by
  have h1 : ¬ len line < 2 := by
    intro hlt
    have hlen : 0 < line.length := List.length_pos.mpr hline
    have hpos := decodeRuneSize_pos line hline
    have : firstChar line = line := by
      unfold firstChar
      apply List.take_of_length_le
      simp only [len] at hlt
      omega
    rw [this] at hchar
    exact absurd hwhole (not_lt.mpr hchar)
  have h2 : ¬ measure line ≤ maxWidth := not_le.mpr hwhole
  have h3 : ¬ measure (line.take 1) > maxWidth := by
    apply not_lt.mpr
    exact le_trans (hmono.le_of_prefix (take_one_le_firstChar line hline)) hchar
  rw [wrapLine_succ, if_neg h1, if_neg h2, if_neg h3]

/-- In character mode, when the first character fits, the outer loop emits
the first `k` characters for some `0 < k`, and they fit. -/
theorem outerLoop_char_mode (measure : GoString → W) (maxWidth : W) (line : GoString)
    (fuel : Nat) (hline : line ≠ []) (hchar : measure (firstChar line) ≤ maxWidth)
    (hfuel : 2 * line.length + 4 ≤ fuel) :
    ∃ k : Nat, 0 < k ∧ k ≤ (explode line).length ∧
      measure (Join ((explode line).take k) []) ≤ maxWidth ∧
      outerLoop measure maxWidth line fuel []
        = .emit (Join ((explode line).take k) []) (Join ((explode line).drop k) []) := by
  obtain ⟨f', rfl⟩ : ∃ f', fuel = f' + 1 := ⟨fuel - 1, by omega⟩
  have hn := Split_length_pos line [] hline (Or.inr rfl)
  rw [Split_empty] at hn
  have hle := explode_length_le line
  have ht := innerLoop_initial_terminates measure maxWidth (explode line) [] f' hn (by omega)
  obtain ⟨k, h0, hk, hfit, he⟩ := innerLoop_initial_pos measure maxWidth (explode line) [] f' hn
    (by rw [← firstChar_eq line hline]; exact hchar) ht
  refine ⟨k, h0, hk, hfit, ?_⟩
  rw [outerLoop_succ, if_neg (by simp), Split_empty, he]

/-- In word mode, when no nonempty selection of leading words fits, the outer
loop starts again in character mode. -/
theorem outerLoop_restart (measure : GoString → W) (maxWidth : W) (line : GoString)
    (fuel : Nat) (hline : line ≠ [])
    (hnone : ∀ k : Nat, 0 < k → ¬ measure (Join ((Split line space).take k) space) ≤ maxWidth)
    (hfuel : 2 * line.length + 5 ≤ fuel) :
    outerLoop measure maxWidth line (fuel + 1) space = outerLoop measure maxWidth line fuel [] := by
  rw [outerLoop_succ]
  split
  · rfl
  · have hn := Split_length_pos line space hline (Or.inl rfl)
    have hle := Split_length_le line space (Or.inl rfl)
    have ht := innerLoop_initial_terminates measure maxWidth (Split line space) space fuel hn
      (by omega)
    obtain ⟨k, _, hcases⟩ := innerLoop_initial_cases measure maxWidth (Split line space)
      space fuel hn ht
    rcases hcases with ⟨h0, hfit, _⟩ | ⟨_, _, he⟩ | ⟨_, hs, _⟩
    · exact absurd hfit (hnone k h0)
    · rw [he]
    · exact absurd hs space_ne_nil

theorem mem_space_ne_nil (line : GoString) (h : (32 : Byte) ∈ line) : line ≠ [] := by
  intro e; rw [e] at h; simp at h

theorem innerLoop_mono (measure : GoString → W) (maxWidth : W) (parts : List GoString)
    (sep : GoString) (fuel : Nat) (st : SearchState)
    (h : innerLoop measure maxWidth parts sep fuel st ≠ .timeout) (extra : Nat) :
    innerLoop measure maxWidth parts sep (fuel + extra) st
      = innerLoop measure maxWidth parts sep fuel st := by
  induction fuel generalizing st with
  | zero => exact absurd rfl h
  | succ fuel ih =>
    have e : fuel + 1 + extra = (fuel + extra) + 1 := by omega
    rw [e]
    unfold innerLoop
    unfold innerLoop at h
    split
    · next st' hs =>
      rw [hs] at h
      exact ih st' h
    · rfl
    · rfl
    · rfl

theorem outerLoop_mono (measure : GoString → W) (maxWidth : W) (line : GoString)
    (fuel : Nat) (sep : GoString)
    (h : outerLoop measure maxWidth line fuel sep ≠ .timeout) (extra : Nat) :
    outerLoop measure maxWidth line (fuel + extra) sep
      = outerLoop measure maxWidth line fuel sep := by
  induction fuel generalizing sep with
  | zero => exact absurd rfl h
  | succ fuel ih =>
    have e : fuel + 1 + extra = (fuel + extra) + 1 := by omega
    rw [e, outerLoop_succ, outerLoop_succ]
    rw [outerLoop_succ] at h
    split
    · next hc =>
      rw [if_pos hc] at h
      exact ih [] h
    · next hc =>
      rw [if_neg hc] at h
      have hi : innerLoop measure maxWidth (Split line sep) sep fuel
          (initialState (Split line sep).length) ≠ .timeout := by
        intro e'
        rw [e'] at h
        exact h rfl
      rw [innerLoop_mono measure maxWidth _ sep fuel _ hi extra]
      split
      · next he =>
        rw [he] at h
        exact ih [] h
      · rfl
      · rfl
      · rfl

/-- What the outer loop emits does not depend on the fuel. -/
theorem outerLoop_emit_unique (measure : GoString → W) (maxWidth : W) (line : GoString)
    (sep : GoString) (f1 f2 : Nat) (c1 r1 c2 r2 : GoString)
    (h1 : outerLoop measure maxWidth line f1 sep = .emit c1 r1)
    (h2 : outerLoop measure maxWidth line f2 sep = .emit c2 r2) : c1 = c2 ∧ r1 = r2 := by
  have e1 := outerLoop_mono measure maxWidth line f1 sep (by rw [h1]; simp) f2
  have e2 := outerLoop_mono measure maxWidth line f2 sep (by rw [h2]; simp) f1
  rw [h1] at e1
  rw [h2, Nat.add_comm, e1] at e2
  injection e2 with hc hr
  exact ⟨hc, hr⟩

theorem wrapLine_mono (measure : GoString → W) (maxWidth : W) (fuel : Nat) (line : GoString)
    (segs : List GoString) (h : wrapLine measure maxWidth fuel line = .ok segs) (extra : Nat) :
    wrapLine measure maxWidth (fuel + extra) line = .ok segs := by
  induction fuel generalizing line segs with
  | zero => simp [wrapLine] at h
  | succ fuel ih =>
    have e : fuel + 1 + extra = (fuel + extra) + 1 := by omega
    rw [e, wrapLine_succ]
    rw [wrapLine_succ] at h
    split
    · next hc => rw [if_pos hc] at h; exact h
    · next hc1 =>
      rw [if_neg hc1] at h
      split
      · next hc => rw [if_pos hc] at h; exact h
      · next hc2 =>
        rw [if_neg hc2] at h
        split
        · next hc => rw [if_pos hc] at h; exact h
        · next hc3 =>
          rw [if_neg hc3] at h
          have ho : outerLoop measure maxWidth line fuel space ≠ .timeout := by
            intro e'
            rw [e'] at h
            exact absurd h (by simp)
          rw [outerLoop_mono measure maxWidth line fuel space ho extra]
          split
          · next c r he =>
            rw [he] at h
            obtain ⟨segs', hs, hseg⟩ := prepend_eq_ok c _ segs h
            rw [ih r segs' hs, hseg]; rfl
          · next he => rw [he] at h; exact absurd h (by simp)
          · next he => exact absurd he ho

/-- A call whose outer loop hands the whole line to the recursive call never
returns. -/
theorem wrapLine_timeout_of_self (measure : GoString → W) (maxWidth : W) (line : GoString)
    (h1 : ¬ len line < 2) (h2 : ¬ measure line ≤ maxWidth)
    (h3 : ¬ measure (line.take 1) > maxWidth) (f0 : Nat) (c : GoString)
    (hself : outerLoop measure maxWidth line f0 space = .emit c line) (fuel : Nat) :
    wrapLine measure maxWidth fuel line = .timeout := by
  induction fuel with
  | zero => rfl
  | succ fuel ih =>
    rw [wrapLine_succ, if_neg h1, if_neg h2, if_neg h3]
    split
    · next c' r' he =>
      obtain ⟨_, hr⟩ := outerLoop_emit_unique measure maxWidth line space fuel f0 c' r' c line
        he hself
      rw [hr, ih]; rfl
    · next he =>
      exact absurd he (outerLoop_ne_panic measure maxWidth line (ne_nil_of_two_le_len line h1)
        fuel space (Or.inl rfl))
    · rfl

/-- A call whose emitted rest never returns never returns either. -/
theorem wrapLine_timeout_of_rest (measure : GoString → W) (maxWidth : W) (line : GoString)
    (h1 : ¬ len line < 2) (h2 : ¬ measure line ≤ maxWidth)
    (h3 : ¬ measure (line.take 1) > maxWidth) (f0 : Nat) (c r : GoString)
    (hemit : outerLoop measure maxWidth line f0 space = .emit c r)
    (hrest : ∀ fuel, wrapLine measure maxWidth fuel r = .timeout) (fuel : Nat) :
    wrapLine measure maxWidth fuel line = .timeout := by
  cases fuel with
  | zero => rfl
  | succ fuel =>
    rw [wrapLine_succ, if_neg h1, if_neg h2, if_neg h3]
    split
    · next c' r' he =>
      obtain ⟨_, hr⟩ := outerLoop_emit_unique measure maxWidth line space fuel f0 c' r' c r
        he hemit
      rw [hr, hrest]; rfl
    · next he =>
      exact absurd he (outerLoop_ne_panic measure maxWidth line (ne_nil_of_two_le_len line h1)
        fuel space (Or.inl rfl))
    · rfl

theorem byteLen_monotonic : Monotonic byteLen := by
  intro s t
  simp [byteLen]

end

section
variable {W : Type} [LinearOrder W]

/-! ## The binary search: bracket and trace -/

/-- In a state satisfying the invariant some `case` of the `switch` applies. -/
theorem SearchInv.caseApplies {measure : GoString → W} {maxWidth : W} {parts : List GoString}
    {sep : GoString} {st : SearchState} (inv : SearchInv measure maxWidth parts sep st) :
    caseApplies measure maxWidth parts sep st := by
  obtain ⟨h1, h2, h3, h4, h5, h6, h7, h8⟩ := inv
  unfold Bankan.caseApplies
  by_contra hnone
  simp only [not_or] at hnone
  obtain ⟨hn1, hn2, hn3, _, hn5⟩ := hnone
  have hnf' : maxWidth < widthAt measure parts sep st.wrapIndex := by
    apply not_le.mp; intro hle; exact hn3 ⟨by omega, hle⟩
  have hs0 : st.wrapIndexStep ≤ 0 := by
    by_contra hpos
    exact hn2 ⟨by omega, hnf'⟩
  rcases h7 hs0 with h0 | hlt
  · omega
  · exact absurd hlt (not_lt.mpr hnf'.le)

/-- One pass keeps `wrapIndex <= rangeUpperIndex <= partCount - 1`, never
lowers `rangeLowerIndex` and never raises `rangeUpperIndex`. -/
theorem bracket_next {measure : GoString → W} {maxWidth : W} {parts : List GoString}
    {sep : GoString} {st st' : SearchState}
    (inv : SearchInv measure maxWidth parts sep st)
    (hwu : st.wrapIndex ≤ st.rangeUpperIndex)
    (hun : st.rangeUpperIndex ≤ (parts.length : Int) - 1)
    (h : switchStep measure maxWidth parts sep st = .next st') :
    st'.wrapIndex ≤ st'.rangeUpperIndex ∧ st'.rangeUpperIndex ≤ (parts.length : Int) - 1 ∧
      st.rangeLowerIndex ≤ st'.rangeLowerIndex ∧ st'.rangeUpperIndex ≤ st.rangeUpperIndex := by
  obtain ⟨h1, h2, h3, h4, h5, h6, h7, h8⟩ := inv
  unfold switchStep at h
  split at h
  · exact absurd h (by simp)
  · dsimp only at h
    split at h
    · injection h with h; subst h
      have hd : Int.tdiv (st.rangeUpperIndex - st.wrapIndex) 2
          = (st.rangeUpperIndex - st.wrapIndex) / 2 := tdiv_two_of_nonneg _ (by omega)
      dsimp only
      rw [hd]
      omega
    · split at h
      · injection h with h; subst h
        have hd : Int.tdiv (st.wrapIndex - st.rangeLowerIndex + 1) 2
            = (st.wrapIndex - st.rangeLowerIndex + 1) / 2 := tdiv_two_of_nonneg _ (by omega)
        dsimp only
        rw [hd]
        omega
      · split at h
        · exact absurd h (by simp)
        · split at h
          · exact absurd h (by simp)
          · split at h
            · exact absurd h (by simp)
            · injection h with h; subst h
              omega

theorem searchStates_succ (measure : GoString → W) (maxWidth : W) (parts : List GoString)
    (sep : GoString) (fuel : Nat) (st : SearchState) :
    searchStates measure maxWidth parts sep (fuel + 1) st =
      st ::
        match switchStep measure maxWidth parts sep st with
        | .next st' => searchStates measure maxWidth parts sep fuel st'
        | _ => [] := rfl

/-- Every state of the trace other than the first has a bracket inside the
bracket of the first and a smaller `searchMeasure`; all satisfy the invariant
and `wrapIndex <= rangeUpperIndex <= partCount - 1`. -/
theorem searchStates_spec (measure : GoString → W) (maxWidth : W) (parts : List GoString)
    (sep : GoString) (fuel : Nat) (st : SearchState)
    (inv : SearchInv measure maxWidth parts sep st)
    (hwu : st.wrapIndex ≤ st.rangeUpperIndex)
    (hun : st.rangeUpperIndex ≤ (parts.length : Int) - 1) :
    ∀ b ∈ searchStates measure maxWidth parts sep fuel st,
      (SearchInv measure maxWidth parts sep b ∧ b.wrapIndex ≤ b.rangeUpperIndex ∧
        b.rangeUpperIndex ≤ (parts.length : Int) - 1) ∧
      (b = st ∨ (st.rangeLowerIndex ≤ b.rangeLowerIndex ∧
        b.rangeUpperIndex ≤ st.rangeUpperIndex ∧ searchMeasure b < searchMeasure st)) := by
  induction fuel generalizing st with
  | zero => intro b hb; simp [searchStates] at hb
  | succ fuel ih =>
    intro b hb
    rw [searchStates_succ] at hb
    rcases List.mem_cons.mp hb with hb | hb
    · subst hb
      exact ⟨⟨inv, hwu, hun⟩, Or.inl rfl⟩
    · split at hb
      · next st' hs =>
        obtain ⟨hwu', hun', hl, hu⟩ := bracket_next inv hwu hun hs
        have hm := searchMeasure_next inv hs
        obtain ⟨hb1, hb2⟩ := ih st' (inv.next hs) hwu' hun' b hb
        refine ⟨hb1, Or.inr ?_⟩
        rcases hb2 with hb2 | ⟨hl2, hu2, hm2⟩
        · subst hb2; exact ⟨hl, hu, hm⟩
        · exact ⟨by omega, by omega, by omega⟩
      · simp at hb

theorem searchStates_pairwise (measure : GoString → W) (maxWidth : W) (parts : List GoString)
    (sep : GoString) (fuel : Nat) (st : SearchState)
    (inv : SearchInv measure maxWidth parts sep st)
    (hwu : st.wrapIndex ≤ st.rangeUpperIndex)
    (hun : st.rangeUpperIndex ≤ (parts.length : Int) - 1) :
    (searchStates measure maxWidth parts sep fuel st).Pairwise
      (fun a b => a.rangeLowerIndex ≤ b.rangeLowerIndex ∧
        b.rangeUpperIndex ≤ a.rangeUpperIndex ∧ searchMeasure b < searchMeasure a) := by
  induction fuel generalizing st with
  | zero => simp [searchStates]
  | succ fuel ih =>
    rw [searchStates_succ]
    split
    · next st' hs =>
      obtain ⟨hwu', hun', hl, hu⟩ := bracket_next inv hwu hun hs
      have hm := searchMeasure_next inv hs
      refine List.Pairwise.cons ?_ (ih st' (inv.next hs) hwu' hun')
      intro b hb
      obtain ⟨_, hb2⟩ := searchStates_spec measure maxWidth parts sep fuel st' (inv.next hs)
        hwu' hun' b hb
      rcases hb2 with hb2 | ⟨hl2, hu2, hm2⟩
      · subst hb2; exact ⟨hl, hu, hm⟩
      · exact ⟨by omega, by omega, by omega⟩
    · simp

theorem searchStates_length (measure : GoString → W) (maxWidth : W) (parts : List GoString)
    (sep : GoString) (fuel : Nat) (st : SearchState)
    (inv : SearchInv measure maxWidth parts sep st) :
    (searchStates measure maxWidth parts sep fuel st).length ≤ searchMeasure st + 1 := by
  induction fuel generalizing st with
  | zero => simp [searchStates]
  | succ fuel ih =>
    rw [searchStates_succ]
    split
    · next st' hs =>
      have hm := searchMeasure_next inv hs
      have := ih st' (inv.next hs)
      simp only [List.length_cons]
      omega
    · simp

theorem initialState_bracket (n : Nat) (hn : 2 ≤ n) :
    (initialState n).wrapIndex ≤ (initialState n).rangeUpperIndex ∧
      (initialState n).rangeUpperIndex ≤ (n : Int) - 1 := by
  have h1 : Int.tdiv ((n : Int) + 1) 2 = ((n : Int) + 1) / 2 :=
    tdiv_two_of_nonneg _ (by omega)
  simp only [initialState, h1]
  omega

end

section
variable {F : Type} [LinearOrder F]

/-! ## wrapLines and SetFilterTags -/

theorem wrapLinesLoop_ok_iff (measure : GoString → F) (maxWidth : F) (fuel : Nat)
    (lines acc out : List GoString) :
    wrapLinesLoop measure maxWidth fuel lines acc = .ok out ↔
      ∃ results : List (List GoString),
        List.Forall₂ (fun l r => wrapLine measure maxWidth fuel l = .ok r) lines results ∧
        out = acc ++ results.flatten := by
  induction lines generalizing acc with
  | nil =>
    constructor
    · intro h
      simp only [wrapLinesLoop] at h
      injection h with h
      exact ⟨[], List.Forall₂.nil, by simp [h]⟩
    · rintro ⟨results, hf, hout⟩
      cases hf
      simp [wrapLinesLoop, hout]
  | cons line rest ih =>
    constructor
    · intro h
      unfold wrapLinesLoop at h
      split at h
      · next sub hs =>
        obtain ⟨results, hf, hout⟩ := (ih (acc ++ sub)).mp h
        exact ⟨sub :: results, List.Forall₂.cons hs hf, by simp [hout]⟩
      · exact absurd h (by simp)
      · exact absurd h (by simp)
    · rintro ⟨results, hf, hout⟩
      cases hf with
      | cons hs hf' =>
        next sub results' =>
        unfold wrapLinesLoop
        rw [hs]
        exact (ih (acc ++ sub)).mpr ⟨results', hf', by simp [hout]⟩

theorem forall₂_wrapLine_length (measure : GoString → F) (maxWidth : F) (fuel : Nat)
    (lines : List GoString) (results : List (List GoString))
    (hf : List.Forall₂ (fun l r => wrapLine measure maxWidth fuel l = .ok r) lines results) :
    lines.length ≤ results.flatten.length := by
  induction hf with
  | nil => simp
  | @cons l r ls rs hs _ ih =>
    have hne := wrapLine_ok_ne_nil measure maxWidth fuel l r hs
    have hpos : 0 < r.length := List.length_pos.mpr hne
    simp only [List.length_cons, List.flatten_cons, List.length_append]
    omega

theorem forall₂_wrapLine_mem (measure : GoString → F) (maxWidth : F) (fuel : Nat)
    (lines : List GoString) (results : List (List GoString))
    (hf : List.Forall₂ (fun l r => wrapLine measure maxWidth fuel l = .ok r) lines results) :
    ∀ s ∈ results.flatten, ∃ l ∈ lines, ∃ r,
      wrapLine measure maxWidth fuel l = .ok r ∧ s ∈ r := by
  induction hf with
  | nil => intro s hs; simp at hs
  | @cons l r ls rs hs _ ih =>
    intro s hmem
    simp only [List.flatten_cons, List.mem_append] at hmem
    rcases hmem with h | h
    · exact ⟨l, List.mem_cons_self _ _, r, hs, h⟩
    · obtain ⟨l', hl', r', hr', hsr⟩ := ih s h
      exact ⟨l', List.mem_cons_of_mem _ hl', r', hr', hsr⟩

/-- When every line is wrapped by some amount of fuel, one amount wraps all. -/
theorem forall₂_wrapLine_of_each (measure : GoString → F) (maxWidth : F)
    (lines : List GoString)
    (h : ∀ l ∈ lines, ∃ fuel r, wrapLine measure maxWidth fuel l = .ok r) :
    ∃ fuel : Nat, ∃ results : List (List GoString),
      List.Forall₂ (fun l r => wrapLine measure maxWidth fuel l = .ok r) lines results := by
  induction lines with
  | nil => exact ⟨0, [], List.Forall₂.nil⟩
  | cons l rest ih =>
    obtain ⟨f1, r1, h1⟩ := h l (List.mem_cons_self _ _)
    obtain ⟨f2, rs, h2⟩ := ih (fun l' hl' => h l' (List.mem_cons_of_mem _ hl'))
    refine ⟨f1 + f2, r1 :: rs, List.Forall₂.cons ?_ ?_⟩
    · exact wrapLine_mono measure maxWidth f1 l r1 h1 f2
    · refine List.Forall₂.imp ?_ h2
      intro a b hab
      have := wrapLine_mono measure maxWidth f2 a b hab f1
      rwa [Nat.add_comm] at this

theorem matchTags_eq_true (filterTag : Tag) (tags : List Tag) (m : Bool) :
    matchTags filterTag tags m = true ↔ m = true ∨ filterTag ∈ tags := by
  induction tags with
  | nil => simp [matchTags]
  | cons tag rest ih =>
    unfold matchTags
    split
    · next h => simp [h]
    · next h =>
      rw [ih]
      constructor
      · rintro (hm | hm)
        · exact Or.inl hm
        · exact Or.inr (List.mem_cons_of_mem _ hm)
      · rintro (hm | hm)
        · exact Or.inl hm
        · rcases List.mem_cons.mp hm with e | e
          · exact absurd e.symm h
          · exact Or.inr e

theorem matchFilterTags_eq_true (tags filterTags : List Tag) (m : Bool) :
    matchFilterTags tags filterTags m = true ↔
      m = true ∨ ∃ t ∈ tags, t ∈ filterTags := by
  induction filterTags generalizing m with
  | nil => simp [matchFilterTags]
  | cons ft rest ih =>
    unfold matchFilterTags
    rw [ih, matchTags_eq_true]
    constructor
    · rintro ((hm | hm) | ⟨t, ht, hr⟩)
      · exact Or.inl hm
      · exact Or.inr ⟨ft, hm, List.mem_cons_self _ _⟩
      · exact Or.inr ⟨t, ht, List.mem_cons_of_mem _ hr⟩
    · rintro (hm | ⟨t, ht, hr⟩)
      · exact Or.inl (Or.inl hm)
      · rcases List.mem_cons.mp hr with e | e
        · subst e; exact Or.inl (Or.inr ht)
        · exact Or.inr ⟨t, ht, e⟩

end

section
variable {W : Type} [LinearOrder W]

/-! ## The short-circuits at the level of bytes -/

/-- A line of fewer than two bytes is returned at once. -/
theorem wrapLine_short_bytes (measure : GoString → W) (maxWidth : W) (fuel : Nat)
    (line : GoString) (h : line.length < 2) :
    wrapLine measure maxWidth (fuel + 1) line = .ok [line] := by
  rw [wrapLine_succ, if_pos (by simp only [len]; omega)]

/-- A line whose first byte `line[:1]` measures more than `maxWidth` is
returned unsplit. -/
theorem wrapLine_first_byte_overflow (measure : GoString → W) (maxWidth : W) (fuel : Nat)
    (line : GoString) (h : measure (line.take 1) > maxWidth) :
    wrapLine measure maxWidth (fuel + 1) line = .ok [line] := by
  rw [wrapLine_succ]
  split
  · rfl
  · split
    · rfl
    · rfl

/-- Whenever `wrapLine` returns, it returns a single segment exactly when one
of its three short-circuits applies: fewer than two bytes, the line fits, or
the first byte `line[:1]` does not fit. -/
theorem wrapLine_single_iff (measure : GoString → W) (maxWidth : W) (fuel : Nat)
    (line : GoString) (segs : List GoString)
    (h : wrapLine measure maxWidth fuel line = .ok segs) :
    segs.length = 1 ↔
      (len line < 2 ∨ measure line ≤ maxWidth ∨ measure (line.take 1) > maxWidth) := by
  rcases wrapLine_ok_cases measure maxWidth fuel line segs h with
    ⟨hs, hcase⟩ | ⟨fuel', c, r, segs', _, h1, h2, h3, _, hr, hs⟩
  · rw [hs]; simp [hcase]
  · have hne := wrapLine_ok_ne_nil measure maxWidth fuel' r segs' hr
    have hpos : 0 < segs'.length := List.length_pos.mpr hne
    rw [hs]
    constructor
    · intro hl
      simp only [List.length_cons] at hl
      omega
    · rintro (h | h | h)
      · exact absurd h h1
      · exact absurd h h2
      · exact absurd h h3

end

/-! ## UTF-8 decoding -/

theorem leadInfo_some (b sz lo hi : Nat) (h : leadInfo b = some (sz, lo, hi)) :
    0xC2 ≤ b ∧ (sz = 2 ∨ sz = 3 ∨ sz = 4) ∧ 0x80 ≤ lo ∧ hi ≤ 0xBF := by
  unfold leadInfo at h
  split_ifs at h <;> simp at h <;> omega

theorem isCont_of_range (b : Byte) (lo hi : Nat) (hlo : 0x80 ≤ lo) (hhi : hi ≤ 0xBF)
    (h : ¬ (b.val < lo ∨ hi < b.val)) : isCont b = true := by
  simp only [isCont, Bool.and_eq_true, decide_eq_true_eq]
  omega

/-- The three ways `utf8.DecodeRuneInString` can read a nonempty string: an
invalid first byte, an ASCII byte, or a complete sequence of two to four
bytes whose continuation bytes are `0x80..0xBF` and whose value does not
depend on what follows. -/
theorem decodeRune_spec (s0 : Byte) (rest : GoString) :
    (0x80 ≤ s0.val ∧ decodeRune (s0 :: rest) = (RuneError, 1)) ∨
    (s0.val < 0x80 ∧ decodeRune (s0 :: rest) = (s0.val, 1)) ∨
    (∃ (u x : GoString) (r : Nat), s0 :: rest = u ++ x ∧ 2 ≤ u.length ∧ 0xC2 ≤ s0.val ∧
      (∀ b ∈ u.tail, isCont b = true) ∧ ∀ y, decodeRune (u ++ y) = (r, u.length)) := by
  cases hl : leadInfo s0.val with
  | none =>
    by_cases h0 : s0.val < 0x80
    · right; left
      exact ⟨h0, by simp only [decodeRune, hl]; rw [if_pos h0]⟩
    · left
      exact ⟨by omega, by simp only [decodeRune, hl]; rw [if_neg h0]⟩
  | some t =>
    obtain ⟨sz, lo, hi⟩ := t
    obtain ⟨hb, hsz, hlo, hhi⟩ := leadInfo_some _ _ _ _ hl
    have inv : ∀ {p : Nat × Nat}, p = (RuneError, 1) →
        (0x80 ≤ s0.val ∧ p = (RuneError, 1)) ∨ (s0.val < 0x80 ∧ p = (s0.val, 1)) ∨
        (∃ (u x : GoString) (r : Nat), s0 :: rest = u ++ x ∧ 2 ≤ u.length ∧ 0xC2 ≤ s0.val ∧
          (∀ b ∈ u.tail, isCont b = true) ∧ ∀ y, decodeRune (u ++ y) = (r, u.length)) :=
      fun hp => Or.inl ⟨by omega, hp⟩
    rcases rest with _ | ⟨s1, rest1⟩
    · apply inv
      simp only [decodeRune, hl, List.length_singleton]
      rw [if_pos (by omega)]
    · by_cases h1 : s1.val < lo ∨ hi < s1.val
      · apply inv
        simp only [decodeRune, hl, List.length_cons]
        split
        · rfl
        · rfl
      · have hc1 := isCont_of_range s1 lo hi hlo hhi h1
        by_cases hs2 : sz ≤ 2
        · right; right
          refine ⟨[s0, s1], rest1, s0.val % 32 * 64 + s1.val % 64, rfl, by simp, hb, ?_, ?_⟩
          · intro b hb'; simp at hb'; rw [hb']; exact hc1
          · intro y
            simp only [decodeRune, hl, List.cons_append, List.nil_append, List.length_cons]
            rw [if_neg (by omega), if_neg h1, if_pos hs2]
            rfl
        · rcases rest1 with _ | ⟨s2, rest2⟩
          · apply inv
            simp only [decodeRune, hl, List.length_cons, List.length_nil]
            rw [if_pos (by omega)]
          · by_cases h2 : isCont s2 = false
            · apply inv
              simp only [decodeRune, hl, List.length_cons]
              split
              · rfl
              · rfl
            · by_cases hs3 : sz ≤ 3
              · right; right
                refine ⟨[s0, s1, s2], rest2, s0.val % 16 * 4096 + s1.val % 64 * 64 + s2.val % 64, rfl,
                  by simp, hb, ?_, ?_⟩
                · intro b hb'
                  simp at hb'
                  rcases hb' with e | e
                  · rw [e]; exact hc1
                  · rw [e]; simpa using h2
                · intro y
                  simp only [decodeRune, hl, List.cons_append, List.nil_append, List.length_cons]
                  rw [if_neg (by omega), if_neg h1, if_neg hs2, if_neg h2, if_pos hs3]
                  rfl
              · rcases rest2 with _ | ⟨s3, rest3⟩
                · apply inv
                  simp only [decodeRune, hl, List.length_cons, List.length_nil]
                  rw [if_pos (by omega)]
                · by_cases h3 : isCont s3 = false
                  · apply inv
                    simp only [decodeRune, hl, List.length_cons]
                    split
                    · rfl
                    · rfl
                  · right; right
                    refine ⟨[s0, s1, s2, s3], rest3,
                      s0.val % 8 * 262144 + s1.val % 64 * 4096 + s2.val % 64 * 64 + s3.val % 64,
                      rfl, by simp, hb, ?_, ?_⟩
                    · intro b hb'
                      simp at hb'
                      rcases hb' with e | e | e
                      · rw [e]; exact hc1
                      · rw [e]; simpa using h2
                      · rw [e]; simpa using h3
                    · intro y
                      simp only [decodeRune, hl, List.cons_append, List.nil_append,
                        List.length_cons]
                      rw [if_neg (by omega), if_neg h1, if_neg hs2, if_neg h2, if_neg hs3,
                        if_neg h3]
                      rfl


theorem decodeRune_snd (s : GoString) : (decodeRune s).2 = decodeRuneSize s := by
  unfold decodeRune decodeRuneSize
  repeat' split
  all_goals simp_all

theorem decodeRune_snd_pos (s : GoString) (h : s ≠ []) : 1 ≤ (decodeRune s).2 := by
  rw [decodeRune_snd]; exact decodeRuneSize_pos s h

theorem decodeRune_ascii (c : Byte) (rest : GoString) (hc : c.val < 0x80) :
    decodeRune (c :: rest) = (c.val, 1) := by
  have : leadInfo c.val = none := by
    unfold leadInfo; rw [if_pos (by omega)]
  simp only [decodeRune, this]
  rw [if_pos hc]

theorem IsSpace_RuneError : IsSpace RuneError = false := by decide

theorem decodeRune_nil : decodeRune [] = (RuneError, 0) := rfl

theorem RuneStart_of_not_cont (b : Byte) (h : isCont b = false) : RuneStart b = true := by
  simp only [isCont] at h
  simp only [RuneStart, h]
  rfl

theorem isCont_of_not_RuneStart (b : Byte) (h : RuneStart b = false) : isCont b = true := by
  simp only [RuneStart, Bool.not_eq_false'] at h
  simpa only [isCont] using h

/-- A complete sequence reads the same whatever follows it. -/
theorem decodeRune_append (u x : GoString) (hlen : 2 ≤ u.length)
    (h : (decodeRune u).2 = u.length) : decodeRune (u ++ x) = decodeRune u := by
  rcases u with _ | ⟨s0, rest⟩
  · simp at hlen
  · rcases decodeRune_spec s0 rest with ⟨_, he⟩ | ⟨_, he⟩ | ⟨u', x', r, hu, _, _, _, hall⟩
    · rw [he] at h; dsimp only at h; omega
    · rw [he] at h; dsimp only at h; omega
    · have h1 := hall x'
      rw [← hu] at h1
      rw [h1] at h
      simp only at h
      have hx' : x' = [] := by
        have := congrArg List.length hu
        rw [List.length_append] at this
        apply List.length_eq_zero.mp
        omega
      rw [hx', List.append_nil] at hu
      rw [hu, hall x, ← List.append_nil u', hall []]
      simp

/-- A byte followed by nothing or by a byte that starts a character is a
character of its own. -/
theorem decodeRune_snd_of_RuneStart (b : Byte) (x : GoString)
    (hx : x = [] ∨ ∃ c rest, x = c :: rest ∧ RuneStart c = true) :
    (decodeRune (b :: x)).2 = 1 := by
  rcases decodeRune_spec b x with ⟨_, he⟩ | ⟨_, he⟩ | ⟨u, x', r, hu, hlen, _, hcont, _⟩
  · rw [he]
  · rw [he]
  · exfalso
    rcases u with _ | ⟨u0, _ | ⟨u1, urest⟩⟩
    · simp at hlen
    · simp at hlen
    · simp only [List.cons_append] at hu
      injection hu with _ hu
      have hc1 : isCont u1 = true := hcont u1 (by simp)
      rcases hx with hx | ⟨c, rest, hx, hc⟩
      · rw [hx] at hu; simp at hu
      · rw [hx] at hu
        injection hu with hcu _
        rw [hcu] at hc
        simp only [RuneStart, isCont] at hc hc1
        rw [hc1] at hc
        simp at hc

/-- A whitespace character starts with a byte that is not a continuation
byte. -/
theorem RuneStart_of_IsSpace (s : GoString) (h : IsSpace (decodeRune s).1 = true) :
    ∃ c rest, s = c :: rest ∧ RuneStart c = true := by
  rcases s with _ | ⟨s0, rest⟩
  · rw [decodeRune_nil, IsSpace_RuneError] at h; simp at h
  · refine ⟨s0, rest, rfl, ?_⟩
    rcases decodeRune_spec s0 rest with ⟨_, he⟩ | ⟨h0, _⟩ | ⟨_, _, _, _, _, hb, _, _⟩
    · rw [he, IsSpace_RuneError] at h; simp at h
    · simp only [RuneStart, Bool.not_eq_true', Bool.and_eq_false_imp, decide_eq_true_eq,
        decide_eq_false_iff_not]
      omega
    · simp only [RuneStart, Bool.not_eq_true', Bool.and_eq_false_imp, decide_eq_true_eq,
        decide_eq_false_iff_not]
      omega

/-- Cutting a string short leaves its first character or makes the first
character invalid. -/
theorem decodeRune_take (s : GoString) (k : Nat) :
    decodeRune (s.take k) = decodeRune s ∨ (decodeRune (s.take k)).1 = RuneError := by
  rcases ht : s.take k with _ | ⟨t0, trest⟩
  · right; rfl
  · have hs : s = (t0 :: trest) ++ s.drop k := by rw [← ht, List.take_append_drop]
    rcases decodeRune_spec t0 trest with ⟨_, he⟩ | ⟨h0, he⟩ | ⟨u, x, r, hu, _, _, _, hall⟩
    · right; rw [he]
    · left
      rw [he, hs]
      exact (decodeRune_ascii t0 _ h0).symm
    · left
      have h1 := hall x
      rw [← hu] at h1
      rw [h1, hs, hu, List.append_assoc, hall]

theorem decodeRune_snd_le (s : GoString) : (decodeRune s).2 ≤ s.length := by
  rcases s with _ | ⟨s0, rest⟩
  · simp [decodeRune_nil]
  · rcases decodeRune_spec s0 rest with ⟨_, he⟩ | ⟨_, he⟩ | ⟨u, x, r, hu, _, _, _, hall⟩
    · rw [he]; simp
    · rw [he]; simp
    · have h1 := hall x
      rw [← hu] at h1
      rw [h1]
      have := congrArg List.length hu
      rw [List.length_append] at this
      simp only at this ⊢
      omega

theorem lastRuneStart_le (s : GoString) (lim : Int) (fuel : Nat) (start : Int) :
    lastRuneStart s lim fuel start ≤ start := by
  induction fuel generalizing start with
  | zero => simp [lastRuneStart]
  | succ fuel ih =>
    unfold lastRuneStart
    split
    · split
      · exact le_refl _
      · have := ih (start - 1); omega
    · exact le_refl _

theorem getD_append_last (t : GoString) (c : Byte) :
    (t ++ [c]).getD t.length 0 = c := by
  simp [List.getD_eq_getElem?_getD]

/-- The two ways `utf8.DecodeLastRuneInString` can read a nonempty string:
one invalid byte, or the character that `utf8.DecodeRuneInString` reads from
the last `z` bytes, which it uses up. -/
theorem decodeLastRune_spec (t : GoString) (c : Byte) :
    (decodeLastRune (t ++ [c]) = (RuneError, 1) ∧ 0x80 ≤ c.val) ∨
    (∃ z : Nat, 1 ≤ z ∧ z ≤ (t ++ [c]).length ∧
      decodeLastRune (t ++ [c]) = (decodeRune ((t ++ [c]).drop ((t ++ [c]).length - z))) ∧
      (decodeRune ((t ++ [c]).drop ((t ++ [c]).length - z))).2 = z) := by
  have hlen : (t ++ [c]).length = t.length + 1 := by simp
  have hlast : (t ++ [c]).getD (((t ++ [c]).length : Int) - 1).toNat 0 = c := by
    have : (((t ++ [c]).length : Int) - 1).toNat = t.length := by rw [hlen]; omega
    rw [this]; exact getD_append_last t c
  unfold decodeLastRune
  simp only []
  rw [if_neg (by rw [hlen]; omega), hlast]
  by_cases hc : c.val < 0x80
  · right
    rw [if_pos hc]
    refine ⟨1, le_refl _, by omega, ?_, ?_⟩
    · have : (t ++ [c]).drop ((t ++ [c]).length - 1) = [c] := by
        rw [hlen]; simp
      rw [this, decodeRune_ascii c [] hc]
    · have : (t ++ [c]).drop ((t ++ [c]).length - 1) = [c] := by
        rw [hlen]; simp
      rw [this, decodeRune_ascii c [] hc]
  · rw [if_neg hc]
    generalize hst : lastRuneStart (t ++ [c])
      (if ((t ++ [c]).length : Int) - 4 < 0 then 0 else ((t ++ [c]).length : Int) - 4) 4
      (((t ++ [c]).length : Int) - 2) = st0
    have hle : st0 ≤ ((t ++ [c]).length : Int) - 2 := by
      rw [← hst]; exact lastRuneStart_le _ _ _ _
    generalize hst' : (if st0 < 0 then (0 : Int) else st0) = st
    have h0 : 0 ≤ st := by rw [← hst']; split <;> omega
    have h1 : st ≤ ((t ++ [c]).length : Int) - 1 := by
      rw [← hst']; split <;> omega
    by_cases hcond : st + ((decodeRune ((t ++ [c]).drop st.toNat)).2 : Int) ≠ ((t ++ [c]).length : Int)
    · left
      rw [if_pos hcond]
      exact ⟨rfl, by omega⟩
    · right
      rw [if_neg hcond]
      have hcond' : st + ((decodeRune ((t ++ [c]).drop st.toNat)).2 : Int)
          = ((t ++ [c]).length : Int) := not_not.mp hcond
      refine ⟨(decodeRune ((t ++ [c]).drop st.toNat)).2, by omega, by omega, ?_, ?_⟩
      · have : (t ++ [c]).length - (decodeRune ((t ++ [c]).drop st.toNat)).2 = st.toNat := by
          omega
        rw [this]
      · have : (t ++ [c]).length - (decodeRune ((t ++ [c]).drop st.toNat)).2 = st.toNat := by
          omega
        rw [this]

theorem decodeLastRune_nil : decodeLastRune [] = (RuneError, 0) := rfl

/-- A string that ends with an ASCII byte has that byte as last character. -/
theorem decodeLastRune_ascii (t : GoString) (c : Byte) (hc : c.val < 0x80) :
    decodeLastRune (t ++ [c]) = (c.val, 1) := by
  have hlen : (t ++ [c]).length = t.length + 1 := by simp
  have hlast : (t ++ [c]).getD (((t ++ [c]).length : Int) - 1).toNat 0 = c := by
    have : (((t ++ [c]).length : Int) - 1).toNat = t.length := by rw [hlen]; omega
    rw [this]; exact getD_append_last t c
  unfold decodeLastRune
  simp only []
  rw [if_neg (by rw [hlen]; omega), hlast, if_pos hc]

/-! ## Trimming -/

theorem drop_eq_drop_take_append (s : GoString) (j i : Nat) (hji : j ≤ i) (hi : i ≤ s.length) :
    s.drop j = (s.take i).drop j ++ s.drop i := by
  conv_lhs => rw [← List.take_append_drop i s]
  rw [List.drop_append_of_le_length]
  rw [List.length_take]; omega

theorem getD_eq_of_drop (s : GoString) (j : Nat) (c : Byte) (rest : GoString)
    (h : s.drop j = c :: rest) : s.getD j 0 = c := by
  have hj : j < s.length := by
    by_contra hge
    rw [List.drop_of_length_le (by omega)] at h
    exact absurd h (by simp)
  have := List.getElem_cons_drop s j hj
  rw [h] at this
  injection this with h1 _
  rw [List.getD_eq_getElem?_getD, List.getElem?_eq_getElem hj]
  simp [h1]

theorem TrimLeftFunc_spec (f : Nat → Bool) (fuel : Nat) (s : GoString)
    (hfuel : s.length ≤ fuel) :
    (TrimLeftFunc f fuel s = [] ∨ f (decodeRune (TrimLeftFunc f fuel s)).1 = false) ∧
      ∃ k, TrimLeftFunc f fuel s = s.drop k := by
  induction fuel generalizing s with
  | zero =>
    have : s = [] := List.length_eq_zero.mp (by omega)
    simp [TrimLeftFunc, this]
  | succ fuel ih =>
    unfold TrimLeftFunc
    by_cases hs : s = []
    · rw [if_pos hs]; exact ⟨Or.inl rfl, 0, by simp [hs]⟩
    · rw [if_neg hs]
      by_cases hf : f (decodeRune s).1 = false
      · rw [if_pos hf]; exact ⟨Or.inr hf, 0, by simp⟩
      · rw [if_neg hf]
        have hpos := decodeRune_snd_pos s hs
        have hlen : 0 < s.length := List.length_pos.mpr hs
        obtain ⟨h1, k, hk⟩ := ih (s.drop (decodeRune s).2) (by rw [List.length_drop]; omega)
        exact ⟨h1, (decodeRune s).2 + k, by rw [hk, List.drop_drop]⟩

/-- What `lastIndexFunc` finds, when the bytes from `i` on are whitespace
characters already passed: nothing, or the start `j` of a character that is
not whitespace, is the last one of `s[0:k]`, and is as long when read forward
from `j` in the whole string. -/
theorem lastIndexFunc_spec (s : GoString) (fuel i : Nat) (hi : i ≤ s.length)
    (hfuel : i ≤ fuel)
    (hH : s.drop i = [] ∨ ∃ c rest, s.drop i = c :: rest ∧ RuneStart c = true) :
    lastIndexFunc IsSpace s fuel i = -1 ∨
    ∃ j k : Nat, lastIndexFunc IsSpace s fuel i = (j : Int) ∧ j < k ∧ k ≤ s.length ∧
      IsSpace (decodeLastRune (s.take k)).1 = false ∧
      (if (s.getD j 0).val ≥ 0x80 then j + (decodeRune (s.drop j)).2 else j + 1) = k := by
  induction fuel generalizing i with
  | zero => left; rfl
  | succ fuel ih =>
    unfold lastIndexFunc
    by_cases h0 : i = 0
    · rw [if_pos h0]; left; rfl
    · rw [if_neg h0]
      have hne : s.take i ≠ [] := by
        intro e
        have hl := List.length_take i s
        rw [e] at hl
        simp only [List.length_nil] at hl
        omega
      have hdl := List.dropLast_append_getLast hne
      generalize (s.take i).dropLast = t at hdl
      generalize (s.take i).getLast hne = c at hdl
      have hlen : (s.take i).length = i := by rw [List.length_take]; omega
      -- the shape of the last character of s[0:i]
      have hshape : ∃ z : Nat, 1 ≤ z ∧ z ≤ i ∧ (decodeLastRune (s.take i)).2 = z ∧
          (IsSpace (decodeLastRune (s.take i)).1 = true →
            ∃ c0 rest0, s.drop (i - z) = c0 :: rest0 ∧ RuneStart c0 = true) ∧
          (if (s.getD (i - z) 0).val ≥ 0x80 then (i - z) + (decodeRune (s.drop (i - z))).2
            else (i - z) + 1) = i := by
        rcases decodeLastRune_spec t c with ⟨he, hc⟩ | ⟨z, hz1, hz2, he, hz⟩
        · rw [hdl] at he
          refine ⟨1, le_refl _, by omega, by rw [he], ?_, ?_⟩
          · intro hsp; rw [he, IsSpace_RuneError] at hsp; simp at hsp
          · have hd : s.drop (i - 1) = c :: s.drop i := by
              rw [drop_eq_drop_take_append s (i - 1) i (by omega) hi, ← hdl]
              have : (t ++ [c]).drop (i - 1) = [c] := by
                have ht : t.length = i - 1 := by
                  have := congrArg List.length hdl
                  rw [hlen, List.length_append, List.length_singleton] at this
                  omega
                rw [← ht]; simp
              rw [this]; rfl
            rw [getD_eq_of_drop s (i - 1) c _ hd, if_pos (by omega), hd,
              decodeRune_snd_of_RuneStart c _ hH]
            omega
        · rw [hdl, hlen] at he hz hz2
          have hu : s.drop (i - z) = (s.take i).drop (i - z) ++ s.drop i :=
            drop_eq_drop_take_append s (i - z) i (by omega) hi
          have hulen : ((s.take i).drop (i - z)).length = z := by
            rw [List.length_drop, hlen]; omega
          rcases hcons : (s.take i).drop (i - z) with _ | ⟨c0, rest0⟩
          · rw [hcons] at hulen; simp at hulen; omega
          · refine ⟨z, hz1, hz2, by rw [he, hz], ?_, ?_⟩
            · intro hsp
              rw [he] at hsp
              obtain ⟨c1, rest1, h1, h2⟩ := RuneStart_of_IsSpace _ hsp
              rw [hcons] at h1
              injection h1 with h1 _
              exact ⟨c0, rest0 ++ s.drop i, by rw [hu, hcons]; rfl, by rw [h1]; exact h2⟩
            · have hd : s.drop (i - z) = c0 :: (rest0 ++ s.drop i) := by rw [hu, hcons]; rfl
              rw [getD_eq_of_drop s (i - z) c0 _ hd]
              by_cases hc0 : c0.val ≥ 0x80
              · rw [if_pos hc0]
                by_cases hz2' : 2 ≤ z
                · rw [hu, decodeRune_append _ _ (by rw [hulen]; exact hz2')
                    (by rw [hz, hulen]), hz]
                  omega
                · have hz1' : z = 1 := by omega
                  have hr0 : rest0 = [] := by
                    rw [hcons] at hulen
                    simp at hulen
                    apply List.length_eq_zero.mp; omega
                  rw [hd, hr0, List.nil_append, decodeRune_snd_of_RuneStart c0 _ hH]
                  omega
              · rw [if_neg hc0]
                rw [hcons, decodeRune_ascii c0 rest0 (by omega)] at hz
                simp only at hz
                omega
      obtain ⟨z, hz1, hz2, hzeq, hstart, hfwd⟩ := hshape
      simp only []
      rw [hzeq]
      by_cases hsp : IsSpace (decodeLastRune (s.take i)).1 = false
      · rw [if_pos hsp]
        right
        exact ⟨i - z, i, rfl, by omega, hi, hsp, hfwd⟩
      · rw [if_neg hsp]
        have hsp' : IsSpace (decodeLastRune (s.take i)).1 = true := by
          simpa using hsp
        exact ih (i - z) (by omega) (by omega) (Or.inr (hstart hsp'))

/-- The result of `TrimRightFunc` with `unicode.IsSpace` is a prefix of the
string that does not end with a whitespace character. -/
theorem TrimRightFunc_spec (s : GoString) :
    (∃ k, TrimRightFunc IsSpace s = s.take k) ∧ ¬ trailingSpace (TrimRightFunc IsSpace s) := by
  unfold TrimRightFunc
  simp only []
  rcases lastIndexFunc_spec s s.length s.length (le_refl _) (le_refl _)
    (Or.inl (List.drop_length s)) with h | ⟨j, k, hj, hjk, hk, hsp, hfwd⟩
  · rw [h]
    rw [if_neg (by omega)]
    refine ⟨⟨0, by simp⟩, ?_⟩
    intro ⟨hne, _⟩
    simp at hne
  · rw [hj]
    have hjn : ((j : Int)).toNat = j := by omega
    rw [hjn]
    by_cases hc : (s.getD j 0).val ≥ 0x80
    · rw [if_pos ⟨by omega, hc⟩]
      rw [if_pos hc] at hfwd
      have : ((j : Int) + ((decodeRune (s.drop j)).2 : Int)).toNat = k := by omega
      rw [this]
      refine ⟨⟨k, rfl⟩, ?_⟩
      intro ⟨_, hsp'⟩
      rw [hsp] at hsp'; simp at hsp'
    · rw [if_neg (fun h => hc h.2)]
      rw [if_neg hc] at hfwd
      have : ((j : Int) + 1).toNat = k := by omega
      rw [this]
      refine ⟨⟨k, rfl⟩, ?_⟩
      intro ⟨_, hsp'⟩
      rw [hsp] at hsp'; simp at hsp'

theorem IsSpace_ascii (c : Byte) (hc : c.val < 0x80) : IsSpace c.val = asciiSpace c := by
  unfold IsSpace asciiSpace
  rw [if_pos (by omega)]
  have h1 : decide (c.val = 0x85) = false := by simp; omega
  have h2 : decide (c.val = 0xA0) = false := by simp; omega
  rw [h1, h2]
  simp

theorem not_leadingSpace_nil : ¬ leadingSpace [] := fun h => h.1 rfl

theorem not_trailingSpace_nil : ¬ trailingSpace [] := fun h => h.1 rfl

/-- A prefix of a string that does not start with whitespace does not start
with whitespace. -/
theorem not_leadingSpace_take (u : GoString) (k : Nat) (h : ¬ leadingSpace u) :
    ¬ leadingSpace (u.take k) := by
  intro ⟨hne, hsp⟩
  rcases decodeRune_take u k with he | he
  · rw [he] at hsp
    apply h
    refine ⟨?_, hsp⟩
    intro e; rw [e] at hne; simp at hne
  · rw [he, IsSpace_RuneError] at hsp
    simp at hsp

theorem not_leadingSpace_of_ascii (c : Byte) (rest : GoString) (hc : c.val < 0x80)
    (hns : asciiSpace c = false) : ¬ leadingSpace (c :: rest) := by
  intro ⟨_, hsp⟩
  rw [decodeRune_ascii c rest hc] at hsp
  simp only at hsp
  rw [IsSpace_ascii c hc, hns] at hsp
  simp at hsp

theorem TrimFunc_spec (s : GoString) :
    ¬ leadingSpace (TrimFunc IsSpace s) ∧ ¬ trailingSpace (TrimFunc IsSpace s) ∧
      (TrimFunc IsSpace s).Sublist s := by
  unfold TrimFunc
  obtain ⟨hl, k, hk⟩ := TrimLeftFunc_spec IsSpace s.length s (le_refl _)
  obtain ⟨⟨k', hk'⟩, ht⟩ := TrimRightFunc_spec (TrimLeftFunc IsSpace s.length s)
  refine ⟨?_, ht, ?_⟩
  · rw [hk']
    apply not_leadingSpace_take
    intro ⟨hne, hsp⟩
    rcases hl with hl | hl
    · exact hne hl
    · rw [hl] at hsp; simp at hsp
  · rw [hk', hk]
    exact (List.take_sublist _ _).trans (List.drop_sublist _ _)

theorem trimSpaceStop_spec (c : Byte) (rest : GoString) (hc : c.val < 0x80)
    (hns : asciiSpace c = false) (stop : Nat) (hstop : stop ≤ (c :: rest).length) :
    ¬ leadingSpace (trimSpaceStop (c :: rest) stop) ∧
      ¬ trailingSpace (trimSpaceStop (c :: rest) stop) ∧
      ∃ k, trimSpaceStop (c :: rest) stop = (c :: rest).take k := by
  induction stop with
  | zero =>
    exact ⟨not_leadingSpace_nil, not_trailingSpace_nil, 0, rfl⟩
  | succ stop ih =>
    unfold trimSpaceStop
    have hlead : ∀ k, ¬ leadingSpace ((c :: rest).take k) := fun k =>
      not_leadingSpace_take _ k (not_leadingSpace_of_ascii c rest hc hns)
    split
    · obtain ⟨⟨k, hk⟩, ht⟩ := TrimRightFunc_spec ((c :: rest).take (stop + 1))
      rw [hk, List.take_take]
      rw [hk, List.take_take] at ht
      exact ⟨hlead _, ht, _, rfl⟩
    · next hge =>
      split
      · exact ih (by omega)
      · next hsp =>
        refine ⟨hlead _, ?_, _, rfl⟩
        have hlt : stop < (c :: rest).length := by omega
        have htake : (c :: rest).take (stop + 1)
            = (c :: rest).take stop ++ [(c :: rest).getD stop 0] := by
          rw [List.take_succ, List.getD_eq_getElem?_getD, List.getElem?_eq_getElem hlt]
          simp
        intro ⟨_, htr⟩
        rw [htake, decodeLastRune_ascii _ _ (by omega)] at htr
        simp only at htr
        rw [IsSpace_ascii _ (by omega)] at htr
        rw [htr] at hsp
        exact hsp rfl

/-- The result of `strings.TrimSpace` is a part of the string that neither
starts nor ends with a whitespace character. -/
theorem TrimSpace_spec (s : GoString) :
    ¬ leadingSpace (TrimSpace s) ∧ ¬ trailingSpace (TrimSpace s) ∧ (TrimSpace s).Sublist s := by
  unfold TrimSpace
  induction s with
  | nil => exact ⟨not_leadingSpace_nil, not_trailingSpace_nil, List.Sublist.refl _⟩
  | cons c rest ih =>
    unfold trimSpaceStart
    split
    · exact TrimFunc_spec (c :: rest)
    · next hge =>
      split
      · obtain ⟨h1, h2, h3⟩ := ih
        exact ⟨h1, h2, h3.trans (List.sublist_cons_self c rest)⟩
      · next hsp =>
        obtain ⟨h1, h2, k, hk⟩ := trimSpaceStop_spec c rest (by omega) (by simpa using hsp)
          (c :: rest).length (le_refl _)
        exact ⟨h1, h2, by rw [hk]; exact List.take_sublist _ _⟩

theorem explodeAux_fuel (f1 f2 : Nat) (s : GoString) (h1 : s.length ≤ f1) (h2 : s.length ≤ f2) :
    explodeAux f1 s = explodeAux f2 s := by
  induction f1 generalizing f2 s with
  | zero =>
    have hs : s = [] := List.length_eq_zero.mp (by omega)
    subst hs
    cases f2 <;> simp [explodeAux]
  | succ f1 ih =>
    by_cases hs : s = []
    · subst hs
      cases f2 <;> simp [explodeAux]
    · have hlen : 0 < s.length := List.length_pos.mpr hs
      obtain ⟨f2', rfl⟩ : ∃ f2', f2 = f2' + 1 := ⟨f2 - 1, by omega⟩
      unfold explodeAux
      rw [if_neg hs, if_neg hs]
      have hpos := decodeRuneSize_pos s hs
      rw [ih f2' (s.drop (decodeRuneSize s)) (by rw [List.length_drop]; omega)
        (by rw [List.length_drop]; omega)]

theorem explode_cons_eq (s : GoString) (hs : s ≠ []) :
    explode s = s.take (decodeRuneSize s) :: explode (s.drop (decodeRuneSize s)) := by
  have hlen : 0 < s.length := List.length_pos.mpr hs
  obtain ⟨n, hn⟩ : ∃ n, s.length = n + 1 := ⟨s.length - 1, by omega⟩
  have hpos := decodeRuneSize_pos s hs
  have key : explodeAux (n + 1) s
      = s.take (decodeRuneSize s) :: explodeAux n (s.drop (decodeRuneSize s)) := by
    simp only [explodeAux, if_neg hs]
  show explodeAux s.length s = _ :: explodeAux _ _
  rw [hn, key, explodeAux_fuel n (s.drop (decodeRuneSize s)).length _
    (by rw [List.length_drop]; omega) (le_refl _)]

theorem OnlySpace_cons (s : GoString) (hs : s ≠ []) (h : OnlySpace s) :
    IsSpace (decodeRune s).1 = true ∧ OnlySpace (s.drop (decodeRune s).2) := by
  unfold OnlySpace at h
  rw [explode_cons_eq s hs] at h
  constructor
  · have h1 := h _ (List.mem_cons_self _ _)
    rcases decodeRune_take s (decodeRuneSize s) with he | he
    · rw [← he]; exact h1
    · rw [he, IsSpace_RuneError] at h1; simp at h1
  · intro u hu
    rw [decodeRune_snd] at hu
    exact h u (List.mem_cons_of_mem _ hu)

theorem TrimLeftFunc_OnlySpace (fuel : Nat) (s : GoString) (h : OnlySpace s) :
    TrimLeftFunc IsSpace fuel s = [] := by
  induction fuel generalizing s with
  | zero => rfl
  | succ fuel ih =>
    unfold TrimLeftFunc
    by_cases hs : s = []
    · rw [if_pos hs]
    · rw [if_neg hs]
      obtain ⟨h1, h2⟩ := OnlySpace_cons s hs h
      rw [if_neg (by rw [h1]; simp)]
      exact ih _ h2

theorem TrimRightFunc_nil : TrimRightFunc IsSpace [] = [] := by decide

/-- A string of whitespace characters only is trimmed to the empty string. -/
theorem TrimSpace_OnlySpace (s : GoString) (h : OnlySpace s) : TrimSpace s = [] := by
  unfold TrimSpace
  induction s with
  | nil => rfl
  | cons c rest ih =>
    unfold trimSpaceStart
    split
    · unfold TrimFunc
      rw [TrimLeftFunc_OnlySpace _ _ h, TrimRightFunc_nil]
    · next hge =>
      have hc : c.val < 0x80 := by omega
      obtain ⟨h1, h2⟩ := OnlySpace_cons (c :: rest) (by simp) h
      rw [decodeRune_ascii c rest hc] at h1 h2
      simp only [List.drop_succ_cons, List.drop_zero] at h1 h2
      rw [IsSpace_ascii c hc] at h1
      rw [if_pos h1]
      exact ih h2

/-! ## ParseTagEditString -/

theorem trimExpressions_fst (l : List GoString) (c : Int) :
    (trimExpressions l c).1 = l.map TrimSpace := by
  induction l generalizing c with
  | nil => rfl
  | cons e rest ih =>
    simp only [trimExpressions, List.map_cons]
    rw [ih]

theorem filter_nonempty_cons (e : GoString) (rest : List GoString) :
    (e :: rest).filter (fun e => !e.isEmpty)
      = if len e > 0 then e :: rest.filter (fun e => !e.isEmpty)
        else rest.filter (fun e => !e.isEmpty) := by
  cases e with
  | nil => simp [len]
  | cons a t =>
    have : len (a :: t) > 0 := by simp only [len, List.length_cons]; omega
    rw [if_pos this]
    simp

theorem take_set_self (l : List Tag) (i : Nat) (x : Tag) : (l.set i x).take i = l.take i := by
  induction l generalizing i with
  | nil => simp
  | cons a t ih =>
    cases i with
    | zero => simp
    | succ i => simp [ih]

theorem trimExpressions_snd (l : List GoString) (c : Int) :
    (trimExpressions l c).2
      = c + (((l.map TrimSpace).filter (fun e => !e.isEmpty)).length : Int) := by
  induction l generalizing c with
  | nil => simp [trimExpressions]
  | cons e rest ih =>
    simp only [trimExpressions, List.map_cons]
    rw [ih]
    rw [filter_nonempty_cons]
    by_cases h : len (TrimSpace e) > 0
    · rw [if_pos h, if_pos h]
      simp only [List.length_cons]
      push_cast
      omega
    · rw [if_neg h, if_neg h]

theorem fillTags_spec (exprs : List GoString) (tags : List Tag) (i : Nat)
    (hlen : tags.length = i + (exprs.filter (fun e => !e.isEmpty)).length) :
    fillTags exprs tags (i : Int)
      = some (tags.take i ++ (exprs.filter (fun e => !e.isEmpty)).map Tag.mk) := by
  induction exprs generalizing tags i with
  | nil =>
    simp only [fillTags, List.filter_nil, List.map_nil, List.append_nil]
    simp only [List.filter_nil, List.length_nil, Nat.add_zero] at hlen
    rw [List.take_of_length_le (by omega)]
  | cons e rest ih =>
    unfold fillTags
    by_cases h : len e > 0
    · have hf : (e :: rest).filter (fun e => !e.isEmpty)
          = e :: rest.filter (fun e => !e.isEmpty) := by
        rw [filter_nonempty_cons, if_pos h]
      rw [hf] at hlen ⊢
      simp only [List.length_cons] at hlen
      rw [if_pos h, if_pos ⟨by omega, by omega⟩]
      have hi : ((i : Int)).toNat = i := by omega
      rw [hi]
      have := ih (tags.set i ⟨e⟩) (i + 1) (by rw [List.length_set]; omega)
      rw [show ((i : Int) + 1) = ((i + 1 : Nat) : Int) by push_cast; rfl, this]
      congr 1
      have ht : (tags.set i ⟨e⟩).take (i + 1) = tags.take i ++ [⟨e⟩] := by
        rw [List.take_succ, take_set_self]
        simp [List.getElem?_set, show i < tags.length by omega]
      rw [ht]
      simp
    · have hf : (e :: rest).filter (fun e => !e.isEmpty)
          = rest.filter (fun e => !e.isEmpty) := by
        rw [filter_nonempty_cons, if_neg h]
      rw [hf] at hlen ⊢
      rw [if_neg h]
      exact ih tags i hlen

/-- The tags `ParseTagEditString` returns are the trimmed pieces between the
separators `;` that are not empty, in order. -/
theorem ParseTagEditString_eq (s : GoString) :
    ParseTagEditString s
      = some ((((Split s [0x3B]).map TrimSpace).filter (fun e => !e.isEmpty)).map Tag.mk) := by
  unfold ParseTagEditString
  by_cases h : len s < 1
  · rw [if_pos h]
    have hs : s = [] := by
      apply List.length_eq_zero.mp
      simp only [len] at h; omega
    subst hs
    decide
  · rw [if_neg h]
    simp only []
    rw [trimExpressions_fst, trimExpressions_snd]
    generalize hE : ((Split s [0x3B]).map TrimSpace) = E
    have := fillTags_spec E
      (List.replicate (0 + ((E.filter (fun e => !e.isEmpty)).length : Int)).toNat (⟨[]⟩ : Tag)) 0
      (by rw [List.length_replicate]; omega)
    rw [show ((0 : Nat) : Int) = 0 from rfl] at this
    rw [this]
    simp

section
variable {W : Type} [LinearOrder W]


/-! ## A first character that does not fit behind a first byte that fits -/

theorem prefix_head_splitByte (c : Byte) (u x : GoString) (hu : c ∉ u) :
    u <+: (splitByte c (u ++ x)).headD [] := by
  induction u with
  | nil => exact List.nil_prefix
  | cons a u' ih =>
    have ha : ¬ a = c := fun e => hu (by simp [e])
    have hu' : c ∉ u' := fun e => hu (List.mem_cons_of_mem _ e)
    have := ih hu'
    show (a :: u') <+: (splitByte c (a :: (u' ++ x))).headD []
    unfold splitByte
    rw [if_neg ha]
    split
    · next h0 => exact absurd h0 (splitByte_ne_nil c _)
    · next p ps h0 =>
      rw [h0] at this
      simp only [List.headD_cons] at this ⊢
      exact (List.prefix_cons_inj a).mpr this

/-- A first character of two or more bytes lies inside the first word. -/
theorem firstChar_le_firstWord (line : GoString) (h : 2 ≤ decodeRuneSize line) :
    firstChar line <+: firstWord line := by
  rcases line with _ | ⟨s0, rest⟩
  · simp [decodeRuneSize] at h
  · rcases decodeRune_spec s0 rest with ⟨_, he⟩ | ⟨_, he⟩ | ⟨u, x, r, hu, hlen, hb, hcont, hall⟩
    · rw [← decodeRune_snd, he] at h; simp at h
    · rw [← decodeRune_snd, he] at h; simp at h
    · have hz : decodeRuneSize (s0 :: rest) = u.length := by
        rw [← decodeRune_snd, hu, hall x]
      have hfc : firstChar (s0 :: rest) = u := by
        unfold firstChar
        rw [hz, hu, List.take_left']
        rfl
      have hno : (32 : Byte) ∉ u := by
        rcases u with _ | ⟨u0, utail⟩
        · simp at hlen
        · simp only [List.cons_append] at hu
          injection hu with h0 _
          intro hmem
          rcases List.mem_cons.mp hmem with e | e
          · rw [h0, ← e] at hb
            exact absurd hb (by decide)
          · have := hcont 32 (by simpa using e)
            simp only [isCont, Bool.and_eq_true, decide_eq_true_eq] at this
            exact absurd this.1 (by decide)
      rw [hfc]
      unfold firstWord
      rw [Split_space, hu]
      exact prefix_head_splitByte 32 u x hno

/-- The defect behind the failures of termination: under a monotonic measure,
a line that does not fit, whose first byte fits and whose first character does
not, is handed over whole to the recursive call, and `wrapLine` never
returns. -/
theorem wrapLine_timeout_of_first_char (measure : GoString → W) (maxWidth : W)
    (line : GoString) (hmono : Monotonic measure) (h1 : ¬ len line < 2)
    (h2 : ¬ measure line ≤ maxWidth) (h3 : ¬ measure (line.take 1) > maxWidth)
    (hchar : maxWidth < measure (firstChar line)) (fuel : Nat) :
    wrapLine measure maxWidth fuel line = .timeout := by
  have hline := ne_nil_of_two_le_len line h1
  have hz : 2 ≤ decodeRuneSize line := by
    by_contra hlt
    have hpos := decodeRuneSize_pos line hline
    have : decodeRuneSize line = 1 := by omega
    unfold firstChar at hchar
    rw [this] at hchar
    exact h3 hchar
  have hword : ∀ k : Nat, 0 < k →
      ¬ measure (Join ((Split line space).take k) space) ≤ maxWidth := by
    intro k hk hfit
    have hpre := Join_take_mono (Split line space) space 1 k hk
    rw [← firstWord_eq] at hpre
    have := le_trans (hmono.le_of_prefix ((firstChar_le_firstWord line hz).trans hpre)) hfit
    exact absurd hchar (not_lt.mpr this)
  have hcharmode : ∀ k : Nat, 0 < k →
      ¬ measure (Join ((explode line).take k) []) ≤ maxWidth := by
    intro k hk hfit
    have hpre := Join_take_mono (explode line) [] 1 k hk
    rw [← firstChar_eq line hline] at hpre
    exact absurd hchar (not_lt.mpr (le_trans (hmono.le_of_prefix hpre) hfit))
  -- in character mode the search ends at prefix count 0
  have hemit : outerLoop measure maxWidth line (2 * line.length + 6) space = .emit [] line := by
    rw [outerLoop_restart measure maxWidth line (2 * line.length + 5) hline hword (by omega)]
    have e : 2 * line.length + 5 = (2 * line.length + 4) + 1 := by omega
    rw [e, outerLoop_succ, if_neg (by simp), Split_empty]
    have hn := Split_length_pos line [] hline (Or.inr rfl)
    rw [Split_empty] at hn
    have hle := explode_length_le line
    have ht := innerLoop_initial_terminates measure maxWidth (explode line) []
      (2 * line.length + 4) hn (by omega)
    obtain ⟨k, _, hcases⟩ := innerLoop_initial_cases measure maxWidth (explode line) []
      (2 * line.length + 4) hn ht
    rcases hcases with ⟨h0, hfit, _⟩ | ⟨_, hs, _⟩ | ⟨_, _, he⟩
    · exact absurd hfit (hcharmode k h0)
    · exact absurd rfl hs
    · rw [he, Join_explode]
  exact wrapLine_timeout_of_self measure maxWidth line h1 h2 h3 _ [] hemit fuel

/-- A non-empty line of fewer than two characters is its own first
character. -/
theorem firstChar_of_single (line : GoString) (hline : line ≠ [])
    (h : (explode line).length < 2) : firstChar line = line := by
  obtain ⟨rest, he⟩ := explode_cons line hline
  have hj := Join_explode line
  rw [he] at h hj
  have hr : rest = [] := by
    rcases rest with _ | ⟨r, rs⟩
    · rfl
    · simp only [List.length_cons] at h; omega
  rw [hr] at hj
  have e : Join [line.take (decodeRuneSize line)] [] = line.take (decodeRuneSize line) := by
    simp [Join]
  rw [e] at hj
  exact hj

end

section
variable {W : Type} [LinearOrder W]

/-! ## Lines of single-byte characters -/

/-- Every state in which the loop body is entered satisfies every property
the loop body preserves. -/
theorem searchStates_forall (measure : GoString → W) (maxWidth : W) (parts : List GoString)
    (sep : GoString) (I : SearchState → Prop)
    (hstep : ∀ st st', I st → switchStep measure maxWidth parts sep st = .next st' → I st')
    (fuel : Nat) (st : SearchState) (hI : I st) :
    ∀ b ∈ searchStates measure maxWidth parts sep fuel st, I b := by
  induction fuel generalizing st with
  | zero => intro b hb; simp [searchStates] at hb
  | succ fuel ih =>
    intro b hb
    rw [searchStates_succ] at hb
    rcases List.mem_cons.mp hb with hb | hb
    · subst hb; exact hI
    · split at hb
      · next st' hs => exact ih st' (hstep st st' hI hs) b hb
      · simp at hb

/-- In a state that satisfies the invariant and has `wrapIndex >= 1`, the
last case of the `switch` is not the one taken. -/
theorem SearchInv.not_lastCase {measure : GoString → W} {maxWidth : W}
    {parts : List GoString} {sep : GoString} {st : SearchState}
    (inv : SearchInv measure maxWidth parts sep st) (hpos : 1 ≤ st.wrapIndex) :
    ¬ lastCaseTaken measure maxWidth parts sep st := by
  intro ⟨_, hn2, hn3, _, hlt⟩
  have hnf : maxWidth < widthAt measure parts sep st.wrapIndex := by
    apply not_le.mp; intro hle; exact hn3 ⟨by omega, hle⟩
  have hs0 : st.wrapIndexStep ≤ 0 := by
    by_contra hs
    exact hn2 ⟨by omega, hnf⟩
  rcases inv.stable hs0 with h0 | hfit
  · omega
  · exact absurd hfit (not_lt.mpr hnf.le)

/-- When the first character of a line is a single byte, `line[:1]` is the
first part of the line split into characters. -/
theorem take_one_eq_first_part (line : GoString) (hline : line ≠ [])
    (hbytes : ∀ p ∈ explode line, p.length = 1) :
    line.take 1 = Join ((explode line).take 1) [] := by
  rw [← firstChar_eq line hline]
  obtain ⟨rest, he⟩ := explode_cons line hline
  have hl : (firstChar line).length = 1 := hbytes _ (by rw [he]; exact List.mem_cons_self _ _)
  have hpre := take_one_le_firstChar line hline
  apply hpre.eq_of_length
  rw [hl, List.length_take]
  have : 0 < line.length := List.length_pos.mpr hline
  omega

/-- A join without separator of one or more leading characters of a line is
not empty. -/
theorem Join_take_explode_ne_nil (line : GoString) (hline : line ≠ []) (k : Nat) (hk : 0 < k) :
    Join ((explode line).take k) [] ≠ [] := by
  have hfc := firstChar_ne_nil line hline
  have hpre := Join_take_mono (explode line) [] 1 k hk
  rw [← firstChar_eq line hline] at hpre
  intro e
  rw [e] at hpre
  exact hfc (List.prefix_nil.mp hpre)

end

/-! ## Trimming a string that has nothing to trim -/

theorem lastIndexFunc_of_not_space (s : GoString) (hs : s ≠ [])
    (h : IsSpace (decodeLastRune s).1 = false) :
    lastIndexFunc IsSpace s s.length s.length
      = ((s.length - (decodeLastRune s).2 : Nat) : Int) := by
  have key : ∀ fuel i : Nat, i = s.length → 0 < fuel →
      lastIndexFunc IsSpace s fuel i = ((s.length - (decodeLastRune s).2 : Nat) : Int) := by
    intro fuel i hi hfuel
    obtain ⟨f, rfl⟩ : ∃ f, fuel = f + 1 := ⟨fuel - 1, by omega⟩
    have hlen : 0 < s.length := List.length_pos.mpr hs
    unfold lastIndexFunc
    rw [if_neg (by omega)]
    simp only []
    rw [hi, List.take_length, if_pos h]
  exact key _ _ rfl (List.length_pos.mpr hs)

/-- `strings.TrimRightFunc` with `unicode.IsSpace` returns a string that
does not end with whitespace unchanged. -/
theorem TrimRightFunc_id (s : GoString) (h : ¬ trailingSpace s) :
    TrimRightFunc IsSpace s = s := by
  rcases List.eq_nil_or_concat s with hs | ⟨t, c, hs⟩
  · rw [hs]; exact TrimRightFunc_nil
  · have hne : s ≠ [] := by rw [hs]; simp
    have hsp : IsSpace (decodeLastRune s).1 = false := by
      cases hb : IsSpace (decodeLastRune s).1 with
      | false => rfl
      | true => exact absurd ⟨hne, hb⟩ h
    have hlen : s.length = t.length + 1 := by rw [hs]; simp
    unfold TrimRightFunc
    simp only []
    rw [lastIndexFunc_of_not_space s hne hsp]
    rw [List.concat_eq_append] at hs
    rcases decodeLastRune_spec t c with ⟨he, hc⟩ | ⟨z, hz1, hz2, he, hsz⟩
    · rw [← hs] at he
      have hj : s.length - (decodeLastRune s).2 = t.length := by rw [he, hlen]; simp
      rw [hj]
      have hget : s.getD t.length 0 = c := by rw [hs]; exact getD_append_last t c
      have hdrop : s.drop t.length = [c] := by rw [hs]; simp
      have hsz : (decodeRune [c]).2 = 1 := by
        have h1 := decodeRune_snd_pos [c] (by simp)
        have h2 := decodeRune_snd_le [c]
        simp only [List.length_singleton] at h2
        omega
      simp only [Int.toNat_ofNat, hget]
      rw [if_pos ⟨by omega, hc⟩, hdrop, hsz]
      apply List.take_of_length_le
      rw [hlen]
      omega
    · rw [← hs] at he hsz hz2
      have hj : (decodeLastRune s).2 = z := by rw [he, hsz]
      rw [hj]
      simp only [Int.toNat_ofNat]
      have hjlt : s.length - z < s.length := by omega
      split
      · rw [hsz]
        apply List.take_of_length_le
        omega
      · next hcond =>
        have hb : (s.getD (s.length - z) 0).val < 0x80 := by
          by_contra hge
          exact hcond ⟨by omega, by omega⟩
        obtain ⟨b, rest, hd⟩ : ∃ b rest, s.drop (s.length - z) = b :: rest := by
          cases hd : s.drop (s.length - z) with
          | nil =>
            have := List.length_drop (s.length - z) s
            rw [hd] at this
            simp only [List.length_nil] at this
            omega
          | cons b rest => exact ⟨b, rest, rfl⟩
        have hbe := getD_eq_of_drop s _ b rest hd
        rw [hbe] at hb
        rw [hd, decodeRune_ascii b rest hb] at hsz
        simp only at hsz
        apply List.take_of_length_le
        omega

/-- `strings.TrimSpace` returns a string that neither starts nor ends with
whitespace unchanged. -/
theorem TrimSpace_id (e : GoString) (hl : ¬ leadingSpace e) (ht : ¬ trailingSpace e) :
    TrimSpace e = e := by
  unfold TrimSpace
  rcases e with _ | ⟨c, rest⟩
  · rfl
  · have hnl : IsSpace (decodeRune (c :: rest)).1 = false := by
      cases hb : IsSpace (decodeRune (c :: rest)).1 with
      | false => rfl
      | true => exact absurd ⟨by simp, hb⟩ hl
    unfold trimSpaceStart
    split
    · unfold TrimFunc
      have : TrimLeftFunc IsSpace (c :: rest).length (c :: rest) = c :: rest := by
        simp only [List.length_cons]
        unfold TrimLeftFunc
        rw [if_neg (by simp), if_pos hnl]
      rw [this]
      exact TrimRightFunc_id _ ht
    · next hc =>
      have hc' : c.val < 0x80 := by omega
      split
      · next hsp =>
        rw [decodeRune_ascii c rest hc'] at hnl
        simp only at hnl
        rw [IsSpace_ascii c hc', hsp] at hnl
        exact absurd hnl (by simp)
      · obtain ⟨t, d, hs⟩ : ∃ t d, c :: rest = t ++ [d] := by
          rcases List.eq_nil_or_concat (c :: rest) with h | ⟨t, d, h⟩
          · exact absurd h (by simp)
          · exact ⟨t, d, by rw [h, List.concat_eq_append]⟩
        have hlen : (c :: rest).length = t.length + 1 := by rw [hs]; simp
        rw [hlen]
        unfold trimSpaceStop
        have hget : (c :: rest).getD t.length 0 = d := by rw [hs]; exact getD_append_last t d
        have htake : (c :: rest).take (t.length + 1) = c :: rest :=
          List.take_of_length_le (by omega)
        rw [hget, htake]
        split
        · exact TrimRightFunc_id _ ht
        · next hd =>
          have hd' : d.val < 0x80 := by omega
          split
          · next hsp =>
            exfalso
            apply ht
            refine ⟨by simp, ?_⟩
            rw [hs, decodeLastRune_ascii t d hd']
            simp only
            rw [IsSpace_ascii d hd', hsp]
          · rfl

theorem TrimSpace_space_cons (e : GoString) : TrimSpace (0x20 :: e) = TrimSpace e := by
  unfold TrimSpace
  conv_lhs => unfold trimSpaceStart
  rw [if_neg (by decide), if_pos (by decide)]

/-! ## The tag edit string -/

theorem splitByte_append_sep (c : Byte) (e rest : GoString) (h : c ∉ e) :
    splitByte c (e ++ c :: rest) = e :: splitByte c rest := by
  induction e with
  | nil =>
    show splitByte c (c :: rest) = _
    conv_lhs => unfold splitByte
    rw [if_pos rfl]
  | cons b e' ih =>
    have hb : ¬ b = c := fun e => h (by simp [e])
    have he' : c ∉ e' := fun e => h (List.mem_cons_of_mem _ e)
    show splitByte c (b :: (e' ++ c :: rest)) = _
    conv_lhs => unfold splitByte
    rw [if_neg hb, ih he']

theorem foldl_compose (tags : List Tag) (buffer : GoString) :
    tags.foldl (fun buffer tag => buffer ++ (tag.Expression ++ [0x3B, 0x20])) buffer
      = buffer ++ ComposeTagEditString tags := by
  induction tags generalizing buffer with
  | nil => simp [ComposeTagEditString]
  | cons t ts ih =>
    unfold ComposeTagEditString
    simp only [List.foldl_cons, List.nil_append]
    rw [ih, ih (t.Expression ++ [0x3B, 0x20]), List.append_assoc]

theorem ComposeTagEditString_cons (t : Tag) (ts : List Tag) :
    ComposeTagEditString (t :: ts)
      = t.Expression ++ 0x3B :: 0x20 :: ComposeTagEditString ts := by
  conv_lhs => unfold ComposeTagEditString
  simp only [List.foldl_cons, List.nil_append]
  rw [foldl_compose]
  simp

/-- The pieces of the rest of a composed string, after the space that
follows a separator, are trimmed to the expressions of the remaining tags. -/
theorem trim_split_compose (tags : List Tag)
    (h : ∀ t ∈ tags, t.Expression ≠ [] ∧ ¬ leadingSpace t.Expression ∧
      ¬ trailingSpace t.Expression ∧ (0x3B : Byte) ∉ t.Expression) :
    ((splitByte 0x3B (0x20 :: ComposeTagEditString tags)).map TrimSpace).filter
        (fun e => !e.isEmpty)
      = tags.map Tag.Expression := by
  induction tags with
  | nil => decide
  | cons t ts ih =>
    obtain ⟨hne, hl, ht, hsep⟩ := h t (List.mem_cons_self _ _)
    have hsep' : (0x3B : Byte) ∉ (0x20 : Byte) :: t.Expression := by
      intro hm
      rcases List.mem_cons.mp hm with e | e
      · exact absurd e (by decide)
      · exact hsep e
    have e1 : (0x20 : Byte) :: ComposeTagEditString (t :: ts)
        = ((0x20 : Byte) :: t.Expression) ++ 0x3B :: (0x20 :: ComposeTagEditString ts) := by
      rw [ComposeTagEditString_cons]; rfl
    rw [e1, splitByte_append_sep _ _ _ hsep', List.map_cons, TrimSpace_space_cons,
      TrimSpace_id _ hl ht, filter_nonempty_cons, if_pos, ih (fun t' ht' => h t' (List.mem_cons_of_mem _ ht'))]
    · rfl
    · have : 0 < t.Expression.length := List.length_pos.mpr hne
      simp only [len]; omega

theorem map_mk_expression (ts : List Tag) : ts.map (Tag.mk ∘ Tag.Expression) = ts := by
  induction ts with
  | nil => rfl
  | cons a rest ih => rw [List.map_cons, ih]; rfl

/-- Parsing a composed string gives the tags back when every expression is
nonempty, neither starts nor ends with whitespace and contains no `;`. -/
theorem parse_compose (tags : List Tag)
    (h : ∀ t ∈ tags, t.Expression ≠ [] ∧ ¬ leadingSpace t.Expression ∧
      ¬ trailingSpace t.Expression ∧ (0x3B : Byte) ∉ t.Expression) :
    ParseTagEditString (ComposeTagEditString tags) = some tags := by
  rw [ParseTagEditString_eq]
  cases tags with
  | nil => decide
  | cons t ts =>
    obtain ⟨hne, hl, ht, hsep⟩ := h t (List.mem_cons_self _ _)
    have hsplit : Split (ComposeTagEditString (t :: ts)) [0x3B]
        = t.Expression :: splitByte 0x3B (0x20 :: ComposeTagEditString ts) := by
      rw [ComposeTagEditString_cons]
      exact splitByte_append_sep _ _ _ hsep
    rw [hsplit, List.map_cons, TrimSpace_id _ hl ht, filter_nonempty_cons, if_pos,
      trim_split_compose ts (fun t' ht' => h t' (List.mem_cons_of_mem _ ht'))]
    · simp only [List.map_cons, List.map_map, map_mk_expression]
    · have : 0 < t.Expression.length := List.length_pos.mpr hne
      simp only [len]; omega

/-- Every tag `ParseTagEditString` returns has a nonempty expression that
neither starts nor ends with whitespace and contains no `;`. -/
theorem ParseTagEditString_expressions (s : GoString) (tags : List Tag)
    (htags : ParseTagEditString s = some tags) :
    ∀ t ∈ tags, t.Expression ≠ [] ∧ ¬ leadingSpace t.Expression ∧
      ¬ trailingSpace t.Expression ∧ (0x3B : Byte) ∉ t.Expression := by
  intro t ht
  rw [ParseTagEditString_eq] at htags
  injection htags with htags
  rw [← htags] at ht
  obtain ⟨e, he, het⟩ := List.mem_map.mp ht
  obtain ⟨hmem, hne⟩ := List.mem_filter.mp he
  obtain ⟨p, hp, hpe⟩ := List.mem_map.mp hmem
  obtain ⟨h1, h2, h3⟩ := TrimSpace_spec p
  rw [← het]
  show e ≠ [] ∧ ¬ leadingSpace e ∧ ¬ trailingSpace e ∧ (0x3B : Byte) ∉ e
  rw [← hpe]
  refine ⟨?_, h1, h2, ?_⟩
  · intro hnil
    rw [hpe] at hnil
    rw [hnil] at hne
    simp at hne
  · intro hmem'
    exact not_mem_of_mem_splitByte 0x3B s p hp (h3.subset hmem')

section
variable {F C : Type}

/-! ## Board.ToggleFilterTag -/

theorem filterTagIndexLoop_none (toFind : Tag) (l : List Tag) (i : Int)
    (h : ∀ t ∈ l, t.Expression ≠ toFind.Expression) : filterTagIndexLoop toFind l i = -1 := by
  induction l generalizing i with
  | nil => rfl
  | cons a rest ih =>
    unfold filterTagIndexLoop
    rw [if_neg (h a (List.mem_cons_self _ _))]
    exact ih _ (fun t ht => h t (List.mem_cons_of_mem _ ht))

theorem filterTagIndexLoop_first (toFind x : Tag) (before rest : List Tag) (i : Int)
    (hx : x.Expression = toFind.Expression)
    (h : ∀ t ∈ before, t.Expression ≠ toFind.Expression) :
    filterTagIndexLoop toFind (before ++ x :: rest) i = i + before.length := by
  induction before generalizing i with
  | nil =>
    show filterTagIndexLoop toFind (x :: rest) i = _
    unfold filterTagIndexLoop
    rw [if_pos hx]
    simp
  | cons a before' ih =>
    show filterTagIndexLoop toFind (a :: (before' ++ x :: rest)) i = _
    unfold filterTagIndexLoop
    rw [if_neg (h a (List.mem_cons_self _ _)),
      ih _ (fun t ht => h t (List.mem_cons_of_mem _ ht))]
    simp only [List.length_cons, Nat.cast_add, Nat.cast_one]
    omega

/-- A list with a tag of the given expression splits at the first such tag. -/
theorem split_at_first_expression (e : GoString) (l : List Tag)
    (h : ∃ t ∈ l, t.Expression = e) :
    ∃ before x rest, l = before ++ x :: rest ∧ x.Expression = e ∧
      ∀ t ∈ before, t.Expression ≠ e := by
  induction l with
  | nil => obtain ⟨t, ht, _⟩ := h; simp at ht
  | cons a l' ih =>
    by_cases ha : a.Expression = e
    · exact ⟨[], a, l', rfl, ha, by simp⟩
    · obtain ⟨t, ht, hte⟩ := h
      have ht' : t ∈ l' := by
        rcases List.mem_cons.mp ht with e1 | e1
        · rw [e1] at hte; exact absurd hte ha
        · exact e1
      obtain ⟨before, x, rest, hl, hx, hb⟩ := ih ⟨t, ht', hte⟩
      refine ⟨a :: before, x, rest, by rw [hl]; rfl, hx, ?_⟩
      intro t' ht'
      rcases List.mem_cons.mp ht' with e1 | e1
      · rw [e1]; exact ha
      · exact hb t' e1

theorem setFilterTagsLoop_valid (filterTags : List Tag) (items : List ItemRef) (heap : Heap F)
    (h : ValidRefs heap items) :
    ∃ heap', setFilterTagsLoop filterTags items heap = some heap' ∧
      heap'.length = heap.length := by
  induction items generalizing heap with
  | nil => exact ⟨heap, rfl, rfl⟩
  | cons r rest ih =>
    obtain ⟨a, hr, ha⟩ := h r (List.mem_cons_self _ _)
    subst hr
    obtain ⟨item, hitem⟩ : ∃ item, heap.get? a = some item :=
      ⟨heap.get ⟨a, ha⟩, List.get?_eq_get ha⟩
    have hrest : ValidRefs (heap.set a (item.SetFilterTags filterTags)) rest := by
      intro r hr
      obtain ⟨b, hb1, hb2⟩ := h r (List.mem_cons_of_mem _ hr)
      exact ⟨b, hb1, by rw [List.length_set]; exact hb2⟩
    obtain ⟨heap', h1, h2⟩ := ih _ hrest
    refine ⟨heap', ?_, by rw [h2, List.length_set]⟩
    unfold setFilterTagsLoop
    rw [hitem]
    exact h1

theorem applyTagFilterLoop_valid (filterTags : List Tag) (stages : List Stage) (heap : Heap F)
    (h : ∀ stage ∈ stages, ValidRefs heap stage.Items) :
    ∃ heap', applyTagFilterLoop filterTags stages heap = some heap' ∧
      heap'.length = heap.length := by
  induction stages generalizing heap with
  | nil => exact ⟨heap, rfl, rfl⟩
  | cons stage rest ih =>
    obtain ⟨heap1, h1, hl1⟩ := setFilterTagsLoop_valid filterTags stage.Items heap
      (h stage (List.mem_cons_self _ _))
    have hrest : ∀ stage' ∈ rest, ValidRefs heap1 stage'.Items := by
      intro stage' hs r hr
      obtain ⟨b, hb1, hb2⟩ := h stage' (List.mem_cons_of_mem _ hs) r hr
      exact ⟨b, hb1, by rw [hl1]; exact hb2⟩
    obtain ⟨heap', h2, hl2⟩ := ih heap1 hrest
    refine ⟨heap', ?_, by rw [hl2, hl1]⟩
    unfold applyTagFilterLoop Stage.SetFilterTags
    rw [h1]
    exact h2

/-- The filter list after `ToggleFilterTag`: the tag is appended when no tag
has its expression, else the first tag with its expression is removed. -/
theorem toggled_filter_tags (w : Board C) (tag : Tag) :
    ((∀ t ∈ w.FilterTags, t.Expression ≠ tag.Expression) →
      (if w.FilterTagIndex tag < 0 then w.FilterTags ++ [tag]
        else w.FilterTags.take (w.FilterTagIndex tag).toNat
          ++ w.FilterTags.drop (w.FilterTagIndex tag + 1).toNat)
        = w.FilterTags ++ [tag]) ∧
    (∀ before x rest, w.FilterTags = before ++ x :: rest →
      x.Expression = tag.Expression → (∀ t ∈ before, t.Expression ≠ tag.Expression) →
      (if w.FilterTagIndex tag < 0 then w.FilterTags ++ [tag]
        else w.FilterTags.take (w.FilterTagIndex tag).toNat
          ++ w.FilterTags.drop (w.FilterTagIndex tag + 1).toNat)
        = before ++ rest) := by
  constructor
  · intro h
    unfold Board.FilterTagIndex
    rw [filterTagIndexLoop_none tag _ 0 h, if_pos (by decide)]
  · intro before x rest hl hx hb
    unfold Board.FilterTagIndex
    rw [hl, filterTagIndexLoop_first tag x before rest 0 hx hb, if_neg (by omega)]
    have e1 : ((0 : Int) + before.length).toNat = before.length := by omega
    have e2 : ((0 : Int) + before.length + 1).toNat = before.length + 1 := by omega
    rw [e1, e2]
    have h1 : (before ++ x :: rest).take before.length = before := List.take_left' rfl
    have h2 : (before ++ x :: rest).drop (before.length + 1) = rest := by
      have : (before ++ x :: rest) = (before ++ [x]) ++ rest := by simp
      rw [this]
      exact List.drop_left' (by simp)
    rw [h1, h2]

end

section
variable {F : Type}

/-! ## Stage.InsertItem -/

theorem itemIndexLoop_none (toFind : ItemRef) (items : List ItemRef) (i : Int)
    (h : toFind ∉ items) : itemIndexLoop toFind items i = -1 := by
  induction items generalizing i with
  | nil => rfl
  | cons a rest ih =>
    unfold itemIndexLoop
    rw [if_neg (fun e => h (by rw [e]; exact List.mem_cons_self _ _))]
    exact ih _ (fun hm => h (List.mem_cons_of_mem _ hm))

theorem itemIndexLoop_first (toFind : ItemRef) (before rest : List ItemRef) (i : Int)
    (h : toFind ∉ before) :
    itemIndexLoop toFind (before ++ toFind :: rest) i = i + before.length := by
  induction before generalizing i with
  | nil =>
    show itemIndexLoop toFind (toFind :: rest) i = _
    unfold itemIndexLoop
    rw [if_pos rfl]
    simp
  | cons a before' ih =>
    show itemIndexLoop toFind (a :: (before' ++ toFind :: rest)) i = _
    unfold itemIndexLoop
    rw [if_neg (fun e => h (by rw [e]; exact List.mem_cons_self _ _)),
      ih _ (fun hm => h (List.mem_cons_of_mem _ hm))]
    simp only [List.length_cons, Nat.cast_add, Nat.cast_one]
    omega

/-- A list that contains `x` splits at the first `x`. -/
theorem split_at_first (x : ItemRef) (l : List ItemRef) (h : x ∈ l) :
    ∃ before rest, l = before ++ x :: rest ∧ x ∉ before := by
  induction l with
  | nil => simp at h
  | cons a l' ih =>
    by_cases ha : a = x
    · exact ⟨[], l', by rw [ha]; rfl, by simp⟩
    · have hx : x ∈ l' := by
        rcases List.mem_cons.mp h with e | e
        · exact absurd e.symm ha
        · exact e
      obtain ⟨before, rest, hl, hb⟩ := ih hx
      refine ⟨a :: before, rest, by rw [hl]; rfl, ?_⟩
      intro hm
      rcases List.mem_cons.mp hm with e | e
      · exact ha e.symm
      · exact hb e

theorem set_at_length {α : Type} (a b : List α) (z x : α) :
    (a ++ ([z] ++ b)).set a.length x = a ++ x :: b := by
  induction a with
  | nil => rfl
  | cons c a' ih =>
    show (c :: (a' ++ ([z] ++ b))).set (a'.length + 1) x = _
    rw [List.set_cons_succ, ih]
    rfl

/-- The three statements of `InsertItem` that move the items: after
`append`, `copy` and the assignment at index `i`, the slice is the old one
with the new element put in at index `i`. -/
theorem insert_by_copy {α : Type} (l : List α) (i : Nat) (hi : i ≤ l.length) (x y : α) :
    ((l ++ [y]).take (i + 1) ++ copySlice ((l ++ [y]).drop (i + 1)) ((l ++ [y]).drop i)).set i x
      = l.take i ++ x :: l.drop i := by
  have hcopy : copySlice ((l ++ [y]).drop (i + 1)) ((l ++ [y]).drop i) = l.drop i := by
    unfold copySlice
    have hsrc : (l ++ [y]).drop i = l.drop i ++ [y] := List.drop_append_of_le_length hi
    have hd : ((l ++ [y]).drop (i + 1)).length = l.length - i := by
      rw [List.length_drop, List.length_append, List.length_singleton]; omega
    have hs : ((l ++ [y]).drop i).length = l.length - i + 1 := by
      rw [List.length_drop, List.length_append, List.length_singleton]; omega
    rw [hd, hs, hsrc]
    have h1 : (l.drop i ++ [y]).take (l.length - i) = l.drop i :=
      List.take_left' (by rw [List.length_drop])
    have h2 : ((l ++ [y]).drop (i + 1)).drop (l.length - i + 1) = [] :=
      List.drop_of_length_le (by rw [hd]; omega)
    rw [h1, h2, List.append_nil]
  obtain ⟨z, hz⟩ : ∃ z, (l ++ [y]).take (i + 1) = l.take i ++ [z] := by
    have hlt : i < (l ++ [y]).length := by
      rw [List.length_append, List.length_singleton]; omega
    refine ⟨(l ++ [y]).get ⟨i, hlt⟩, ?_⟩
    rw [List.take_succ, List.take_append_of_le_length hi, List.getElem?_eq_getElem hlt]
    rfl
  rw [hcopy, hz, List.append_assoc]
  have hlen : (l.take i).length = i := by rw [List.length_take]; omega
  have := set_at_length (l.take i) (l.drop i) z x
  rw [hlen] at this
  exact this

theorem refreshItemsLoop_valid (heap : Heap F) (items : List ItemRef)
    (h : ValidRefs heap items) : refreshItemsLoop heap items = some () := by
  induction items with
  | nil => rfl
  | cons r rest ih =>
    obtain ⟨a, hr, ha⟩ := h r (List.mem_cons_self _ _)
    subst hr
    unfold refreshItemsLoop
    rw [if_pos ha]
    exact ih (fun r hr => h r (List.mem_cons_of_mem _ hr))

/-- A stage with a `nil` item pointer makes `w.Refresh()` panic. -/
theorem refreshItemsLoop_nil (heap : Heap F) (items : List ItemRef) (h : none ∈ items) :
    refreshItemsLoop heap items = none := by
  induction items with
  | nil => simp at h
  | cons r rest ih =>
    rcases r with _ | a
    · rfl
    · have hr : none ∈ rest := by
        rcases List.mem_cons.mp h with e | e
        · exact absurd e (by simp)
        · exact e
      unfold refreshItemsLoop
      split
      · exact ih hr
      · rfl

/-- What `InsertItem` does when the index `ItemIndex` returns is `k` and every
item pointer of the stage is allocated: the new item is put in at index `k`
or `k + 1`, and `w.Refresh()` returns. -/
theorem InsertItem_at [Zero F] (heap : Heap F) (w : Stage) (after : Bool) (reference : ItemRef)
    (title : GoString) (tags : List Tag) (description : GoString) (style : ItemStyle)
    (k : Nat) (hk : w.ItemIndex reference = (k : Int)) (hlt : k < w.Items.length)
    (hvalid : ValidRefs heap w.Items) :
    w.InsertItem heap after reference title tags description style
      = some ((NewItem heap title tags description style).1,
          { w with Items :=
              w.Items.take (if after = true then k + 1 else k)
                ++ some heap.length :: w.Items.drop (if after = true then k + 1 else k) },
          true) := by
  unfold Stage.InsertItem
  simp only []
  rw [hk, if_neg (by omega)]
  generalize hj : (if after = true then k + 1 else k) = j
  have hji : (if after = true then (k : Int) + 1 else (k : Int)) = (j : Int) := by
    rw [← hj]; split <;> simp
  have hjle : j ≤ w.Items.length := by
    rw [← hj]; split <;> omega
  rw [hji]
  have hlen : (w.Items ++ [none]).length = w.Items.length + 1 := by simp
  rw [if_neg (by rw [hlen]; omega)]
  have e1 : ((j : Int) + 1).toNat = j + 1 := by omega
  have e2 : (j : Int).toNat = j := by omega
  rw [e1, e2]
  have hl2 : ((w.Items ++ [none]).take (j + 1)
      ++ copySlice ((w.Items ++ [none]).drop (j + 1)) ((w.Items ++ [none]).drop j)).length
        = w.Items.length + 1 := by
    have := congrArg List.length (insert_by_copy w.Items j hjle (none : ItemRef) none)
    rw [List.length_set] at this
    rw [this, List.length_append, List.length_cons, List.length_take, List.length_drop]
    omega
  unfold NewItem
  simp only []
  rw [if_neg (by rw [hl2]; omega), insert_by_copy w.Items j hjle]
  have hnew : ∀ item : Item F,
      ValidRefs (heap ++ [item]) (w.Items.take j ++ some heap.length :: w.Items.drop j) := by
    intro item r hr
    rcases List.mem_append.mp hr with h | h
    · obtain ⟨a, ha, hlt⟩ := hvalid r (List.mem_of_mem_take h)
      exact ⟨a, ha, by rw [List.length_append, List.length_singleton]; omega⟩
    · rcases List.mem_cons.mp h with h | h
      · exact ⟨heap.length, h, by rw [List.length_append, List.length_singleton]; omega⟩
      · obtain ⟨a, ha, hlt⟩ := hvalid r (List.mem_of_mem_drop h)
        exact ⟨a, ha, by rw [List.length_append, List.length_singleton]; omega⟩
  unfold Stage.Refresh
  simp only []
  rw [refreshItemsLoop_valid _ _ (hnew _)]

end

/-! ## Tag.DisplayString -/

theorem indexByteLoop_none (c : Byte) (s : GoString) (i : Int) (h : c ∉ s) :
    indexByteLoop c s i = -1 := by
  induction s generalizing i with
  | nil => rfl
  | cons b rest ih =>
    unfold indexByteLoop
    rw [if_neg (fun e => h (by rw [e]; exact List.mem_cons_self _ _))]
    exact ih _ (fun hm => h (List.mem_cons_of_mem _ hm))

theorem indexByteLoop_first (c : Byte) (before after : GoString) (i : Int)
    (h : c ∉ before) : indexByteLoop c (before ++ c :: after) i = i + before.length := by
  induction before generalizing i with
  | nil =>
    show indexByteLoop c (c :: after) i = _
    unfold indexByteLoop
    rw [if_pos rfl]
    simp
  | cons b before' ih =>
    show indexByteLoop c (b :: (before' ++ c :: after)) i = _
    unfold indexByteLoop
    rw [if_neg (fun e => h (by rw [e]; exact List.mem_cons_self _ _)),
      ih _ (fun hm => h (List.mem_cons_of_mem _ hm))]
    simp only [List.length_cons, Nat.cast_add, Nat.cast_one]
    omega

/-- A string that contains `c` splits at the first `c`. -/
theorem split_at_first_byte (c : Byte) (s : GoString) (h : c ∈ s) :
    ∃ before after, s = before ++ c :: after ∧ c ∉ before := by
  induction s with
  | nil => simp at h
  | cons b s' ih =>
    by_cases hb : b = c
    · exact ⟨[], s', by rw [hb]; rfl, by simp⟩
    · have hc : c ∈ s' := by
        rcases List.mem_cons.mp h with e | e
        · exact absurd e.symm hb
        · exact e
      obtain ⟨before, after, hl, hn⟩ := ih hc
      refine ⟨b :: before, after, by rw [hl]; rfl, ?_⟩
      intro hm
      rcases List.mem_cons.mp hm with e | e
      · exact hb e.symm
      · exact hn e

theorem Cut_found (c : Byte) (before after : GoString) (h : c ∉ before) :
    Cut (before ++ c :: after) c = (before, after, true) := by
  unfold Cut IndexByte
  simp only []
  rw [indexByteLoop_first c before after 0 h, if_pos (by omega)]
  have e1 : ((0 : Int) + before.length).toNat = before.length := by omega
  have e2 : ((0 : Int) + before.length + 1).toNat = before.length + 1 := by omega
  have h1 : (before ++ c :: after).take before.length = before := List.take_left' rfl
  have h2 : (before ++ c :: after).drop (before.length + 1) = after := by
    have : before ++ c :: after = (before ++ [c]) ++ after := by simp
    rw [this]
    exact List.drop_left' (by simp)
  rw [e1, e2, h1, h2]

theorem Cut_not_found (c : Byte) (s : GoString) (h : c ∉ s) : Cut s c = (s, [], false) := by
  unfold Cut IndexByte
  simp only []
  rw [indexByteLoop_none c s 0 h, if_neg (by decide)]

section
variable {W : Type} [LinearOrder W]

/-! ## Widths that are numbers -/

/-- When widths are linearly ordered and the empty string fits, every returned
segment but the last measures at most `maxWidth`, and the last one measures
more only if the byte `line[:1]` that the third check measures does. -/
theorem fit_bound_linear (measure : GoString → W) (maxWidth : W) (fuel : Nat)
    (line : GoString) (segs : List GoString) (hempty : measure [] ≤ maxWidth)
    (h : wrapLine measure maxWidth fuel line = .ok segs) :
    (∀ s ∈ segs.dropLast, measure s ≤ maxWidth) ∧
      (∀ s, segs.getLast? = some s → maxWidth < measure s → maxWidth < measure (s.take 1)) := by
  induction fuel generalizing line segs with
  | zero => simp [wrapLine] at h
  | succ fuel ih =>
    rcases wrapLine_ok_cases measure maxWidth _ line segs h with
      ⟨hs, hcase⟩ | ⟨fuel', c, r, segs', hf, h1, _, _, he, hr, hs⟩
    · subst hs
      refine ⟨by simp, ?_⟩
      intro s hs hover
      simp at hs
      subst hs
      rcases hcase with hlen | hfit | hfirst
      · have : line.take 1 = line := by
          apply List.take_of_length_le
          simp only [len] at hlen; omega
        rw [this]; exact hover
      · exact absurd hover (not_lt.mpr hfit)
      · exact hfirst
    · have hf' : fuel' = fuel := by omega
      subst hf'
      obtain ⟨hinit, hlast⟩ := ih r segs' hr
      have hne := wrapLine_ok_ne_nil measure maxWidth fuel' r segs' hr
      have hcfit : measure c ≤ maxWidth := by
        obtain ⟨sep', k, _, _, hc⟩ := outerLoop_emit measure maxWidth line
          (ne_nil_of_two_le_len line h1) fuel' space (Or.inl rfl) c r he
        rcases hc with ⟨_, hfit, _, _⟩ | ⟨_, _, hc, _⟩
        · exact hfit
        · rw [hc]; exact hempty
      subst hs
      constructor
      · intro s hs
        rw [List.dropLast_cons_of_ne_nil hne] at hs
        rcases List.mem_cons.mp hs with hs | hs
        · rw [hs]; exact hcfit
        · exact hinit s hs
      · intro s hs
        cases segs' with
        | nil => exact absurd rfl hne
        | cons t rest =>
          rw [List.getLast?_cons_cons] at hs
          exact hlast s hs

/-- When widths are linearly ordered, the binary search on at least two parts
keeps its bracket, always finds a `switch` case, never comes back to a state,
makes at most `2 * partCount + 3` passes and leaves the loop. -/
theorem convergence_linear (measure : GoString → W) (maxWidth : W)
    (parts : List GoString) (sep : GoString) (hn : 2 ≤ parts.length) :
    (∀ fuel : Nat, ∀ st ∈ searchStates measure maxWidth parts sep fuel (initialState parts.length),
      st.rangeLowerIndex ≤ st.wrapIndex ∧ st.wrapIndex ≤ st.rangeUpperIndex ∧
      st.rangeUpperIndex ≤ (parts.length : Int) - 1 ∧
      caseApplies measure maxWidth parts sep st) ∧
    (∀ fuel : Nat,
      (searchStates measure maxWidth parts sep fuel (initialState parts.length)).Pairwise
        (fun a b => a.rangeLowerIndex ≤ b.rangeLowerIndex ∧
          b.rangeUpperIndex ≤ a.rangeUpperIndex ∧ searchMeasure b < searchMeasure a)) ∧
    (∀ fuel : Nat,
      (searchStates measure maxWidth parts sep fuel (initialState parts.length)).length
        ≤ 2 * parts.length + 3) ∧
    (∀ fuel : Nat, 2 * parts.length + 3 ≤ fuel →
      (∃ c r, innerLoop measure maxWidth parts sep fuel (initialState parts.length) = .emit c r)
        ∨ innerLoop measure maxWidth parts sep fuel (initialState parts.length) = .retry) := by
  have inv := SearchInv.initial measure maxWidth parts sep (by omega : 1 ≤ parts.length)
  obtain ⟨hwu, hun⟩ := initialState_bracket parts.length hn
  refine ⟨?_, ?_, ?_, ?_⟩
  · intro fuel st hst
    obtain ⟨⟨hinv, h1, h2⟩, _⟩ := searchStates_spec measure maxWidth parts sep fuel _ inv hwu hun
      st hst
    exact ⟨hinv.lower_le, h1, h2, hinv.caseApplies⟩
  · intro fuel
    exact searchStates_pairwise measure maxWidth parts sep fuel _ inv hwu hun
  · intro fuel
    have h1 := searchStates_length measure maxWidth parts sep fuel _ inv
    have h2 := searchMeasure_initial parts.length (by omega)
    omega
  · intro fuel hfuel
    have ht := innerLoop_initial_terminates measure maxWidth parts sep fuel (by omega) hfuel
    obtain ⟨k, _, hcases⟩ := innerLoop_initial_cases measure maxWidth parts sep fuel (by omega) ht
    rcases hcases with ⟨_, _, he⟩ | ⟨_, _, he⟩ | ⟨_, _, he⟩
    · exact Or.inl ⟨_, _, he⟩
    · exact Or.inr he
    · exact Or.inl ⟨_, _, he⟩

/-- For a measure that is monotonic over all byte strings, on linearly ordered
widths: a result has exactly one segment if and only if the line has fewer
than 2 characters, or fits, or its first character does not fit. -/
theorem single_segment_linear (measure : GoString → W) (maxWidth : W) (fuel : Nat)
    (line : GoString) (segs : List GoString) (hmono : Monotonic measure)
    (h : wrapLine measure maxWidth fuel line = .ok segs) :
    (segs.length = 1 ↔
      ((explode line).length < 2 ∨ measure line ≤ maxWidth ∨
        maxWidth < measure (firstChar line))) ∧
    (segs.length ≠ 1 → 2 ≤ segs.length) := by
  have hbytes := wrapLine_single_iff measure maxWidth fuel line segs h
  have hne := wrapLine_ok_ne_nil measure maxWidth fuel line segs h
  have hpos : 0 < segs.length := List.length_pos.mpr hne
  refine ⟨⟨fun hl => ?_, fun hc => ?_⟩, fun hl => by omega⟩
  · rcases hbytes.mp hl with h1 | h2 | h3
    · have := explode_length_le line
      exact Or.inl (by unfold len at h1; omega)
    · exact Or.inr (Or.inl h2)
    · by_cases hline : line = []
      · exact Or.inl (by rw [hline]; decide)
      · exact Or.inr (Or.inr (lt_of_lt_of_le h3
          (hmono.le_of_prefix (take_one_le_firstChar line hline))))
  · by_contra hl
    have hnot : ¬ (len line < 2 ∨ measure line ≤ maxWidth ∨ measure (line.take 1) > maxWidth) :=
      fun hh => hl (hbytes.mpr hh)
    have h1 : ¬ len line < 2 := fun hh => hnot (Or.inl hh)
    have h2 : ¬ measure line ≤ maxWidth := fun hh => hnot (Or.inr (Or.inl hh))
    have h3 : ¬ measure (line.take 1) > maxWidth := fun hh => hnot (Or.inr (Or.inr hh))
    have hline := ne_nil_of_two_le_len line h1
    have hchar : maxWidth < measure (firstChar line) := by
      rcases hc with hc | hc | hc
      · rw [firstChar_of_single line hline hc]
        exact not_le.mp h2
      · exact absurd hc h2
      · exact hc
    have := wrapLine_timeout_of_first_char measure maxWidth line hmono h1 h2 h3 hchar fuel
    rw [this] at h
    exact absurd h (by simp)

/-- When widths are linearly ordered: for a line of single-byte characters
that has passed the checks, the character-mode search stays at
`wrapIndex >= 1`, never takes the last `switch` case, and the outer loop emits
a nonempty candidate. -/
theorem last_case_linear (measure : GoString → W) (maxWidth : W)
    (line : GoString) (hbytes : ∀ p ∈ explode line, p.length = 1)
    (h1 : ¬ len line < 2) (h3 : ¬ measure (line.take 1) > maxWidth) :
    line.take 1 = Join ((explode line).take 1) [] ∧
    (∀ fuel : Nat, ∀ st ∈ searchStates measure maxWidth (explode line) [] fuel
        (initialState (explode line).length),
      1 ≤ st.wrapIndex ∧ ¬ (st.wrapIndexStep ≤ 0 ∧ st.wrapIndex = 0) ∧
        ¬ lastCaseTaken measure maxWidth (explode line) [] st) ∧
    (∀ (fuel : Nat) (c r : GoString), outerLoop measure maxWidth line fuel [] = .emit c r →
      c ≠ [] ∧ 1 ≤ (explode c).length ∧
        ∃ k : Nat, 0 < k ∧ k ≤ (explode line).length ∧
          c = Join ((explode line).take k) [] ∧ r = Join ((explode line).drop k) []) ∧
    (∀ fuel : Nat, 2 * line.length + 4 ≤ fuel →
      ∃ c r : GoString, outerLoop measure maxWidth line fuel [] = .emit c r) := by
  have hline := ne_nil_of_two_le_len line h1
  have hfirst := take_one_eq_first_part line hline hbytes
  have hfit1 : measure (Join ((explode line).take 1) []) ≤ maxWidth := by
    rw [← hfirst]; exact not_lt.mp h3
  have hn : 1 ≤ (explode line).length := by
    have := Split_length_pos line [] hline (Or.inr rfl)
    rwa [Split_empty] at this
  refine ⟨hfirst, ?_, ?_, ?_⟩
  · intro fuel st hst
    have hinit : 1 ≤ (initialState (explode line).length).wrapIndex := by
      have e : Int.tdiv (((explode line).length : Int) + 1) 2
          = (((explode line).length : Int) + 1) / 2 := tdiv_two_of_nonneg _ (by omega)
      simp only [initialState, e]; omega
    obtain ⟨inv, hpos⟩ := searchStates_forall measure maxWidth (explode line) []
      (fun st => SearchInv measure maxWidth (explode line) [] st ∧ 1 ≤ st.wrapIndex)
      (fun _ _ hI hs => ⟨hI.1.next hs, index_pos_next hfit1 hI.1 hI.2 hs⟩)
      fuel _ ⟨SearchInv.initial measure maxWidth (explode line) [] hn, hinit⟩ st hst
    exact ⟨hpos, fun h => by omega, inv.not_lastCase hpos⟩
  · intro fuel
    induction fuel with
    | zero => intro c r h; simp [outerLoop] at h
    | succ fuel ih =>
      intro c r h
      rw [outerLoop_succ, if_neg (by simp), Split_empty] at h
      have hres : innerLoop measure maxWidth (explode line) [] fuel
          (initialState (explode line).length) ≠ .timeout := by
        intro e; rw [e] at h; simp at h
      obtain ⟨k, h0, hk, _, he⟩ := innerLoop_initial_pos measure maxWidth (explode line) []
        fuel hn hfit1 hres
      rw [he] at h
      injection h with hc hr
      have hcne : c ≠ [] := by
        rw [← hc]; exact Join_take_explode_ne_nil line hline k h0
      refine ⟨hcne, ?_, k, h0, hk, hc.symm, hr.symm⟩
      have := Split_length_pos c [] hcne (Or.inr rfl)
      rwa [Split_empty] at this
  · intro fuel hfuel
    have hchar : measure (firstChar line) ≤ maxWidth := by
      rw [firstChar_eq line hline]; exact hfit1
    obtain ⟨k, _, _, _, he⟩ := outerLoop_char_mode measure maxWidth line fuel hline hchar hfuel
    exact ⟨_, _, he⟩

end

section
variable {W : Type}

/-! ## From float32 widths that are numbers to the numbers -/

theorem F32.exists_num (a : F32 W) (h : a ≠ .NaN) : ∃ x : W, a = .num x := by
  cases a with
  | NaN => exact absurd rfl h
  | num x => exact ⟨x, rfl⟩

theorem F32.num_lt_num [LT W] (a b : W) : (F32.num a < F32.num b) ↔ a < b := Iff.rfl

theorem F32.num_le_num [LE W] (a b : W) : (F32.num a ≤ F32.num b) ↔ a ≤ b := Iff.rfl

theorem F32.ne_NaN_of_le_left [LE W] {a b : F32 W} (h : a ≤ b) : a ≠ .NaN := by
  intro e; rw [e] at h; exact h

theorem F32.ne_NaN_of_le_right [LE W] {a b : F32 W} (h : a ≤ b) : b ≠ .NaN := by
  intro e
  rw [e] at h
  cases a <;> exact h

/-- A measure that never returns NaN is a measure in numbers. -/
theorem F32.measure_eq_num (measure : GoString → F32 W) (hm : ∀ s, measure s ≠ .NaN) (d : W) :
    measure = fun s => F32.num (F32.toNum d (measure s)) := by
  funext s
  obtain ⟨x, hx⟩ := F32.exists_num (measure s) (hm s)
  rw [hx]
  rfl

theorem switchStep_num [LT W] [LE W] [DecidableRel (fun a b : W => a < b)]
    [DecidableRel (fun a b : W => a ≤ b)] (m : GoString → W) (x : W) (parts : List GoString) (sep : GoString)
    (st : SearchState) :
    switchStep (fun s => F32.num (m s)) (F32.num x) parts sep st = switchStep m x parts sep st :=
  rfl

theorem innerLoop_num [LT W] [LE W] [DecidableRel (fun a b : W => a < b)]
    [DecidableRel (fun a b : W => a ≤ b)] (m : GoString → W) (x : W) (parts : List GoString) (sep : GoString)
    (fuel : Nat) (st : SearchState) :
    innerLoop (fun s => F32.num (m s)) (F32.num x) parts sep fuel st
      = innerLoop m x parts sep fuel st := by
  induction fuel generalizing st with
  | zero => rfl
  | succ fuel ih =>
    unfold innerLoop
    rw [switchStep_num]
    split
    · exact ih _
    · rfl
    · rfl
    · rfl

theorem searchStates_num [LT W] [LE W] [DecidableRel (fun a b : W => a < b)]
    [DecidableRel (fun a b : W => a ≤ b)] (m : GoString → W) (x : W) (parts : List GoString) (sep : GoString)
    (fuel : Nat) (st : SearchState) :
    searchStates (fun s => F32.num (m s)) (F32.num x) parts sep fuel st
      = searchStates m x parts sep fuel st := by
  induction fuel generalizing st with
  | zero => rfl
  | succ fuel ih =>
    unfold searchStates
    rw [switchStep_num]
    split
    · rw [ih]
    · rfl

theorem outerLoop_num [LT W] [LE W] [DecidableRel (fun a b : W => a < b)]
    [DecidableRel (fun a b : W => a ≤ b)] (m : GoString → W) (x : W) (line : GoString) (fuel : Nat)
    (sep : GoString) :
    outerLoop (fun s => F32.num (m s)) (F32.num x) line fuel sep = outerLoop m x line fuel sep := by
  induction fuel generalizing sep with
  | zero => rfl
  | succ fuel ih =>
    unfold outerLoop
    simp only []
    rw [innerLoop_num, ih]

theorem wrapLine_num [LT W] [LE W] [DecidableRel (fun a b : W => a < b)]
    [DecidableRel (fun a b : W => a ≤ b)] (m : GoString → W) (x : W) (fuel : Nat) (line : GoString) :
    wrapLine (fun s => F32.num (m s)) (F32.num x) fuel line = wrapLine m x fuel line := by
  induction fuel generalizing line with
  | zero => rfl
  | succ fuel ih =>
    unfold wrapLine
    rw [outerLoop_num]
    simp only [ih]
    rfl

theorem caseApplies_num [LT W] [LE W] (m : GoString → W) (x : W) (parts : List GoString) (sep : GoString)
    (st : SearchState) :
    caseApplies (fun s => F32.num (m s)) (F32.num x) parts sep st
      ↔ caseApplies m x parts sep st := Iff.rfl

theorem lastCaseTaken_num [LT W] [LE W] (m : GoString → W) (x : W) (parts : List GoString) (sep : GoString)
    (st : SearchState) :
    lastCaseTaken (fun s => F32.num (m s)) (F32.num x) parts sep st
      ↔ lastCaseTaken m x parts sep st := Iff.rfl

theorem CharMonotonic_num [LE W] (m : GoString → W) :
    CharMonotonic (fun s => F32.num (m s)) ↔ CharMonotonic m := Iff.rfl

/-- A measure that is monotonic in added characters never returns NaN. -/
theorem CharMonotonic.ne_NaN [LE W] {measure : GoString → F32 W} (h : CharMonotonic measure)
    (s : GoString) : measure s ≠ .NaN := by
  have := h s (explode s).length (explode s).length (le_refl _)
  rw [List.take_length, Join_explode] at this
  exact F32.ne_NaN_of_le_left this

/-- A state from which the `switch` goes round with the state unchanged is
never left. -/
theorem innerLoop_spin [LT W] [LE W] [DecidableRel (fun a b : W => a < b)]
    [DecidableRel (fun a b : W => a ≤ b)] (measure : GoString → W) (maxWidth : W) (parts : List GoString)
    (sep : GoString) (st : SearchState)
    (h : switchStep measure maxWidth parts sep st = .next st) (fuel : Nat) :
    innerLoop measure maxWidth parts sep fuel st = .timeout := by
  induction fuel with
  | zero => rfl
  | succ fuel ih =>
    unfold innerLoop
    rw [h]
    exact ih

end

/-! ## Character boundaries -/

/-- A cut of a line in front of a byte that is not a continuation byte, or
at its end, is a cut between two characters: the part before it is the join
of the first `i` characters of the line. -/
theorem boundary_of_runeStart (n : Nat) (line p r : GoString) (hn : line.length ≤ n)
    (h : line = p ++ r) (hr : r = [] ∨ ∃ c rest, r = c :: rest ∧ isCont c = false) :
    ∃ i, p = Join ((explode line).take i) [] := by
  induction n generalizing line p r with
  | zero =>
    have hl : line = [] := List.length_eq_zero.mp (by omega)
    rw [hl] at h
    have hp : p = [] := (List.nil_eq_append_iff.mp h).1
    exact ⟨0, by rw [hp]; rfl⟩
  | succ n ih =>
    by_cases hp : p = []
    · exact ⟨0, by rw [hp]; rfl⟩
    · have hline : line ≠ [] := by
        intro e; rw [e] at h
        exact hp (List.nil_eq_append_iff.mp h).1
      have hz1 := decodeRuneSize_pos line hline
      have hplen : 0 < p.length := List.length_pos.mpr hp
      -- the first character lies inside `p`
      have hz : decodeRuneSize line ≤ p.length := by
        by_contra hgt
        rcases line with _ | ⟨s0, rest0⟩
        · exact hline rfl
        · rcases decodeRune_spec s0 rest0 with ⟨_, he⟩ | ⟨_, he⟩
              | ⟨u, x, rv, hu, hlen, _, hcont, hall⟩
          · rw [← decodeRune_snd, he] at hgt; simp only at hgt; omega
          · rw [← decodeRune_snd, he] at hgt; simp only at hgt; omega
          · have hzu : decodeRuneSize (s0 :: rest0) = u.length := by
              rw [← decodeRune_snd, hu, hall x]
            rw [hzu] at hgt
            have hpu : p.length < u.length := by omega
            rw [hu] at h
            -- `u = p ++ c :: u'`
            rcases List.append_eq_append_iff.mp h with ⟨a', ha, hb⟩ | ⟨c', hc, hd⟩
            · -- p = u ++ a'
              have := congrArg List.length ha
              rw [List.length_append] at this
              omega
            · -- u = p ++ c'
              have hc'ne : c' ≠ [] := by
                intro e; rw [e, List.append_nil] at hc
                rw [hc] at hpu; omega
              rcases hr with hr | ⟨c, rest, hr, hcc⟩
              · rw [hr] at hd
                exact hc'ne (List.nil_eq_append_iff.mp hd).1
              · rw [hr] at hd
                rcases c' with _ | ⟨c0, c'rest⟩
                · exact hc'ne rfl
                · simp only [List.cons_append] at hd
                  injection hd with hd0 _
                  have hmem : c ∈ u.tail := by
                    rw [hc]
                    rcases p with _ | ⟨p0, p'⟩
                    · exact absurd rfl hp
                    · simp only [List.cons_append, List.tail_cons]
                      rw [hd0]
                      simp
                  have := hcont c hmem
                  rw [hcc] at this
                  exact absurd this (by simp)
      -- cut the first character off
      generalize hzd : decodeRuneSize line = z at hz hz1
      have hpe : p = line.take z ++ p.drop z := by
        have h1 : line.take z = p.take z := by
          rw [h, List.take_append_of_le_length hz]
        rw [h1, List.take_append_drop]
      have hde : line.drop z = p.drop z ++ r := by
        rw [h, List.drop_append_of_le_length hz]
      have hshort : (line.drop z).length ≤ n := by
        rw [List.length_drop]; omega
      obtain ⟨i, hi⟩ := ih _ _ r hshort hde hr
      refine ⟨i + 1, ?_⟩
      rw [explode_cons_eq line hline, hzd, List.take_succ_cons, Join_empty_sep,
        List.flatten_cons, ← Join_empty_sep, ← hi]
      exact hpe

/-- A selection of leading words of a line ends between two characters. -/
theorem word_boundary (line : GoString) (k : Nat) :
    ∃ i, Join ((Split line space).take k) space = Join ((explode line).take i) [] := by
  by_cases h0 : k = 0
  · exact ⟨0, by rw [h0]; rfl⟩
  · by_cases hk : k < (Split line space).length
    · have hj := Join_take_drop_sep (Split line space) space k (by omega) hk
      rw [Join_Split line space (Or.inl rfl)] at hj
      apply boundary_of_runeStart line.length line _ (space ++ Join ((Split line space).drop k) space)
        (le_refl _)
      · exact (by rw [List.append_assoc] at hj; exact hj.symm)
      · exact Or.inr ⟨32, _, rfl, by decide⟩
    · refine ⟨(explode line).length, ?_⟩
      rw [List.take_of_length_le (by omega), List.take_length, Join_Split line space (Or.inl rfl),
        Join_explode]

/-- A selection of leading characters of a line ends between two characters. -/
theorem char_boundary (line : GoString) (k : Nat) :
    ∃ i, Join ((explode line).take k) [] = Join ((explode line).take i) [] := ⟨k, rfl⟩

theorem line_boundary (line : GoString) :
    ∃ i, line = Join ((explode line).take i) [] :=
  ⟨(explode line).length, by rw [List.take_length, Join_explode]⟩

/-- Under a measure that is monotonic in added characters, of two cuts of a
line between characters the shorter measures at most as much as the longer. -/
theorem CharMonotonic.le_of_boundary {W : Type} [LE W] {measure : GoString → W}
    (hmono : CharMonotonic measure) (line : GoString) {p q : GoString}
    (hp : ∃ i, p = Join ((explode line).take i) [])
    (hq : ∃ j, q = Join ((explode line).take j) []) (hpq : p <+: q) :
    measure p ≤ measure q := by
  obtain ⟨i, rfl⟩ := hp
  obtain ⟨j, rfl⟩ := hq
  by_cases hij : i ≤ j
  · exact hmono line i j hij
  · have hqp := Join_take_mono (explode line) [] j i (by omega)
    have heq : Join ((explode line).take i) [] = Join ((explode line).take j) [] :=
      hpq.eq_of_length (le_antisymm hpq.length_le hqp.length_le)
    rw [heq]
    exact hmono line j j (le_refl _)

/-- A measure that is monotonic over all byte strings is monotonic in added
characters. -/
theorem Monotonic.charMonotonic {W : Type} [LinearOrder W] {measure : GoString → W}
    (hmono : Monotonic measure) : CharMonotonic measure :=
  fun t i j hij => hmono.le_of_prefix (Join_take_mono (explode t) [] i j hij)

theorem numLen_charMonotonic : CharMonotonic numLen := by
  intro t i j hij
  have := byteLen_monotonic.charMonotonic t i j hij
  exact this

section
variable {W : Type} [LinearOrder W]

/-- When the line does not fit, has at least two bytes and its first byte
`line[:1]` fits, `wrapLine` gets past its three short-circuits and runs the
outer loop in word mode. -/
theorem wrapLine_enters_loop_of_byte (measure : GoString → W) (maxWidth : W) (fuel : Nat)
    (line : GoString) (h1 : ¬ len line < 2) (hwhole : maxWidth < measure line)
    (hbyte : measure (line.take 1) ≤ maxWidth) :
    wrapLine measure maxWidth (fuel + 1) line =
      match outerLoop measure maxWidth line fuel space with
      | .emit candidate rest => (wrapLine measure maxWidth fuel rest).prepend candidate
      | .panic => .panic
      | .timeout => .timeout := by
  have e := wrapLine_succ measure maxWidth fuel line
  rw [if_neg h1, if_neg (not_le.mpr hwhole), if_neg (not_lt.mpr hbyte)] at e
  exact e

/-- The first word of a line, under a measure monotonic in added characters
and with linearly ordered widths, when the first character and the first byte
of the line fit. -/
theorem first_word_linear (measure : GoString → W) (maxWidth : W) (fuel : Nat)
    (line : GoString) (hmono : CharMonotonic measure) (hspace : (32 : Byte) ∈ line)
    (hchar : measure (firstChar line) ≤ maxWidth)
    (hbyte : measure (line.take 1) ≤ maxWidth) (hfuel : 2 * line.length + 6 ≤ fuel) :
    (maxWidth < measure (firstWord line) →
      ∃ c r : GoString, ∃ k : Nat,
        outerLoop measure maxWidth line fuel space = .emit c r ∧
        wrapLine measure maxWidth (fuel + 1) line
          = (wrapLine measure maxWidth fuel r).prepend c ∧
        (∀ segs, wrapLine measure maxWidth (fuel + 1) line = .ok segs → segs.head? = some c) ∧
        0 < k ∧ c = Join ((explode line).take k) [] ∧ r = Join ((explode line).drop k) [] ∧
        c ≠ [] ∧ c <+: firstWord line ∧ c ≠ firstWord line ∧ measure c ≤ maxWidth) ∧
    (measure (firstWord line) ≤ maxWidth →
      maxWidth < measure (Join ((Split line space).take 2) space) →
      ∃ r : GoString,
        outerLoop measure maxWidth line fuel space = .emit (firstWord line) r ∧
        r = Join ((Split line space).drop 1) space ∧
        wrapLine measure maxWidth (fuel + 1) line
          = (wrapLine measure maxWidth fuel r).prepend (firstWord line) ∧
        (∀ segs, wrapLine measure maxWidth (fuel + 1) line = .ok segs →
          segs.head? = some (firstWord line))) := by
  have hline := mem_space_ne_nil line hspace
  have hfwb : ∃ i, firstWord line = Join ((explode line).take i) [] := by
    rw [firstWord_eq]; exact word_boundary line 1
  have hlen2 : maxWidth < measure line → ¬ len line < 2 := by
    intro hwhole hlt
    have hlen : 0 < line.length := List.length_pos.mpr hline
    have : firstChar line = line := by
      unfold firstChar
      apply List.take_of_length_le
      have := decodeRuneSize_pos line hline
      simp only [len] at hlt
      omega
    rw [this] at hchar
    exact absurd hwhole (not_lt.mpr hchar)
  have hhead : ∀ (c r : GoString),
      wrapLine measure maxWidth (fuel + 1) line = (wrapLine measure maxWidth fuel r).prepend c →
      ∀ segs, wrapLine measure maxWidth (fuel + 1) line = .ok segs → segs.head? = some c := by
    intro c r heq segs hs
    rw [heq] at hs
    obtain ⟨segs', _, h⟩ := prepend_eq_ok c _ segs hs
    rw [h]; rfl
  constructor
  · intro hword
    have hwhole : maxWidth < measure line :=
      lt_of_lt_of_le hword
        (hmono.le_of_boundary line hfwb (line_boundary line) (firstWord_le_line line))
    have hnone : ∀ k : Nat, 0 < k →
        ¬ measure (Join ((Split line space).take k) space) ≤ maxWidth := by
      intro k hk hfit
      have hpre := Join_take_mono (Split line space) space 1 k hk
      rw [← firstWord_eq] at hpre
      exact absurd (le_trans (hmono.le_of_boundary line hfwb (word_boundary line k) hpre) hfit)
        (not_le.mpr hword)
    obtain ⟨f', rfl⟩ : ∃ f', fuel = f' + 1 := ⟨fuel - 1, by omega⟩
    obtain ⟨k, h0, hk, hfit, he⟩ := outerLoop_char_mode measure maxWidth line f' hline hchar
      (by omega)
    have hemit := outerLoop_restart measure maxWidth line f' hline hnone (by omega)
    rw [he] at hemit
    have heq := wrapLine_enters_loop_of_byte measure maxWidth (f' + 1) line (hlen2 hwhole)
      hwhole hbyte
    rw [hemit] at heq
    have hcline : Join ((explode line).take k) [] <+: line := by
      have := Join_take_le_all (explode line) [] k
      rwa [Join_explode] at this
    have hfc : firstChar line <+: Join ((explode line).take k) [] := by
      rw [firstChar_eq line hline]
      exact Join_take_mono (explode line) [] 1 k h0
    have hpre : Join ((explode line).take k) [] <+: firstWord line := by
      rcases List.prefix_or_prefix_of_prefix hcline (firstWord_le_line line) with h | h
      · exact h
      · exact absurd (le_trans (hmono.le_of_boundary line hfwb (char_boundary line k) h) hfit)
          (not_le.mpr hword)
    refine ⟨_, _, k, hemit, heq, hhead _ _ heq, h0, rfl, rfl, ?_, hpre, ?_, hfit⟩
    · intro e
      rw [e] at hfc
      exact firstChar_ne_nil line hline (List.prefix_nil.mp hfc)
    · intro e
      rw [e] at hfit
      exact absurd hfit (not_le.mpr hword)
  · intro hword htwo
    have hwhole : maxWidth < measure line := by
      have := Join_take_le_all (Split line space) space 2
      rw [Join_Split line space (Or.inl rfl)] at this
      exact lt_of_lt_of_le htwo
        (hmono.le_of_boundary line (word_boundary line 2) (line_boundary line) this)
    have hn : 2 ≤ (Split line space).length := by
      rw [Split_space]; exact splitByte_length_of_mem 32 line hspace
    obtain ⟨k, h0, hk, hfit, he⟩ := outerLoop_word_mode measure maxWidth line fuel hn hword hfuel
    have hk1 : k = 1 := by
      by_contra hne
      have hpre := Join_take_mono (Split line space) space 2 k (by omega)
      exact absurd
        (le_trans (hmono.le_of_boundary line (word_boundary line 2) (word_boundary line k) hpre)
          hfit)
        (not_le.mpr htwo)
    subst hk1
    rw [← firstWord_eq] at he
    have heq := wrapLine_enters_loop_of_byte measure maxWidth fuel line (hlen2 hwhole) hwhole hbyte
    rw [he] at heq
    exact ⟨_, he, rfl, heq, hhead _ _ heq⟩

end

section
variable {W : Type} [LT W] [LE W] [DecidableRel (fun a b : W => a < b)]
  [DecidableRel (fun a b : W => a ≤ b)]

/-! ## More fuel, for any comparisons -/

theorem outerLoop_succ_any (measure : GoString → W) (maxWidth : W) (line sep : GoString)
    (fuel : Nat) :
    outerLoop measure maxWidth line (fuel + 1) sep =
      if ((Split line sep).length : Int) < 2 ∧ sep ≠ [] then
        outerLoop measure maxWidth line fuel []
      else
        match innerLoop measure maxWidth (Split line sep) sep fuel
            (initialState (Split line sep).length) with
        | .retry => outerLoop measure maxWidth line fuel []
        | .emit candidate rest => .emit candidate rest
        | .panic => .panic
        | .timeout => .timeout := rfl

theorem wrapLine_succ_any (measure : GoString → W) (maxWidth : W) (fuel : Nat)
    (line : GoString) :
    wrapLine measure maxWidth (fuel + 1) line =
      if len line < 2 then .ok [line]
      else if measure line ≤ maxWidth then .ok [line]
      else if measure (line.take 1) > maxWidth then .ok [line]
      else
        match outerLoop measure maxWidth line fuel space with
        | .emit candidate rest => (wrapLine measure maxWidth fuel rest).prepend candidate
        | .panic => .panic
        | .timeout => .timeout := rfl

theorem innerLoop_mono_any (measure : GoString → W) (maxWidth : W) (parts : List GoString)
    (sep : GoString) (fuel : Nat) (st : SearchState)
    (h : innerLoop measure maxWidth parts sep fuel st ≠ .timeout) (extra : Nat) :
    innerLoop measure maxWidth parts sep (fuel + extra) st
      = innerLoop measure maxWidth parts sep fuel st := by
  induction fuel generalizing st with
  | zero => exact absurd rfl h
  | succ fuel ih =>
    have e : fuel + 1 + extra = (fuel + extra) + 1 := by omega
    rw [e]
    unfold innerLoop
    unfold innerLoop at h
    split
    · next st' hs =>
      rw [hs] at h
      exact ih st' h
    · rfl
    · rfl
    · rfl

theorem outerLoop_mono_any (measure : GoString → W) (maxWidth : W) (line : GoString)
    (fuel : Nat) (sep : GoString)
    (h : outerLoop measure maxWidth line fuel sep ≠ .timeout) (extra : Nat) :
    outerLoop measure maxWidth line (fuel + extra) sep
      = outerLoop measure maxWidth line fuel sep := by
  induction fuel generalizing sep with
  | zero => exact absurd rfl h
  | succ fuel ih =>
    have e : fuel + 1 + extra = (fuel + extra) + 1 := by omega
    rw [e, outerLoop_succ_any, outerLoop_succ_any]
    rw [outerLoop_succ_any] at h
    split
    · next hc =>
      rw [if_pos hc] at h
      exact ih [] h
    · next hc =>
      rw [if_neg hc] at h
      have hi : innerLoop measure maxWidth (Split line sep) sep fuel
          (initialState (Split line sep).length) ≠ .timeout := by
        intro e'
        rw [e'] at h
        exact h rfl
      rw [innerLoop_mono_any measure maxWidth _ sep fuel _ hi extra]
      split
      · next he =>
        rw [he] at h
        exact ih [] h
      · rfl
      · rfl
      · rfl

/-- With any comparisons, a result of `wrapLine` does not change with more
fuel. -/
theorem wrapLine_mono_any (measure : GoString → W) (maxWidth : W) (fuel : Nat)
    (line : GoString) (segs : List GoString)
    (h : wrapLine measure maxWidth fuel line = .ok segs) (extra : Nat) :
    wrapLine measure maxWidth (fuel + extra) line = .ok segs := by
  induction fuel generalizing line segs with
  | zero => simp [wrapLine] at h
  | succ fuel ih =>
    have e : fuel + 1 + extra = (fuel + extra) + 1 := by omega
    rw [e, wrapLine_succ_any]
    rw [wrapLine_succ_any] at h
    split
    · next hc => rw [if_pos hc] at h; exact h
    · next hc1 =>
      rw [if_neg hc1] at h
      split
      · next hc => rw [if_pos hc] at h; exact h
      · next hc2 =>
        rw [if_neg hc2] at h
        split
        · next hc => rw [if_pos hc] at h; exact h
        · next hc3 =>
          rw [if_neg hc3] at h
          have ho : outerLoop measure maxWidth line fuel space ≠ .timeout := by
            intro e'
            rw [e'] at h
            exact absurd h (by simp)
          rw [outerLoop_mono_any measure maxWidth line fuel space ho extra]
          split
          · next c r he =>
            rw [he] at h
            obtain ⟨segs', hs, hseg⟩ := prepend_eq_ok c _ segs h
            rw [ih r segs' hs, hseg]; rfl
          · next he => rw [he] at h; exact absurd h (by simp)
          · next he => exact absurd he ho

end

section
variable {W : Type} [LinearOrder W]

/-! ## The claims -/

/-- C1 (reconstruction): whenever `wrapLine` returns segments, the line is
those segments put together in order, with a single space or nothing at each
junction between two consecutive segments. -/
theorem wrapLine_reconstruction (measure : GoString → W) (maxWidth : W) (fuel : Nat)
    (line : GoString) (segs : List GoString)
    (h : wrapLine measure maxWidth fuel line = .ok segs) :
    ∃ juncs : List GoString, juncs.length + 1 = segs.length ∧
      (∀ j ∈ juncs, j = space ∨ j = []) ∧ weave segs juncs = line := by
  induction fuel generalizing line segs with
  | zero => simp [wrapLine] at h
  | succ fuel ih =>
    rcases wrapLine_ok_cases measure maxWidth _ line segs h with
      ⟨hs, _⟩ | ⟨fuel', c, r, segs', hf, h1, _, _, he, hr, hs⟩
    · subst hs
      exact ⟨[], rfl, by simp, rfl⟩
    · have hf' : fuel' = fuel := by omega
      subst hf'
      obtain ⟨juncs, hlen, hj, hw⟩ := ih r segs' hr
      obtain ⟨j, hjs, hjoin⟩ := outerLoop_emit_junction measure maxWidth line
        (ne_nil_of_two_le_len line h1) fuel' space (Or.inl rfl) c r he
      subst hs
      refine ⟨j :: juncs, by simp [hlen], ?_, ?_⟩
      · intro x hx
        rcases List.mem_cons.mp hx with hx | hx
        · rw [hx]; exact hjs
        · exact hj x hx
      · cases segs' with
        | nil => simp at hlen
        | cons t rest =>
          show c ++ j ++ weave (t :: rest) juncs = line
          rw [hw, hjoin]

/-- Witness for C1 at `"hello world"`, width 5, measure `len`. -/
theorem wrapLine_reconstruction_witness :
    wrapLine byteLen 5 20 (str "hello world") = .ok [str "hello", str "world"] ∧
      ∃ juncs : List GoString, juncs.length + 1 = [str "hello", str "world"].length ∧
        (∀ j ∈ juncs, j = space ∨ j = []) ∧
        weave [str "hello", str "world"] juncs = str "hello world" :=
  ⟨by decide,
    wrapLine_reconstruction byteLen 5 20 (str "hello world") [str "hello", str "world"]
      (by decide)⟩

/-- C3 (totality) does not hold of the code: with the monotonic measure `len`
and `maxWidth = 1`, `wrapLine("é")` never returns. The line has two bytes and
does not fit, its first byte `line[:1]` fits, but its only character, which
is what `strings.Split(line, "")` yields, does not: the search stabilises at
prefix count 0 and the recursive call gets the whole line again. -/
theorem wrapLine_not_total :
    Monotonic byteLen ∧ ∀ fuel : Nat, wrapLine byteLen 1 fuel eAcute = .timeout :=
  ⟨byteLen_monotonic,
    wrapLine_timeout_of_self byteLen 1 eAcute (by decide) (by decide) (by decide) 6 []
      (by decide)⟩

/-- C4 (maximal prefix) does not hold of the code: with measure `len` and
`maxWidth = 5` the line `"a b c dddd"` is split, its first three words
`"a b c"` fit, and yet the first returned segment is `"a b"`: with four parts
the search starts at index 2 with `rangeUpperIndex = 3`, and index 3 is never
measured. -/
theorem wrapLine_not_maximal_prefix :
    Monotonic byteLen ∧ ¬ byteLen (str "a b c dddd") ≤ 5 ∧
      byteLen (firstChar (str "a b c dddd")) ≤ 5 ∧
      Split (str "a b c dddd") space = [str "a", str "b", str "c", str "dddd"] ∧
      Join ((Split (str "a b c dddd") space).take 3) space = str "a b c" ∧
      byteLen (str "a b c") ≤ 5 ∧
      wrapLine byteLen 5 27 (str "a b c dddd") = .ok [str "a b", str "c", str "dddd"] :=
  ⟨byteLen_monotonic, by decide, by decide, by decide, by decide, by decide, by decide⟩

/-- C5 (minimal line count) does not hold of the code: with measure `len` and
`maxWidth = 8` every word of `"go to my houses"` fits and the line can be
broken at a space into the two fitting segments `"go to my"` and `"houses"`,
but `wrapLine` returns three segments. -/
theorem wrapLine_not_minimal :
    Monotonic byteLen ∧
      (∀ w ∈ Split (str "go to my houses") space, byteLen w ≤ 8) ∧
      Join [str "go to my", str "houses"] space = str "go to my houses" ∧
      (∀ s ∈ [str "go to my", str "houses"], byteLen s ≤ 8) ∧
      wrapLine byteLen 8 37 (str "go to my houses")
        = .ok [str "go to", str "my", str "houses"] :=
  ⟨byteLen_monotonic, by decide, by decide, by decide, by decide⟩

/-- C6 (progress) does not hold of the code: with measure `len` and
`maxWidth = 1`, the call `wrapLine("é")` passes its three short-circuits,
falls back to character mode, where the only part is the whole line, and
emits the empty candidate with the whole line as remainder: the string passed
to the recursive call is not shorter than the line. -/
theorem wrapLine_no_progress :
    ¬ len eAcute < 2 ∧ ¬ byteLen eAcute ≤ 1 ∧ ¬ byteLen (eAcute.take 1) > 1 ∧
      Split eAcute space = [eAcute] ∧ Split eAcute [] = [eAcute] ∧
      outerLoop byteLen 1 eAcute 6 space = .emit [] eAcute ∧
      ¬ eAcute.length < eAcute.length := by
  decide

/-- C7 (no change when it fits): a line that measures at most `maxWidth` is
returned as the one-element sequence `[line]`. -/
theorem wrapLine_fits (measure : GoString → W) (maxWidth : W) (fuel : Nat)
    (line : GoString) (h : measure line ≤ maxWidth) :
    wrapLine measure maxWidth (fuel + 1) line = .ok [line] := by
  rw [wrapLine_succ]
  split
  · rfl
  · rfl

/-- Witness for C7 at `"hello"`, width 5, measure `len`. -/
theorem wrapLine_fits_witness :
    byteLen (str "hello") ≤ 5 ∧ wrapLine byteLen 5 1 (str "hello") = .ok [str "hello"] :=
  ⟨by decide, wrapLine_fits byteLen 5 0 (str "hello") (by decide)⟩

/-- C9 (character fallback) does not hold of the code: `"aé"` has no space and
two characters, does not fit `maxWidth = 1` under the monotonic measure `len`,
and its first character `"a"` fits; `wrapLine` emits `"a"` and then never
returns from the recursive call on `"é"`. -/
theorem wrapLine_fallback_diverges :
    (32 : Byte) ∉ aEAcute ∧ (explode aEAcute).length = 2 ∧ ¬ byteLen aEAcute ≤ 1 ∧
      byteLen (firstChar aEAcute) ≤ 1 ∧ Monotonic byteLen ∧
      outerLoop byteLen 1 aEAcute 8 space = .emit [0x61] eAcute ∧
      ∀ fuel : Nat, wrapLine byteLen 1 fuel aEAcute = .timeout :=
  ⟨by decide, by decide, by decide, by decide, byteLen_monotonic, by decide,
    wrapLine_timeout_of_rest byteLen 1 aEAcute (by decide) (by decide) (by decide) 8
      [0x61] eAcute (by decide)
      (wrapLine_timeout_of_self byteLen 1 eAcute (by decide) (by decide) (by decide) 6 []
        (by decide))⟩

/-- C10 as stated fails in its second half: with measure `len` and
`maxWidth = 0` the line `" a"` contains a space, its first word `""` fits and
its first two words `" a"` do not, but its first character `" "` does not
fit, so `wrapLine` returns the line unsplit and the first segment is `" a"`,
not the first word. -/
theorem first_word_counterexample :
    Monotonic byteLen ∧ (32 : Byte) ∈ str " a" ∧ firstWord (str " a") = [] ∧
      byteLen (firstWord (str " a")) ≤ 0 ∧
      0 < byteLen (Join ((Split (str " a") space).take 2) space) ∧
      (∀ fuel : Nat, wrapLine byteLen 0 (fuel + 1) (str " a") = .ok [str " a"]) ∧
      [str " a"].head? ≠ some (firstWord (str " a")) :=
  ⟨byteLen_monotonic, by decide, by decide, by decide, by decide,
    fun fuel => by
      rw [wrapLine_succ, if_neg (by decide), if_neg (by decide), if_pos (by decide)],
    by decide⟩

end

section
variable {W : Type} [LinearOrder W]

/-- C11 (non-monotonic measure) does not hold of the code: termination fails
already for the measure `len`. With `maxWidth = 2` the line `"日本"` does not
fit, its first byte fits and its first character (three bytes) does not; in
character mode the search stabilises at prefix count 0 and the last switch
case hands the whole line to the recursive call, so the fallback does not
bound the recursion depth and `wrapLine` never returns. -/
theorem wrapLine_fallback_unbounded :
    explode nihon = [[0xE6, 0x97, 0xA5], [0xE6, 0x9C, 0xAC]] ∧
      outerLoop byteLen 2 nihon 8 space = .emit [] nihon ∧
      ∀ fuel : Nat, wrapLine byteLen 2 fuel nihon = .timeout :=
  ⟨by decide, by decide,
    wrapLine_timeout_of_self byteLen 2 nihon (by decide) (by decide) (by decide) 8 []
      (by decide)⟩

/-- C12 (short line) does not hold of the code: `"€"` is a line of one
character, but `len(line)` counts its three bytes, so the length check does
not return; with measure `len` and `maxWidth = 2` the measure is consulted
and `wrapLine` never returns. -/
theorem wrapLine_short_line_diverges :
    (explode euro).length = 1 ∧ ¬ len euro < 2 ∧
      ∀ fuel : Nat, wrapLine byteLen 2 fuel euro = .timeout :=
  ⟨by decide, by decide,
    wrapLine_timeout_of_self byteLen 2 euro (by decide) (by decide) (by decide) 6 []
      (by decide)⟩

/-- C13 (single-character overflow) does not hold of the code: `"éa"` has two
characters and its first character `"é"` measures 2 > 1 under measure `len`,
but the check measures the first byte only, which fits; `wrapLine` goes on to
split and never returns, instead of returning the line unchanged. -/
theorem wrapLine_overflow_diverges :
    (explode eAcuteA).length = 2 ∧ firstChar eAcuteA = eAcute ∧
      (1 : Int) < byteLen (firstChar eAcuteA) ∧ ¬ byteLen (eAcuteA.take 1) > 1 ∧
      ∀ fuel : Nat, wrapLine byteLen 1 fuel eAcuteA = .timeout :=
  ⟨by decide, by decide, by decide, by decide,
    wrapLine_timeout_of_self byteLen 1 eAcuteA (by decide) (by decide) (by decide) 8 []
      (by decide)⟩

/-- C14: with measure `len` and `maxWidth = 5`, `wrapLine("hello world")`
returns exactly `["hello", "world"]`; the break is made in word mode at the
space, and neither segment contains a space. -/
theorem wrapLine_hello_world :
    (∀ extra : Nat, wrapLine byteLen 5 (4 + extra) (str "hello world")
        = .ok [str "hello", str "world"]) ∧
      outerLoop byteLen 5 (str "hello world") 3 space
        = .emit (Join ((Split (str "hello world") space).take 1) space)
            (Join ((Split (str "hello world") space).drop 1) space) ∧
      (32 : Byte) ∉ str "hello" ∧ (32 : Byte) ∉ str "world" :=
  ⟨fun extra => wrapLine_mono byteLen 5 4 (str "hello world") _ (by decide) extra,
    by decide, by decide, by decide⟩

/-- C15: with measure `len` and `maxWidth = 5`, `wrapLine("abcdefgh")` finds
a single word, falls back to character mode, and returns exactly
`["abcde", "fgh"]`. -/
theorem wrapLine_abcdefgh :
    (∀ extra : Nat, wrapLine byteLen 5 (6 + extra) (str "abcdefgh")
        = .ok [str "abcde", str "fgh"]) ∧
      (Split (str "abcdefgh") space).length = 1 ∧
      outerLoop byteLen 5 (str "abcdefgh") 5 space
        = .emit (Join ((explode (str "abcdefgh")).take 5) [])
            (Join ((explode (str "abcdefgh")).drop 5) []) :=
  ⟨fun extra => wrapLine_mono byteLen 5 6 (str "abcdefgh") _ (by decide) extra,
    by decide, by decide⟩

/-- C20 (exactly one segment in the three short-circuit cases) does not hold
of the code, in either direction, because the third check measures the first
byte `line[:1]`, not the first character.
Under `accentMeasure` and `maxWidth = 3` the first character `"é"` of `"éa b"`
measures 9 > 3, so the result should be the line unsplit, yet `wrapLine`
returns the two segments `["éa", "b"]`: the first byte fits.
Under `glyphMeasure` and `maxWidth = 10` the line `"í bb bb"` has seven
characters, does not fit, and its first character `"í"` fits, so the result
should have at least two segments, yet `wrapLine` returns the line unsplit:
the first byte alone does not fit. -/
theorem wrapLine_splits_despite_overflow :
    ((∀ extra : Nat, wrapLine accentMeasure 3 (4 + extra) eAcuteAB
        = .ok [eAcuteA, str "b"]) ∧
      firstChar eAcuteAB = eAcute ∧ (3 : Int) < accentMeasure (firstChar eAcuteAB) ∧
      ¬ accentMeasure (eAcuteAB.take 1) > 3 ∧
      ¬ ([eAcuteA, str "b"].length = 1 ↔
          ((explode eAcuteAB).length < 2 ∨ accentMeasure eAcuteAB ≤ 3 ∨
            3 < accentMeasure (firstChar eAcuteAB)))) ∧
    ((∀ fuel : Nat, wrapLine glyphMeasure 10 (fuel + 1) iAcuteWords = .ok [iAcuteWords]) ∧
      (explode iAcuteWords).length = 7 ∧ ¬ glyphMeasure iAcuteWords ≤ 10 ∧
      glyphMeasure (firstChar iAcuteWords) ≤ 10 ∧ glyphMeasure (iAcuteWords.take 1) > 10 ∧
      ¬ ([iAcuteWords].length = 1 ↔
          ((explode iAcuteWords).length < 2 ∨ glyphMeasure iAcuteWords ≤ 10 ∨
            10 < glyphMeasure (firstChar iAcuteWords)))) :=
  ⟨⟨fun extra => wrapLine_mono accentMeasure 3 4 eAcuteAB _ (by decide) extra,
      by decide, by decide, by decide, by decide⟩,
    ⟨fun fuel => by
        rw [wrapLine_succ, if_neg (by decide), if_neg (by decide), if_pos (by decide)],
      by decide, by decide, by decide, by decide, by decide⟩⟩

end

section
variable {F S : Type} [LinearOrder F] [Sub F]

/-- C16 (multi-line orchestration): with `LineWrapping` disabled `wrapLines`
returns the lines unchanged; with it enabled, `wrapLines` returns exactly when
`wrapLine` returns for every line, and its result is the concatenation, in
input order, of the results of `wrapLine` for the lines, all called with the
measure for the text size and style of the label and with
`maxWidth = width - left padding - right padding`. So the output has at least
as many elements as the input, every output segment belongs to the result
for one input line, and `wrapLines` returns as soon as `wrapLine` returns for
each line. -/
theorem wrapLines_spec (MeasureText : GoString → F → S → Size F) (w : CustomLabel F S)
    (lines : List GoString) :
    (w.LineWrapping = false → ∀ fuel : Nat, w.wrapLines MeasureText fuel lines = .ok lines) ∧
    (w.LineWrapping = true → ∀ (fuel : Nat) (out : List GoString),
      (w.wrapLines MeasureText fuel lines = .ok out ↔
        ∃ results : List (List GoString),
          List.Forall₂
            (fun l r => wrapLine (w.measure MeasureText)
              (w.size.Width - w.TextPaddings.Left - w.TextPaddings.Right) fuel l = .ok r)
            lines results ∧
          out = results.flatten)) ∧
    (∀ (fuel : Nat) (out : List GoString),
      w.wrapLines MeasureText fuel lines = .ok out → lines.length ≤ out.length) ∧
    (w.LineWrapping = true → ∀ (fuel : Nat) (out : List GoString),
      w.wrapLines MeasureText fuel lines = .ok out →
      ∀ s ∈ out, ∃ l ∈ lines, ∃ r,
        wrapLine (w.measure MeasureText) w.maxWidth fuel l = .ok r ∧ s ∈ r) ∧
    (w.LineWrapping = true →
      (∀ l ∈ lines, ∃ fuel r, wrapLine (w.measure MeasureText) w.maxWidth fuel l = .ok r) →
      ∃ fuel out, w.wrapLines MeasureText fuel lines = .ok out) := by
  have hiff : w.LineWrapping = true → ∀ (fuel : Nat) (out : List GoString),
      (w.wrapLines MeasureText fuel lines = .ok out ↔
        ∃ results : List (List GoString),
          List.Forall₂
            (fun l r => wrapLine (w.measure MeasureText) w.maxWidth fuel l = .ok r)
            lines results ∧
          out = results.flatten) := by
    intro hw fuel out
    unfold CustomLabel.wrapLines
    rw [if_pos hw, wrapLinesLoop_ok_iff]
    simp
  refine ⟨?_, hiff, ?_, ?_, ?_⟩
  · intro hw fuel
    unfold CustomLabel.wrapLines
    rw [hw]; rfl
  · intro fuel out h
    cases hw : w.LineWrapping with
    | false =>
      unfold CustomLabel.wrapLines at h
      rw [hw] at h
      simp at h
      rw [h]
    | true =>
      obtain ⟨results, hf, hout⟩ := (hiff hw fuel out).mp h
      rw [hout]
      exact forall₂_wrapLine_length _ _ fuel lines results hf
  · intro hw fuel out h s hs
    obtain ⟨results, hf, hout⟩ := (hiff hw fuel out).mp h
    rw [hout] at hs
    exact forall₂_wrapLine_mem _ _ fuel lines results hf s hs
  · intro hw heach
    obtain ⟨fuel, results, hf⟩ := forall₂_wrapLine_of_each _ _ lines heach
    exact ⟨fuel, results.flatten, (hiff hw fuel _).mpr ⟨results, hf, rfl⟩⟩

end

/-- Witness for C16: `demoLabel` has line wrapping enabled and
`maxWidth = 9 - 2 - 2 = 5`; the lines `"hello world"` and `"abcdefgh"` give
four segments. -/
theorem wrapLines_spec_witness :
    demoLabel.LineWrapping = true ∧ demoLabel.maxWidth = 5 ∧
      demoLabel.wrapLines demoMeasureText 10 [str "hello world", str "abcdefgh"]
        = .ok [str "hello", str "world", str "abcde", str "fgh"] ∧
      [str "hello world", str "abcdefgh"].length
        ≤ [str "hello", str "world", str "abcde", str "fgh"].length :=
  ⟨by decide, by decide, by decide,
    (wrapLines_spec demoMeasureText demoLabel [str "hello world", str "abcdefgh"]).2.2.1 10
      [str "hello", str "world", str "abcde", str "fgh"] (by decide)⟩

section
variable {F : Type}

/-- C17 (tag filter): after `SetFilterTags(filterTags)` the item is visible
if and only if `filterTags` is empty or some tag of the item is equal to some
tag of `filterTags`, and hidden otherwise; no field of the item other than
`Hidden` is changed. -/
theorem SetFilterTags_spec (w : Item F) (filterTags : List Tag) :
    ((w.SetFilterTags filterTags).Visible = true ↔
      filterTags = [] ∨ ∃ t ∈ w.Tags, t ∈ filterTags) ∧
    ((w.SetFilterTags filterTags).Hidden = true ↔
      ¬ (filterTags = [] ∨ ∃ t ∈ w.Tags, t ∈ filterTags)) ∧
    w.SetFilterTags filterTags = { w with Hidden := (w.SetFilterTags filterTags).Hidden } := by
  have hcond : (matchFilterTags w.Tags filterTags false = true ∨ (filterTags.length : Int) < 1) ↔
      (filterTags = [] ∨ ∃ t ∈ w.Tags, t ∈ filterTags) := by
    rw [matchFilterTags_eq_true]
    have hlen : (filterTags.length : Int) < 1 ↔ filterTags = [] := by
      constructor
      · intro h
        apply List.length_eq_zero.mp
        omega
      · intro h; rw [h]; simp
    rw [hlen]
    constructor
    · rintro ((h | h) | h)
      · exact absurd h (by simp)
      · exact Or.inr h
      · exact Or.inl h
    · rintro (h | h)
      · exact Or.inr h
      · exact Or.inl (Or.inr h)
  unfold Item.SetFilterTags
  by_cases hc : matchFilterTags w.Tags filterTags false = true ∨ (filterTags.length : Int) < 1
  · rw [if_pos hc]
    have := hcond.mp hc
    refine ⟨by simp [Item.Show, Item.Visible, this], by simp [Item.Show, this], rfl⟩
  · rw [if_neg hc]
    have := mt hcond.mpr hc
    refine ⟨by simp [Item.Hide, Item.Visible, this], by simp [Item.Hide, this], rfl⟩

end

/-- C18 (ParseTagEditString): for every string, the tags returned are, in
order, the whitespace-trimmed pieces of the string split on `;` that are not
empty after trimming. So every returned tag has a nonempty expression that
neither starts nor ends with a whitespace character and contains no `;`; the
empty string yields no tags, and so does a string whose pieces between the
separators consist of whitespace characters only. -/
theorem ParseTagEditString_spec (s : GoString) :
    ParseTagEditString s
      = some ((((Split s [0x3B]).map TrimSpace).filter (fun e => !e.isEmpty)).map Tag.mk) ∧
    (∀ tags, ParseTagEditString s = some tags → ∀ t ∈ tags,
      t.Expression ≠ [] ∧ ¬ leadingSpace t.Expression ∧ ¬ trailingSpace t.Expression ∧
      (0x3B : Byte) ∉ t.Expression) ∧
    (s = [] → ParseTagEditString s = some []) ∧
    ((∀ p ∈ Split s [0x3B], OnlySpace p) → ParseTagEditString s = some []) := by
  have heq := ParseTagEditString_eq s
  refine ⟨heq, ?_, ?_, ?_⟩
  · intro tags htags t ht
    rw [heq] at htags
    injection htags with htags
    rw [← htags] at ht
    obtain ⟨e, he, het⟩ := List.mem_map.mp ht
    obtain ⟨hmem, hne⟩ := List.mem_filter.mp he
    obtain ⟨p, hp, hpe⟩ := List.mem_map.mp hmem
    obtain ⟨h1, h2, h3⟩ := TrimSpace_spec p
    rw [← het]
    show e ≠ [] ∧ ¬ leadingSpace e ∧ ¬ trailingSpace e ∧ (0x3B : Byte) ∉ e
    rw [← hpe]
    refine ⟨?_, h1, h2, ?_⟩
    · intro hnil
      rw [hpe] at hnil
      rw [hnil] at hne
      simp at hne
    · intro hmem'
      exact not_mem_of_mem_splitByte 0x3B s p hp (h3.subset hmem')
  · intro hs
    rw [hs]
    decide
  · intro hall
    rw [heq]
    have : ((Split s [0x3B]).map TrimSpace).filter (fun e => !e.isEmpty) = [] := by
      apply List.filter_eq_nil_iff.mpr
      intro e he
      obtain ⟨p, hp, hpe⟩ := List.mem_map.mp he
      rw [← hpe, TrimSpace_OnlySpace p (hall p hp)]
      simp
    rw [this]
    rfl

/-- Witness for C18 at `"Tag1=Value1; Tag2=Value2; "` and at `" ; ;; "`. -/
theorem ParseTagEditString_spec_witness :
    ParseTagEditString (str "Tag1=Value1; Tag2=Value2; ")
      = some [⟨str "Tag1=Value1"⟩, ⟨str "Tag2=Value2"⟩] ∧
    (∀ t ∈ [(⟨str "Tag1=Value1"⟩ : Tag), ⟨str "Tag2=Value2"⟩],
      t.Expression ≠ [] ∧ ¬ leadingSpace t.Expression ∧ ¬ trailingSpace t.Expression ∧
      (0x3B : Byte) ∉ t.Expression) ∧
    ParseTagEditString (str " ; ;; ") = some [] :=
  ⟨by decide,
    (ParseTagEditString_spec (str "Tag1=Value1; Tag2=Value2; ")).2.1 _ (by decide),
    (ParseTagEditString_spec (str " ; ;; ")).2.2.2 (by
      intro p hp
      have hp' : p ∈ [[(0x20 : Byte)], [0x20], [], [0x20]] := by
        have e : Split (str " ; ;; ") [0x3B] = [[(0x20 : Byte)], [0x20], [], [0x20]] := by
          decide
        rw [e] at hp; exact hp
      simp only [List.mem_cons, List.mem_singleton, List.not_mem_nil, or_false] at hp'
      rcases hp' with h | h | h | h <;> subst h <;> intro u hu
      · have e : explode [(0x20 : Byte)] = [[0x20]] := by decide
        rw [e] at hu; simp at hu; subst hu; decide
      · have e : explode [(0x20 : Byte)] = [[0x20]] := by decide
        rw [e] at hu; simp at hu; subst hu; decide
      · have e : explode ([] : GoString) = [] := by decide
        rw [e] at hu; simp at hu
      · have e : explode [(0x20 : Byte)] = [[0x20]] := by decide
        rw [e] at hu; simp at hu; subst hu; decide)⟩

section
variable {F : Type}

/-- C22 (tag string round trip): for every list of tags whose expressions are
nonempty, neither start nor end with whitespace and contain no `;`,
`ParseTagEditString(ComposeTagEditString(tags))` returns `tags`; hence for
every string `s`, `ParseTagEditString(s)` returns some `tags` and parsing the
composition of these returns them again; and confirming the edit dialog of an
item whose tags were parsed from a string, with the contents the dialog was
opened with, leaves the item as it was. -/
theorem tag_round_trip :
    (∀ tags : List Tag,
      (∀ t ∈ tags, t.Expression ≠ [] ∧ ¬ leadingSpace t.Expression ∧
        ¬ trailingSpace t.Expression ∧ (0x3B : Byte) ∉ t.Expression) →
      ParseTagEditString (ComposeTagEditString tags) = some tags) ∧
    (∀ s : GoString, ∃ tags : List Tag, ParseTagEditString s = some tags ∧
      ParseTagEditString (ComposeTagEditString tags) = some tags) ∧
    (∀ (w : Item F) (s : GoString), ParseTagEditString s = some w.Tags →
      w.editConfirmed w.Title (ComposeTagEditString w.Tags) w.Description w.Style = some w) := by
  refine ⟨parse_compose, ?_, ?_⟩
  · intro s
    refine ⟨_, ParseTagEditString_eq s, ?_⟩
    exact parse_compose _ (ParseTagEditString_expressions s _ (ParseTagEditString_eq s))
  · intro w s hs
    unfold Item.editConfirmed
    rw [parse_compose _ (ParseTagEditString_expressions s _ hs)]

/-- An instance of `tag_round_trip`: the tags `Tag1=Value1` and `Tag2=Value2`
are composed to `"Tag1=Value1; Tag2=Value2; "` and parsed back. -/
theorem tag_round_trip_witness :
    ComposeTagEditString [⟨str "Tag1=Value1"⟩, ⟨str "Tag2=Value2"⟩]
      = str "Tag1=Value1; Tag2=Value2; " ∧
    ParseTagEditString (ComposeTagEditString [⟨str "Tag1=Value1"⟩, ⟨str "Tag2=Value2"⟩])
      = some [⟨str "Tag1=Value1"⟩, ⟨str "Tag2=Value2"⟩] :=
  ⟨by decide,
    (@tag_round_trip Int).1 [⟨str "Tag1=Value1"⟩, ⟨str "Tag2=Value2"⟩] (by
      intro t ht
      simp only [List.mem_cons, List.mem_singleton, List.not_mem_nil, or_false] at ht
      rcases ht with h | h <;> subst h <;>
        exact ⟨by decide, by unfold leadingSpace; decide, by unfold trailingSpace; decide,
          by decide⟩)⟩

end


section
variable {F C : Type}

/-- C23 as stated fails when two filter tags have the expression of the
toggled tag: with the filter `[a, a]`, `ToggleFilterTag(a)` removes the first
`a` only, so a tag with that expression occurs after the call although one
occurred before it. -/
theorem toggle_duplicate_counterexample :
    ((⟨[], [], [⟨str "a"⟩, ⟨str "a"⟩], none⟩ : Board Unit).ToggleFilterTag ⟨str "a"⟩
        ([] : Heap Int)).map (fun r => r.2.1.FilterTags) = some [⟨str "a"⟩] ∧
      ¬ ((∃ t ∈ [(⟨str "a"⟩ : Tag)], t.Expression = str "a") ↔
        ¬ ∃ t ∈ [(⟨str "a"⟩ : Tag), ⟨str "a"⟩], t.Expression = str "a") :=
  ⟨by decide, by decide⟩

/-- C23, amended to filter lists in which at most one tag has the expression
of the toggled tag: when every item pointer of the board is allocated,
`ToggleFilterTag(tag)` returns, changes no field of the board but
`FilterTags`, and hands `OnFilterChanged` (when set) `ComposeTagEditString`
of the new `FilterTags`. The tag is appended when no filter tag has its
expression, else the first filter tag with its expression is removed; the
filter tags with another expression keep their relative order; and when at
most one filter tag had the expression before the call, a tag with that
expression occurs after the call if and only if none occurred before. -/
theorem ToggleFilterTag_spec (w : Board C) (tag : Tag) (heap : Heap F)
    (hvalid : ∀ stage ∈ w.Stages, ValidRefs heap stage.Items) :
    ∃ (heap' : Heap F) (w' : Board C),
      w.ToggleFilterTag tag heap
        = some (heap', w',
            w.OnFilterChanged.map (fun f => (f, ComposeTagEditString w'.FilterTags))) ∧
      w'.Name = w.Name ∧ w'.Stages = w.Stages ∧ w'.OnFilterChanged = w.OnFilterChanged ∧
      ((∀ t ∈ w.FilterTags, t.Expression ≠ tag.Expression) →
        w'.FilterTags = w.FilterTags ++ [tag]) ∧
      (∀ before x rest, w.FilterTags = before ++ x :: rest →
        x.Expression = tag.Expression → (∀ t ∈ before, t.Expression ≠ tag.Expression) →
        w'.FilterTags = before ++ rest) ∧
      w'.FilterTags.filter (fun t => t.Expression ≠ tag.Expression)
        = w.FilterTags.filter (fun t => t.Expression ≠ tag.Expression) ∧
      ((w.FilterTags.filter (fun t => t.Expression = tag.Expression)).length ≤ 1 →
        ((∃ t ∈ w'.FilterTags, t.Expression = tag.Expression) ↔
          ¬ ∃ t ∈ w.FilterTags, t.Expression = tag.Expression)) := by
  obtain ⟨happend, hremove⟩ := toggled_filter_tags w tag
  generalize hFT : (if w.FilterTagIndex tag < 0 then w.FilterTags ++ [tag]
        else w.FilterTags.take (w.FilterTagIndex tag).toNat
          ++ w.FilterTags.drop (w.FilterTagIndex tag + 1).toNat) = FT at happend hremove
  have hw : (if w.FilterTagIndex tag < 0 then { w with FilterTags := w.FilterTags ++ [tag] }
        else { w with FilterTags := w.FilterTags.take (w.FilterTagIndex tag).toNat
          ++ w.FilterTags.drop (w.FilterTagIndex tag + 1).toNat } : Board C)
      = { w with FilterTags := FT } := by
    rw [← hFT]
    split <;> rfl
  obtain ⟨heap', hheap, _⟩ := applyTagFilterLoop_valid FT w.Stages heap hvalid
  refine ⟨heap', { w with FilterTags := FT }, ?_, rfl, rfl, rfl, happend, hremove, ?_, ?_⟩
  · unfold Board.ToggleFilterTag
    simp only []
    rw [hw]
    unfold Board.ApplyTagFilter
    simp only []
    rw [hheap]
  · show FT.filter _ = _
    by_cases hex : ∃ t ∈ w.FilterTags, t.Expression = tag.Expression
    · obtain ⟨before, x, rest, hl, hx, hb⟩ := split_at_first_expression _ _ hex
      rw [hremove before x rest hl hx hb, hl, List.filter_append, List.filter_append,
        List.filter_cons_of_neg (by simp [hx])]
    · have hnone : ∀ t ∈ w.FilterTags, t.Expression ≠ tag.Expression :=
        fun t ht e => hex ⟨t, ht, e⟩
      rw [happend hnone, List.filter_append, List.filter_cons_of_neg (by simp)]
      simp
  · intro hcount
    show (∃ t ∈ FT, t.Expression = tag.Expression) ↔ _
    by_cases hex : ∃ t ∈ w.FilterTags, t.Expression = tag.Expression
    · obtain ⟨before, x, rest, hl, hx, hb⟩ := split_at_first_expression _ _ hex
      rw [hremove before x rest hl hx hb]
      have hrest : ∀ t ∈ rest, t.Expression ≠ tag.Expression := by
        intro t ht e
        rw [hl, List.filter_append, List.filter_cons_of_pos (by simp [hx]),
          List.length_append, List.length_cons] at hcount
        have hmem : t ∈ rest.filter (fun t => t.Expression = tag.Expression) :=
          List.mem_filter.mpr ⟨ht, by simp [e]⟩
        have := List.length_pos_of_mem hmem
        omega
      constructor
      · intro ⟨t, ht, e⟩
        rcases List.mem_append.mp ht with h | h
        · exact absurd e (hb t h)
        · exact absurd e (hrest t h)
      · intro hno
        exact absurd hex hno
    · have hnone : ∀ t ∈ w.FilterTags, t.Expression ≠ tag.Expression :=
        fun t ht e => hex ⟨t, ht, e⟩
      rw [happend hnone]
      exact ⟨fun _ => hex, fun _ => ⟨tag, by simp, rfl⟩⟩

/-- An instance of `ToggleFilterTag_spec`: a board with one stage holding the
item at address 0 and the filter `[a, b]`; toggling `b` leaves `[a]`. -/
theorem ToggleFilterTag_spec_witness :
    (∀ stage ∈ [(⟨str "todo", [some 0]⟩ : Stage)],
      ValidRefs [(⟨false, str "t", [], [], ⟨⟨0, 0, 0, 255⟩, ⟨0, 0, 0, 255⟩⟩, false, false,
        ⟨0, 0⟩, ⟨0, 0⟩⟩ : Item Int)] stage.Items) ∧
    ∃ (heap' : Heap Int) (w' : Board Unit),
      (⟨str "b", [⟨str "todo", [some 0]⟩], [⟨str "a"⟩, ⟨str "b"⟩], some ()⟩ :
          Board Unit).ToggleFilterTag ⟨str "b"⟩
        [(⟨false, str "t", [], [], ⟨⟨0, 0, 0, 255⟩, ⟨0, 0, 0, 255⟩⟩, false, false,
          ⟨0, 0⟩, ⟨0, 0⟩⟩ : Item Int)]
        = some (heap', w', some ((), ComposeTagEditString w'.FilterTags)) ∧
      w'.FilterTags = [⟨str "a"⟩] := by
  have hv : ∀ stage ∈ [(⟨str "todo", [some 0]⟩ : Stage)],
      ValidRefs [(⟨false, str "t", [], [], ⟨⟨0, 0, 0, 255⟩, ⟨0, 0, 0, 255⟩⟩, false, false,
        ⟨0, 0⟩, ⟨0, 0⟩⟩ : Item Int)] stage.Items := by
    intro stage hs r hr
    simp only [List.mem_singleton] at hs
    subst hs
    simp only [List.mem_singleton] at hr
    exact ⟨0, hr, by decide⟩
  obtain ⟨heap', w', h1, _, _, _, _, h2, _, _⟩ := ToggleFilterTag_spec
    (⟨str "b", [⟨str "todo", [some 0]⟩], [⟨str "a"⟩, ⟨str "b"⟩], some ()⟩ : Board Unit)
    ⟨str "b"⟩ _ hv
  exact ⟨hv, heap', w', h1, h2 [⟨str "a"⟩] ⟨str "b"⟩ [] rfl rfl (by decide)⟩

end



/-- C25 (Tag.DisplayString): an expression that contains `=` has a first
`=`, and the result is the text before it, then `": "`, then the text after
it, in which every later `=` is kept; an expression without `=` is returned
unchanged. -/
theorem DisplayString_spec (t : Tag) :
    ((0x3D : Byte) ∈ t.Expression →
      ∃ before after : GoString, t.Expression = before ++ 0x3D :: after ∧
        (0x3D : Byte) ∉ before ∧ t.DisplayString = before ++ str ": " ++ after) ∧
    (∀ before after : GoString, t.Expression = before ++ 0x3D :: after →
      (0x3D : Byte) ∉ before → t.DisplayString = before ++ str ": " ++ after) ∧
    ((0x3D : Byte) ∉ t.Expression → t.DisplayString = t.Expression) := by
  have hcut : ∀ before after : GoString, t.Expression = before ++ 0x3D :: after →
      (0x3D : Byte) ∉ before → t.DisplayString = before ++ str ": " ++ after := by
    intro before after he hb
    unfold Tag.DisplayString
    rw [he, Cut_found 0x3D before after hb]
    rfl
  refine ⟨?_, hcut, ?_⟩
  · intro h
    obtain ⟨before, after, he, hb⟩ := split_at_first_byte 0x3D t.Expression h
    exact ⟨before, after, he, hb, hcut before after he hb⟩
  · intro h
    unfold Tag.DisplayString
    rw [Cut_not_found 0x3D t.Expression h]
    rfl

/-- An instance of `DisplayString_spec`: `"a=b=c"` is displayed as `"a: b=c"`
and `"abc"` as `"abc"`. -/
theorem DisplayString_spec_witness :
    (Tag.mk (str "a=b=c")).DisplayString = str "a: b=c" ∧
    (Tag.mk (str "abc")).DisplayString = str "abc" :=
  ⟨(DisplayString_spec ⟨str "a=b=c"⟩).2.1 (str "a") (str "b=c") (by decide) (by decide),
    (DisplayString_spec ⟨str "abc"⟩).2.2 (by decide)⟩

section
variable {W : Type} [LinearOrder W]

theorem F32.exists_measure {V : Type} (measure : GoString → F32 V)
    (hm : ∀ s, measure s ≠ .NaN) (d : V) :
    ∃ m : GoString → V, measure = fun s => F32.num (m s) :=
  ⟨_, F32.measure_eq_num measure hm d⟩

/-- A first character of one byte is the byte `line[:1]`. -/
theorem firstChar_eq_take_one (s : GoString) (h : (firstChar s).length = 1) :
    firstChar s = s.take 1 := by
  have hs : s ≠ [] := by
    intro e; rw [e] at h; simp [firstChar] at h
  have hpre := take_one_le_firstChar s hs
  symm
  apply hpre.eq_of_length
  rw [h, List.length_take]
  have : 0 < s.length := List.length_pos.mpr hs
  omega

/-- C2 as stated fails twice. A width that is not a number is never `<=
maxWidth`: with the measure that is NaN on `"a"` and `len` elsewhere and
`maxWidth = 1`, `wrapLine("ab")` returns `["a", "b"]`, whose first segment
does not measure `<= maxWidth`. And the third check measures the byte
`line[:1]`, not the first character: with the measure that gives `"é"` the
width 1 and every other string four times its length, and `maxWidth = 3`,
`wrapLine("éab")` returns the line unsplit, which measures 16, though its
first character measures 1. -/
theorem fit_bound_counterexample :
    (nanOnA [] ≤ F32.num 1 ∧
      (∀ extra : Nat, wrapLine nanOnA (F32.num 1) (5 + extra) (str "ab")
        = .ok [str "a", str "b"]) ∧
      str "a" ∈ [str "a", str "b"].dropLast ∧ ¬ nanOnA (str "a") ≤ F32.num 1) ∧
    (leadByteMeasure [] ≤ F32.num 3 ∧
      (∀ extra : Nat, wrapLine leadByteMeasure (F32.num 3) (1 + extra) eAcuteAb
        = .ok [eAcuteAb]) ∧
      F32.num 3 < leadByteMeasure eAcuteAb ∧ firstChar eAcuteAb = eAcute ∧
      ¬ F32.num 3 < leadByteMeasure (firstChar eAcuteAb)) :=
  ⟨⟨by decide, fun extra => wrapLine_mono_any nanOnA (F32.num 1) 5 (str "ab") _ (by decide) extra,
      by decide, by decide⟩,
    ⟨by decide,
      fun extra => wrapLine_mono_any leadByteMeasure (F32.num 3) 1 eAcuteAb _ (by decide) extra,
      by decide, by decide, by decide⟩⟩

/-- C2 (fit bound), amended to widths that are numbers: for a measure that
never returns NaN and a `maxWidth` at least the measure of the empty string,
every segment `wrapLine` returns but the last measures at most `maxWidth`;
and when the first character of the last segment is a single byte, the last
segment measures more than `maxWidth` only if that character alone does, as
the single-character-overflow short-circuit checks. -/
theorem wrapLine_fit_bound (measure : GoString → F32 W) (maxWidth : F32 W) (fuel : Nat)
    (line : GoString) (segs : List GoString) (hm : ∀ s, measure s ≠ .NaN)
    (hempty : measure [] ≤ maxWidth)
    (h : wrapLine measure maxWidth fuel line = .ok segs) :
    (∀ s ∈ segs.dropLast, measure s ≤ maxWidth) ∧
      (∀ s, segs.getLast? = some s → (firstChar s).length = 1 → maxWidth < measure s →
        maxWidth < measure (firstChar s)) := by
  obtain ⟨x, rfl⟩ := F32.exists_num maxWidth (F32.ne_NaN_of_le_right hempty)
  obtain ⟨m, rfl⟩ := F32.exists_measure measure hm x
  rw [wrapLine_num] at h
  obtain ⟨h1, h2⟩ := fit_bound_linear m x fuel line segs hempty h
  refine ⟨h1, ?_⟩
  intro s hs hone hover
  rw [firstChar_eq_take_one s hone]
  exact h2 s hs hover

/-- An instance of `wrapLine_fit_bound`: `"hello world"`, width 3, measure
`len`: the result is `["hel", "lo", "wor", "ld"]`, every segment fits. -/
theorem wrapLine_fit_bound_witness :
    (∀ s, numLen s ≠ F32.NaN) ∧ numLen [] ≤ F32.num 3 ∧
      wrapLine numLen (F32.num 3) 40 (str "hello world")
        = .ok [str "hel", str "lo", str "wor", str "ld"] ∧
      (∀ s ∈ [str "hel", str "lo", str "wor", str "ld"].dropLast, numLen s ≤ F32.num 3) ∧
      (∀ s, [str "hel", str "lo", str "wor", str "ld"].getLast? = some s →
        (firstChar s).length = 1 → F32.num 3 < numLen s → F32.num 3 < numLen (firstChar s)) :=
  ⟨fun _ h => by simp [numLen] at h, by decide, by decide,
    wrapLine_fit_bound numLen (F32.num 3) 40 (str "hello world")
      [str "hel", str "lo", str "wor", str "ld"]
      (fun _ h => by simp [numLen] at h) (by decide) (by decide)⟩

/-- C10 (oversized first word), as amended: for a measure monotonic in added
characters and a line that contains a space, whose first character fits and
whose first byte `line[:1]`, the one the third check of the source measures,
fits as well:
(1) when the first word alone does not fit, the outer loop restarts in
character mode and emits, as first segment, a nonempty proper prefix of the
first word that fits, made of the first `k > 0` characters of the line;
(2) when the first word alone fits and the first two words together do not,
the first segment is exactly the first word.
In both cases the result of `wrapLine` is that segment in front of the result
for the rest, so it is the first returned segment whenever `wrapLine` returns. -/
theorem wrapLine_first_word (measure : GoString → F32 W) (maxWidth : F32 W) (fuel : Nat)
    (line : GoString) (hmono : CharMonotonic measure) (hspace : (32 : Byte) ∈ line)
    (hchar : measure (firstChar line) ≤ maxWidth)
    (hbyte : measure (line.take 1) ≤ maxWidth) (hfuel : 2 * line.length + 6 ≤ fuel) :
    (maxWidth < measure (firstWord line) →
      ∃ c r : GoString, ∃ k : Nat,
        outerLoop measure maxWidth line fuel space = .emit c r ∧
        wrapLine measure maxWidth (fuel + 1) line
          = (wrapLine measure maxWidth fuel r).prepend c ∧
        (∀ segs, wrapLine measure maxWidth (fuel + 1) line = .ok segs → segs.head? = some c) ∧
        0 < k ∧ c = Join ((explode line).take k) [] ∧ r = Join ((explode line).drop k) [] ∧
        c ≠ [] ∧ c <+: firstWord line ∧ c ≠ firstWord line ∧ measure c ≤ maxWidth) ∧
    (measure (firstWord line) ≤ maxWidth →
      maxWidth < measure (Join ((Split line space).take 2) space) →
      ∃ r : GoString,
        outerLoop measure maxWidth line fuel space = .emit (firstWord line) r ∧
        r = Join ((Split line space).drop 1) space ∧
        wrapLine measure maxWidth (fuel + 1) line
          = (wrapLine measure maxWidth fuel r).prepend (firstWord line) ∧
        (∀ segs, wrapLine measure maxWidth (fuel + 1) line = .ok segs →
          segs.head? = some (firstWord line))) := by
  obtain ⟨x, rfl⟩ := F32.exists_num maxWidth (F32.ne_NaN_of_le_right hchar)
  obtain ⟨m, rfl⟩ := F32.exists_measure measure hmono.ne_NaN x
  simp only [wrapLine_num, outerLoop_num]
  exact first_word_linear m x fuel line hmono hspace hchar hbyte hfuel

/-- An instance of `wrapLine_first_word`: at `"hello world"` with width 3
the first word does not fit and the first segment is `"hel"`; with width 5
the first word fits, the first two words do not, and the first segment is
`"hello"`. -/
theorem wrapLine_first_word_witness :
    CharMonotonic numLen ∧
    (outerLoop numLen (F32.num 3) (str "hello world") 28 space
        = .emit (str "hel") (str "lo world") ∧
      ∃ c r : GoString, ∃ k : Nat,
        outerLoop numLen (F32.num 3) (str "hello world") 28 space = .emit c r ∧
        wrapLine numLen (F32.num 3) (28 + 1) (str "hello world")
          = (wrapLine numLen (F32.num 3) 28 r).prepend c ∧
        (∀ segs, wrapLine numLen (F32.num 3) (28 + 1) (str "hello world") = .ok segs →
          segs.head? = some c) ∧
        0 < k ∧ c = Join ((explode (str "hello world")).take k) [] ∧
        r = Join ((explode (str "hello world")).drop k) [] ∧
        c ≠ [] ∧ c <+: firstWord (str "hello world") ∧ c ≠ firstWord (str "hello world") ∧
        numLen c ≤ F32.num 3) ∧
    (firstWord (str "hello world") = str "hello" ∧
      ∃ r : GoString,
        outerLoop numLen (F32.num 5) (str "hello world") 28 space
          = .emit (firstWord (str "hello world")) r ∧
        r = Join ((Split (str "hello world") space).drop 1) space ∧
        wrapLine numLen (F32.num 5) (28 + 1) (str "hello world")
          = (wrapLine numLen (F32.num 5) 28 r).prepend (firstWord (str "hello world")) ∧
        (∀ segs, wrapLine numLen (F32.num 5) (28 + 1) (str "hello world") = .ok segs →
          segs.head? = some (firstWord (str "hello world")))) :=
  ⟨numLen_charMonotonic,
    ⟨by decide,
      (wrapLine_first_word numLen (F32.num 3) 28 (str "hello world") numLen_charMonotonic
        (by decide) (by decide) (by decide) (by decide)).1 (by decide)⟩,
    ⟨by decide,
      (wrapLine_first_word numLen (F32.num 5) 28 (str "hello world") numLen_charMonotonic
        (by decide) (by decide) (by decide) (by decide)).2 (by decide) (by decide)⟩⟩

/-- C19 as stated fails when `maxWidth` is not a number: on the three words
of `"a b c"` with measure `len` and `maxWidth = NaN` the search starts at
`wrapIndex = 2`, where every comparison is false, no `switch` case applies,
the pass leaves the state unchanged, and the loop is never left. -/
theorem innerLoop_spins_on_NaN :
    2 ≤ [str "a", str "b", str "c"].length ∧
    initialState 3 = ⟨2, 1, 2, 0⟩ ∧
    ¬ caseApplies numLen F32.NaN [str "a", str "b", str "c"] space (initialState 3) ∧
    switchStep numLen F32.NaN [str "a", str "b", str "c"] space (initialState 3)
      = .next (initialState 3) ∧
    ∀ fuel : Nat,
      innerLoop numLen F32.NaN [str "a", str "b", str "c"] space fuel (initialState 3)
        = .timeout :=
  ⟨by decide, by decide, by unfold caseApplies widthAt; decide, by decide,
    innerLoop_spin numLen F32.NaN _ space _ (by decide)⟩

/-- C19 (search convergence), amended to widths that are numbers: for a part
list of at least two parts, any separator, a `maxWidth` that is not NaN and a
measure that never returns NaN, the binary search started in its initial state
(1) enters the loop body only in states with
`rangeLowerIndex <= wrapIndex <= rangeUpperIndex <= partCount - 1` in which
some `switch` case applies;
(2) never comes back to a state: from pass to pass `rangeLowerIndex` does not
fall, `rangeUpperIndex` does not rise and `searchMeasure` falls, so the
search cannot oscillate;
(3) makes at most `2 * partCount + 3` passes; and
(4) leaves the loop, by emitting a candidate (the `return` cases) or by the
retry in character mode, whenever it is given that many passes. -/
theorem innerLoop_convergence (measure : GoString → F32 W) (maxWidth : F32 W)
    (parts : List GoString) (sep : GoString) (hn : 2 ≤ parts.length)
    (hmax : maxWidth ≠ .NaN) (hm : ∀ s, measure s ≠ .NaN) :
    (∀ fuel : Nat, ∀ st ∈ searchStates measure maxWidth parts sep fuel (initialState parts.length),
      st.rangeLowerIndex ≤ st.wrapIndex ∧ st.wrapIndex ≤ st.rangeUpperIndex ∧
      st.rangeUpperIndex ≤ (parts.length : Int) - 1 ∧
      caseApplies measure maxWidth parts sep st) ∧
    (∀ fuel : Nat,
      (searchStates measure maxWidth parts sep fuel (initialState parts.length)).Pairwise
        (fun a b => a.rangeLowerIndex ≤ b.rangeLowerIndex ∧
          b.rangeUpperIndex ≤ a.rangeUpperIndex ∧ searchMeasure b < searchMeasure a)) ∧
    (∀ fuel : Nat,
      (searchStates measure maxWidth parts sep fuel (initialState parts.length)).length
        ≤ 2 * parts.length + 3) ∧
    (∀ fuel : Nat, 2 * parts.length + 3 ≤ fuel →
      (∃ c r, innerLoop measure maxWidth parts sep fuel (initialState parts.length) = .emit c r)
        ∨ innerLoop measure maxWidth parts sep fuel (initialState parts.length) = .retry) := by
  obtain ⟨x, rfl⟩ := F32.exists_num maxWidth hmax
  obtain ⟨m, rfl⟩ := F32.exists_measure measure hm x
  simp only [searchStates_num, innerLoop_num]
  exact convergence_linear m x parts sep hn

/-- An instance of `innerLoop_convergence`: the four parts of `"a b c dddd"`,
measure `len`, `maxWidth = 5`: the search passes through two states and emits
`"a b"`. -/
theorem innerLoop_convergence_witness :
    2 ≤ (Split (str "a b c dddd") space).length ∧ F32.num (5 : Int) ≠ F32.NaN ∧
      (∀ s, numLen s ≠ F32.NaN) ∧
      searchStates numLen (F32.num 5) (Split (str "a b c dddd") space) space 11 (initialState 4)
        = [⟨2, 1, 3, 0⟩, ⟨2, 0, 3, 2⟩] ∧
      ((∃ c r, innerLoop numLen (F32.num 5) (Split (str "a b c dddd") space) space 11
          (initialState (Split (str "a b c dddd") space).length) = .emit c r)
        ∨ innerLoop numLen (F32.num 5) (Split (str "a b c dddd") space) space 11
          (initialState (Split (str "a b c dddd") space).length) = .retry) :=
  ⟨by decide, by decide, fun _ h => by simp [numLen] at h, by decide,
    (innerLoop_convergence numLen (F32.num 5) (Split (str "a b c dddd") space) space
      (by decide) (by decide) (fun _ h => by simp [numLen] at h)).2.2.2 11 (by decide)⟩

/-- C21 as stated fails when `maxWidth` is not a number: the line `"ab"` has
two single-byte characters and passes the three checks under measure `len`
and `maxWidth = NaN`, every comparison being false; in character mode the
first pass, at `wrapIndex = 1`, takes the last `switch` case, and the outer
loop emits `"a"` with rest `"b"`. -/
theorem last_case_taken_on_NaN :
    (∀ p ∈ explode (str "ab"), p.length = 1) ∧ ¬ len (str "ab") < 2 ∧
    ¬ numLen (str "ab") ≤ F32.NaN ∧ ¬ numLen ((str "ab").take 1) > F32.NaN ∧
    initialState (explode (str "ab")).length
      ∈ searchStates numLen F32.NaN (explode (str "ab")) [] 1
          (initialState (explode (str "ab")).length) ∧
    lastCaseTaken numLen F32.NaN (explode (str "ab")) []
      (initialState (explode (str "ab")).length) ∧
    ∀ extra : Nat, outerLoop numLen F32.NaN (str "ab") (3 + extra) space
      = .emit (str "a") (str "b") :=
  ⟨by decide, by decide, by decide, by decide, by decide,
    by unfold lastCaseTaken widthAt; decide,
    fun extra => outerLoop_mono_any numLen F32.NaN (str "ab") 3 space (by decide) extra⟩

/-- C21, amended to widths that are numbers: for every line whose characters
are all single-byte, every `maxWidth` that is not NaN and every measure that
never returns NaN, once the first-character check has passed
(`len(line) >= 2` and `line[:1]` does not measure more than `maxWidth`),
`line[:1]` is the first character part, and in character mode
(1) every state in which the loop body is entered has `wrapIndex >= 1` and
does not take the last `switch` case, so the search never stabilises at
prefix count 0;
(2) every candidate the outer loop emits is the join of `k >= 1` leading
characters and so contains at least one character; and
(3) the outer loop does emit a candidate when given `2 * len(line) + 4`
passes. -/
theorem char_mode_last_case_unreachable (measure : GoString → F32 W) (maxWidth : F32 W)
    (line : GoString) (hbytes : ∀ p ∈ explode line, p.length = 1)
    (h1 : ¬ len line < 2) (h3 : ¬ measure (line.take 1) > maxWidth)
    (hmax : maxWidth ≠ .NaN) (hm : ∀ s, measure s ≠ .NaN) :
    line.take 1 = Join ((explode line).take 1) [] ∧
    (∀ fuel : Nat, ∀ st ∈ searchStates measure maxWidth (explode line) [] fuel
        (initialState (explode line).length),
      1 ≤ st.wrapIndex ∧ ¬ (st.wrapIndexStep ≤ 0 ∧ st.wrapIndex = 0) ∧
        ¬ lastCaseTaken measure maxWidth (explode line) [] st) ∧
    (∀ (fuel : Nat) (c r : GoString), outerLoop measure maxWidth line fuel [] = .emit c r →
      c ≠ [] ∧ 1 ≤ (explode c).length ∧
        ∃ k : Nat, 0 < k ∧ k ≤ (explode line).length ∧
          c = Join ((explode line).take k) [] ∧ r = Join ((explode line).drop k) []) ∧
    (∀ fuel : Nat, 2 * line.length + 4 ≤ fuel →
      ∃ c r : GoString, outerLoop measure maxWidth line fuel [] = .emit c r) := by
  obtain ⟨x, rfl⟩ := F32.exists_num maxWidth hmax
  obtain ⟨m, rfl⟩ := F32.exists_measure measure hm x
  simp only [searchStates_num, outerLoop_num]
  exact last_case_linear m x line hbytes h1 h3

/-- An instance of `char_mode_last_case_unreachable`: the line `"abcdefgh"`
under `len` and `maxWidth = 5`. -/
theorem char_mode_last_case_unreachable_witness :
    (∀ p ∈ explode (str "abcdefgh"), p.length = 1) ∧ ¬ len (str "abcdefgh") < 2 ∧
      ¬ numLen ((str "abcdefgh").take 1) > F32.num 5 ∧ F32.num (5 : Int) ≠ F32.NaN ∧
      (∀ s, numLen s ≠ F32.NaN) ∧
      (∀ (fuel : Nat) (c r : GoString),
        outerLoop numLen (F32.num 5) (str "abcdefgh") fuel [] = .emit c r → c ≠ []) :=
  ⟨by decide, by decide, by decide, by decide, fun _ h => by simp [numLen] at h,
    fun fuel c r h =>
      ((char_mode_last_case_unreachable numLen (F32.num 5) (str "abcdefgh") (by decide)
        (by decide) (by decide) (by decide) (fun _ h => by simp [numLen] at h)).2.2.1
          fuel c r h).1⟩

end

section
variable {F : Type}

/-- C24 as stated fails on a stage that holds a `nil` item pointer: with
`Items = [x, nil]` and the reference `x`, `InsertItem` moves the items and
then panics in `w.Refresh()`, instead of returning `true`. -/
theorem InsertItem_nil_counterexample :
    (some 0 : ItemRef) ∈ (⟨str "todo", [some 0, none]⟩ : Stage).Items ∧
    (⟨str "todo", [some 0, none]⟩ : Stage).InsertItem
        [(⟨false, str "x", [], [], ⟨⟨0, 0, 0, 255⟩, ⟨0, 0, 0, 255⟩⟩, false, false,
          ⟨0, 0⟩, ⟨0, 0⟩⟩ : Item Int)]
        false (some 0) (str "new") [] (str "text") ⟨⟨0, 0, 0, 255⟩, ⟨255, 255, 153, 255⟩⟩
      = none :=
  ⟨by decide, rfl⟩

/-- C24 (Stage.InsertItem), amended to stages whose item pointers are all
allocated, none of them `nil`: when the reference is not in the stage the call
returns `false` and changes nothing (this holds of every stage). When it is,
the call returns `true`, allocates exactly one item, with the given title,
tags, description and style, and `Items` becomes the old list with the pointer
to the new item put in immediately before the first occurrence of the
reference when `after` is false and immediately after it when `after` is
true. The new pointer differs from all pointers of the stage, and removing it
from the new list gives the old list: the existing items keep their order. -/
theorem InsertItem_spec [Zero F] (heap : Heap F) (w : Stage) (after : Bool)
    (reference : ItemRef) (title : GoString) (tags : List Tag) (description : GoString)
    (style : ItemStyle) :
    (reference ∉ w.Items →
      w.InsertItem heap after reference title tags description style = some (heap, w, false)) ∧
    (reference ∈ w.Items → ValidRefs heap w.Items →
      ∃ (before rest : List ItemRef) (item : Item F),
        w.Items = before ++ reference :: rest ∧ reference ∉ before ∧
        item.Title = title ∧ item.Tags = tags ∧ item.Description = description ∧
        item.Style = style ∧
        w.InsertItem heap after reference title tags description style
          = some (heap ++ [item],
              { w with Items :=
                  if after = true then before ++ reference :: some heap.length :: rest
                  else before ++ some heap.length :: reference :: rest },
              true)) ∧
    (ValidRefs heap w.Items →
      some heap.length ∉ w.Items ∧
      ∀ (heap' : Heap F) (w' : Stage),
        w.InsertItem heap after reference title tags description style = some (heap', w', true) →
        w'.Items.length = w.Items.length + 1 ∧
        w'.Items.filter (fun r => r ≠ some heap.length) = w.Items) := by
  have hnot : reference ∉ w.Items →
      w.InsertItem heap after reference title tags description style = some (heap, w, false) := by
    intro h
    unfold Stage.InsertItem Stage.ItemIndex
    simp only []
    rw [itemIndexLoop_none reference w.Items 0 h, if_pos (by decide)]
  have hfound : ∀ before rest : List ItemRef, w.Items = before ++ reference :: rest →
      reference ∉ before → ValidRefs heap w.Items →
      w.InsertItem heap after reference title tags description style
        = some ((NewItem heap title tags description style).1,
            { w with Items :=
                if after = true then before ++ reference :: some heap.length :: rest
                else before ++ some heap.length :: reference :: rest },
            true) := by
    intro before rest hl hb hvalid
    have hk : w.ItemIndex reference = (before.length : Int) := by
      unfold Stage.ItemIndex
      rw [hl, itemIndexLoop_first reference before rest 0 hb]
      omega
    rw [InsertItem_at heap w after reference title tags description style before.length hk
      (by rw [hl, List.length_append, List.length_cons]; omega) hvalid]
    have h1 : (before ++ reference :: rest).take before.length = before := List.take_left' rfl
    have h2 : (before ++ reference :: rest).drop before.length = reference :: rest :=
      List.drop_left' rfl
    have h3 : (before ++ reference :: rest).take (before.length + 1) = before ++ [reference] := by
      have : before ++ reference :: rest = (before ++ [reference]) ++ rest := by simp
      rw [this]
      exact List.take_left' (by simp)
    have h4 : (before ++ reference :: rest).drop (before.length + 1) = rest := by
      have : before ++ reference :: rest = (before ++ [reference]) ++ rest := by simp
      rw [this]
      exact List.drop_left' (by simp)
    cases after
    · simp only [Bool.false_eq_true, if_false]
      rw [hl, h1, h2]
    · simp only [if_true]
      rw [hl, h3, h4]
      simp
  refine ⟨hnot, ?_, ?_⟩
  · intro hmem hvalid
    obtain ⟨before, rest, hl, hb⟩ := split_at_first reference w.Items hmem
    exact ⟨before, rest, _, hl, hb, rfl, rfl, rfl, rfl, hfound before rest hl hb hvalid⟩
  · intro hvalid
    have hfresh : some heap.length ∉ w.Items := by
      intro hm
      obtain ⟨a, ha, hlt⟩ := hvalid _ hm
      injection ha with ha
      omega
    refine ⟨hfresh, ?_⟩
    intro heap' w' hres
    by_cases hmem : reference ∈ w.Items
    · obtain ⟨before, rest, hl, hb⟩ := split_at_first reference w.Items hmem
      rw [hfound before rest hl hb hvalid] at hres
      injection hres with hres
      injection hres with _ hres
      injection hres with hw _
      rw [← hw]
      have hbf : ∀ r ∈ before, r ≠ some heap.length := by
        intro r hr e
        exact hfresh (by rw [hl, ← e]; exact List.mem_append_left _ hr)
      have hrf : ∀ r ∈ rest, r ≠ some heap.length := by
        intro r hr e
        exact hfresh (by
          rw [hl, ← e]; exact List.mem_append_right _ (List.mem_cons_of_mem _ hr))
      have href : reference ≠ some heap.length := by
        intro e
        exact hfresh (by rw [hl, ← e]; simp)
      have fb : before.filter (fun r => r ≠ some heap.length) = before :=
        List.filter_eq_self.mpr (fun r hr => by simpa using hbf r hr)
      have fr : rest.filter (fun r => r ≠ some heap.length) = rest :=
        List.filter_eq_self.mpr (fun r hr => by simpa using hrf r hr)
      cases after
      · simp only [Bool.false_eq_true, if_false]
        refine ⟨by rw [hl]; simp only [List.length_append, List.length_cons]; omega, ?_⟩
        rw [List.filter_append, fb, List.filter_cons_of_neg (by simp),
          List.filter_cons_of_pos (by simpa using href), fr, hl]
      · simp only [if_true]
        refine ⟨by rw [hl]; simp only [List.length_append, List.length_cons]; omega, ?_⟩
        rw [List.filter_append, fb, List.filter_cons_of_pos (by simpa using href),
          List.filter_cons_of_neg (by simp), fr, hl]
    · rw [hnot hmem] at hres
      injection hres with hres
      injection hres with _ hres
      injection hres with _ hb
      exact absurd hb (by decide)

/-- An instance of `InsertItem_spec`: the stage `[0, 1]` with two items
allocated; inserting before the item at address 1 gives `[0, 2, 1]`. -/
theorem InsertItem_spec_witness :
    (some 1 : ItemRef) ∈ (⟨str "todo", [some 0, some 1]⟩ : Stage).Items ∧
    ValidRefs [(⟨false, str "x", [], [], ⟨⟨0, 0, 0, 255⟩, ⟨0, 0, 0, 255⟩⟩, false, false,
            ⟨0, 0⟩, ⟨0, 0⟩⟩ : Item Int),
           ⟨false, str "y", [], [], ⟨⟨0, 0, 0, 255⟩, ⟨0, 0, 0, 255⟩⟩, false, false,
            ⟨0, 0⟩, ⟨0, 0⟩⟩] (⟨str "todo", [some 0, some 1]⟩ : Stage).Items ∧
    ∃ (before rest : List ItemRef) (item : Item Int),
      (⟨str "todo", [some 0, some 1]⟩ : Stage).Items = before ++ some 1 :: rest ∧
      some 1 ∉ before ∧ item.Title = str "new" ∧ item.Tags = [⟨str "a"⟩] ∧
      item.Description = str "text" ∧ item.Style = ⟨⟨0, 0, 0, 255⟩, ⟨255, 255, 153, 255⟩⟩ ∧
      (⟨str "todo", [some 0, some 1]⟩ : Stage).InsertItem
          [(⟨false, str "x", [], [], ⟨⟨0, 0, 0, 255⟩, ⟨0, 0, 0, 255⟩⟩, false, false,
            ⟨0, 0⟩, ⟨0, 0⟩⟩ : Item Int),
           ⟨false, str "y", [], [], ⟨⟨0, 0, 0, 255⟩, ⟨0, 0, 0, 255⟩⟩, false, false,
            ⟨0, 0⟩, ⟨0, 0⟩⟩]
          false (some 1) (str "new") [⟨str "a"⟩] (str "text")
          ⟨⟨0, 0, 0, 255⟩, ⟨255, 255, 153, 255⟩⟩
        = some ([(⟨false, str "x", [], [], ⟨⟨0, 0, 0, 255⟩, ⟨0, 0, 0, 255⟩⟩, false, false,
              ⟨0, 0⟩, ⟨0, 0⟩⟩ : Item Int),
             ⟨false, str "y", [], [], ⟨⟨0, 0, 0, 255⟩, ⟨0, 0, 0, 255⟩⟩, false, false,
              ⟨0, 0⟩, ⟨0, 0⟩⟩] ++ [item],
            { (⟨str "todo", [some 0, some 1]⟩ : Stage) with
              Items := if false = true then before ++ some 1 :: some 2 :: rest
                else before ++ some 2 :: some 1 :: rest },
            true) := by
  have hv : ValidRefs [(⟨false, str "x", [], [], ⟨⟨0, 0, 0, 255⟩, ⟨0, 0, 0, 255⟩⟩, false,
        false, ⟨0, 0⟩, ⟨0, 0⟩⟩ : Item Int),
      ⟨false, str "y", [], [], ⟨⟨0, 0, 0, 255⟩, ⟨0, 0, 0, 255⟩⟩, false, false,
        ⟨0, 0⟩, ⟨0, 0⟩⟩] (⟨str "todo", [some 0, some 1]⟩ : Stage).Items := by
    intro r hr
    simp only [List.mem_cons, List.mem_singleton, List.not_mem_nil, or_false] at hr
    rcases hr with h | h
    · exact ⟨0, h, by decide⟩
    · exact ⟨1, h, by decide⟩
  exact ⟨by decide, hv,
    (InsertItem_spec _ (⟨str "todo", [some 0, some 1]⟩ : Stage) false (some 1) (str "new")
      [⟨str "a"⟩] (str "text") ⟨⟨0, 0, 0, 255⟩, ⟨255, 255, 153, 255⟩⟩).2.1 (by decide) hv⟩

end

end Bankan
